import Mathlib

/-!
Shallow embedding of `src/src-python/main.py` (a JA→KO chat-translation
pipeline): the Korean particle ("josa") agreement corrector, the bounded
nickname cache, the span protector `preprocess_chunking`, and the chunk
routing / reassembly of `process_batch_inference`.  Strings are modelled as
`List Char`; Python compares characters by code point, as does `Char`.
-/

set_option maxHeartbeats 1000000
set_option maxRecDepth 8000

/-! ## Character classes -/

/-- `'가' <= c <= '힣'`: the Hangul-syllable block test used by `has_batchim`
and by the word/lookahead classes of `JOSA_PATTERN`. -/
def isHangulSyl (c : Char) : Bool := 0xAC00 ≤ c.toNat && c.toNat ≤ 0xD7A3

/-- `has_batchim` from `fix_korean_josa`: a Hangul syllable whose code-point
offset from the block base 44032 is not divisible by 28. -/
def has_batchim (c : Char) : Bool := isHangulSyl c && (c.toNat - 44032) % 28 != 0

/-- The word class `[가-힣a-zA-Z0-9\)]` of `JOSA_PATTERN`. -/
def isJosaWord (c : Char) : Bool :=
  isHangulSyl c || ('a' ≤ c && c ≤ 'z') || ('A' ≤ c && c ≤ 'Z') ||
  ('0' ≤ c && c ≤ '9') || c = ')'

/-- Index of the particle pair of `c` (object / subject / topic /
conjunctive), `none` for a non-particle.  The eight alternatives of
`JOSA_PATTERN`'s second group. -/
def pairIdx (c : Char) : Option Nat :=
  if c = '을' || c = '를' then some 0
  else if c = '이' || c = '가' then some 1
  else if c = '은' || c = '는' then some 2
  else if c = '와' || c = '과' then some 3
  else none

/-- Membership in the particle alternation `(을|를|이|가|은|는|와|과)`. -/
def isParticle (c : Char) : Bool := (pairIdx c).isSome

/-- The `has_final` computation of `replace_callback`:
`has_batchim(word[-1]) if '가' <= word[-1] <= '힣' else False`. -/
def josaHasFinal (lastc : Char) : Bool :=
  if isHangulSyl lastc then has_batchim lastc else false

/-- The `mapping` table of `replace_callback` applied to a particle. -/
def josaMap (hasF : Bool) (p : Char) : Char :=
  if p = '을' || p = '를' then (if hasF then '을' else '를')
  else if p = '이' || p = '가' then (if hasF then '이' else '가')
  else if p = '은' || p = '는' then (if hasF then '은' else '는')
  else if p = '와' || p = '과' then (if hasF then '과' else '와')
  else p

/-! ## The `JOSA_PATTERN` matcher

`([가-힣a-zA-Z0-9\)]+)(을|를|이|가|은|는|와|과)(?![가-힣])` matched at the head
of a suffix: the greedy group backtracks, so the match takes the largest word
length `w ≥ 1` whose first `w` characters are word class, whose character at
index `w` is a particle, and whose character at index `w + 1` (if any) is not
a Hangul syllable. -/

/-- Negative lookahead `(?![가-힣])` at index `i`. -/
def josaLookOk (s : List Char) (i : Nat) : Bool :=
  match s.get? i with
  | none => true
  | some c => !isHangulSyl c

/-- Length of the maximal word-class run at the head of `s`. -/
def josaRun (s : List Char) : Nat := (s.takeWhile isJosaWord).length

/-- Search candidate word lengths `n, n-1, …, 1` (greedy backtracking). -/
def josaSearch (s : List Char) : Nat → Option Nat
  | 0 => none
  | w + 1 =>
    match s.get? (w + 1) with
    | some p =>
      if isParticle p && josaLookOk s (w + 2) then some (w + 1) else josaSearch s w
    | none => josaSearch s w

/-- Word length of the `JOSA_PATTERN` match at the head of `s`, if any. -/
def josaMatchLen (s : List Char) : Option Nat := josaSearch s (josaRun s)

/-- The scanner of `JOSA_PATTERN.sub`, structurally recursive on a fuel
bound (one unit per scan step; `fuel = length` always suffices since every
step consumes at least one character). -/
def fkjF : Nat → List Char → List Char
  | 0, s => s
  | _ + 1, [] => []
  | fuel + 1, c :: rest =>
    match josaMatchLen (c :: rest) with
    | some w =>
      let s := c :: rest
      let word := s.take w
      let p := s.getD w ' '
      word ++ [josaMap (josaHasFinal (word.getLastD ' ')) p] ++
        fkjF fuel (s.drop (w + 1))
    | none => c :: fkjF fuel rest

/-- `JOSA_PATTERN.sub(replace_callback, ·)`: scan left to right; at a match of
word length `w` emit the word and the corrected particle and resume after the
match, otherwise emit one character and advance. -/
def fix_korean_josa (s : List Char) : List Char := fkjF s.length s

/-! ## Nickname cache (`NicknameManager`) -/

/-- `NicknameManager`: `nick_map` is an `OrderedDict` modelled as an
association list, head = least recently used, last = most recently used. -/
structure NicknameManager where
  limit : Nat
  nick_map : List (List Char × List Char)

namespace NicknameManager

/-- `update(jp_name, romaji)`: no-op on a falsy name; otherwise
`move_to_end` (if present) plus assignment — i.e. remove any existing entry
and append the new one — then `popitem(last=False)` when the size exceeds
`limit`. -/
def update (m : NicknameManager) (jp_name romaji : List Char) : NicknameManager :=
  if jp_name = [] then m
  else
    let moved := (m.nick_map.filter (fun e => e.1 ≠ jp_name)) ++ [(jp_name, romaji)]
    if m.limit < moved.length then ⟨m.limit, moved.drop 1⟩ else ⟨m.limit, moved⟩

/-- `get_map`. -/
def get_map (m : NicknameManager) : List (List Char × List Char) := m.nick_map

/-- The keys of the cache, in recency order. -/
def keys (m : NicknameManager) : List (List Char) := m.nick_map.map (·.1)

end NicknameManager

/-- The per-message nickname step of `process_batch_inference` (lines
142–144): `if nickname: nick_manager.update(nickname, manager.get_romaji(nickname))`,
with the transliterator `get_romaji` as an oracle. -/
def pipelineNickStep (romaji : List Char → List Char)
    (nm : NicknameManager) (nickname : List Char) : NicknameManager :=
  if nickname = [] then nm else nm.update nickname (romaji nickname)

/-! ## Whitespace, digits and further character classes -/

/-- Python's (str) whitespace: the characters matched by `\s` and stripped by
`str.strip()`. -/
def isPySpace (c : Char) : Bool :=
  (9 ≤ c.toNat && c.toNat ≤ 13) || (0x1C ≤ c.toNat && c.toNat ≤ 0x1F) ||
  c = ' ' || c.toNat = 0x85 || c.toNat = 0xA0 || c.toNat = 0x1680 ||
  (0x2000 ≤ c.toNat && c.toNat ≤ 0x200A) || c.toNat = 0x2028 ||
  c.toNat = 0x2029 || c.toNat = 0x202F || c.toNat = 0x205F || c.toNat = 0x3000

/-- ASCII decimal digit (`\d` of the counter patterns; the pipeline's digit
runs are ASCII). -/
def isDigitCh (c : Char) : Bool := '0' ≤ c && c ≤ '9'

/-- The token class of `RECRUIT_PATTERN`:
`[A-Za-z0-9぀-ヿ一-龯]`. -/
def isRecruitWord (c : Char) : Bool :=
  ('A' ≤ c && c ≤ 'Z') || ('a' ≤ c && c ≤ 'z') || ('0' ≤ c && c ≤ '9') ||
  (0x3040 ≤ c.toNat && c.toNat ≤ 0x30FF) || (0x4E00 ≤ c.toNat && c.toNat ≤ 0x9FAF)

/-- The translatable-script class of line 150:
`[a-zA-Z぀-ヿ一-龯가-힣]`. -/
def isTransWord (c : Char) : Bool :=
  ('a' ≤ c && c ≤ 'z') || ('A' ≤ c && c ≤ 'Z') ||
  (0x3040 ≤ c.toNat && c.toNat ≤ 0x30FF) || (0x4E00 ≤ c.toNat && c.toNat ≤ 0x9FAF) ||
  isHangulSyl c

/-- The sentence-final punctuation class `[.!?,~]` of the reassembly step. -/
def isFinalPunct (c : Char) : Bool :=
  c = '.' || c = '!' || c = '?' || c = ',' || c = '~'

/-! ## Python `str.replace`, `str.strip`, `str.split` on `List Char` -/

/-- One left-to-right, non-overlapping pass of `str.replace` for a non-empty
pattern `p :: ps` (fuel-structural; `fuel = length` suffices). -/
def replaceGoF (p : Char) (ps rep : List Char) : Nat → List Char → List Char
  | 0, s => s
  | _ + 1, [] => []
  | fuel + 1, c :: rest =>
    if (p :: ps).isPrefixOf (c :: rest) then
      rep ++ replaceGoF p ps rep fuel ((c :: rest).drop (ps.length + 1))
    else
      c :: replaceGoF p ps rep fuel rest

def replaceGo (p : Char) (ps rep s : List Char) : List Char :=
  replaceGoF p ps rep s.length s

/-- Python `s.replace(pat, rep)`; an empty pattern interleaves `rep` around
every character (CPython semantics). -/
def replaceList (pat rep s : List Char) : List Char :=
  match pat with
  | [] => rep ++ s.foldr (fun c acc => c :: (rep ++ acc)) []
  | p :: ps => replaceGo p ps rep s

/-- Python `str.strip()`. -/
def pyStrip (s : List Char) : List Char :=
  ((s.dropWhile isPySpace).reverse.dropWhile isPySpace).reverse

/-- Python `str.split(sep)` for a non-empty separator `d :: ds`: pieces between
consecutive leftmost occurrences (always one more piece than separators;
fuel-structural, `fuel = length` suffices). -/
def splitGoF (d : Char) (ds : List Char) : Nat → List Char → List (List Char)
  | 0, s => [s]
  | _ + 1, [] => [[]]
  | fuel + 1, c :: rest =>
    if (d :: ds).isPrefixOf (c :: rest) then
      [] :: splitGoF d ds fuel ((c :: rest).drop (ds.length + 1))
    else
      match splitGoF d ds fuel rest with
      | [] => [[c]]
      | piece :: more => (c :: piece) :: more

def splitGo (d : Char) (ds : List Char) (s : List Char) : List (List Char) :=
  splitGoF d ds s.length s

/-- Python `s.split(sep)` (the pipeline only splits on the non-empty marker). -/
def splitOnL (sep s : List Char) : List (List Char) :=
  match sep with
  | [] => [s]
  | d :: ds => splitGo d ds s

/-! ## The protector state: placeholders and the `protect` closure -/

/-- Decimal digits, fuel-structural (`fuel > n` suffices). -/
def natDigitsF : Nat → Nat → List Char
  | 0, _ => []
  | fuel + 1, n =>
    if n < 10 then [Char.ofNat (48 + n)]
    else natDigitsF fuel (n / 10) ++ [Char.ofNat (48 + n % 10)]

/-- Decimal digits of `n`, most significant first — Python `f"{n}"`. -/
def natDigits (n : Nat) : List Char := natDigitsF (n + 1) n

/-- The marker glyph `'💠'` (U+1F4A0). -/
def gem : Char := Char.ofNat 0x1F4A0

/-- `split_marker = "💠SPLIT💠"`. -/
def splitMarker : List Char := gem :: 'S' :: 'P' :: 'L' :: 'I' :: 'T' :: [gem]

/-- `placeholder = f"💠{protected_count}💠"`. -/
def placeholderOf (n : Nat) : List Char := gem :: natDigits n ++ [gem]

/-- The mutable closure state of `protect`: `protected_map` (most recent entry
first, matching Python dict overwrite-on-collision under a first-match lookup)
and `protected_count`. -/
structure PState where
  pmap : List (List Char × List Char)
  count : Nat

/-- `protect(val)`: record the placeholder and return
`split_marker + placeholder + split_marker`. -/
def protectVal (st : PState) (v : List Char) : PState × List Char :=
  let ph := placeholderOf st.count
  (⟨(ph, v) :: st.pmap, st.count + 1⟩, splitMarker ++ ph ++ splitMarker)

/-- `placeholder in protected_map` / `protected_map[placeholder]` (first
match = most recently written key). -/
def lookupPh (pmap : List (List Char × List Char)) (c : List Char) :
    Option (List Char) :=
  match pmap with
  | [] => none
  | e :: rest => if e.1 = c then some e.2 else lookupPh rest c

/-- Left-to-right `pattern.sub(lambda m: protect …)` driven by a match
function `f` giving the match length and the value to protect, fuel-structural
(`fuel = length` suffices).  Zero-length matches never arise from the
pipeline's patterns and are treated as non-matches. -/
def runSubF (f : List Char → Option (Nat × List Char)) :
    Nat → PState → List Char → PState × List Char
  | 0, st, s => (st, s)
  | _ + 1, st, [] => (st, [])
  | fuel + 1, st, c :: rest =>
    match f (c :: rest) with
    | some (n, v) =>
      if 1 ≤ n then
        let pr := protectVal st v
        let rec_ := runSubF f fuel pr.1 ((c :: rest).drop n)
        (rec_.1, pr.2 ++ rec_.2)
      else
        let rec_ := runSubF f fuel st rest
        (rec_.1, c :: rec_.2)
    | none =>
      let rec_ := runSubF f fuel st rest
      (rec_.1, c :: rec_.2)

def runSub (f : List Char → Option (Nat × List Char)) (st : PState)
    (s : List Char) : PState × List Char :=
  runSubF f s.length st s

/-! ## The three protected-span matchers -/

/-- The greedy continuation `(?:[\s]+[A-Za-z0-9぀-ヿ一-龯]+)*` of
`RECRUIT_PATTERN`: extra characters consumed after the first token. -/
def recruitExtF : Nat → List Char → Nat
  | 0, _ => 0
  | fuel + 1, s =>
    let sp := (s.takeWhile isPySpace).length
    if sp = 0 then 0
    else
      let w := ((s.drop sp).takeWhile isRecruitWord).length
      if w = 0 then 0
      else sp + w + recruitExtF fuel (s.drop (sp + w))

def recruitExt (s : List Char) : Nat := recruitExtF s.length s

/-- `RECRUIT_PATTERN` matched at the head of `s`: `@`, one token, then the
greedy whitespace-joined continuation; the protected value is the match
itself (`m.group(0)`). -/
def recruitMatch (s : List Char) : Option (Nat × List Char) :=
  match s with
  | '@' :: rest =>
    let w := (rest.takeWhile isRecruitWord).length
    if w = 0 then none
    else
      let n := 1 + w + recruitExt (rest.drop w)
      some (n, s.take n)
  | _ => none

/-- First association for `k` in `custom_dict`. -/
def dictLookup (cd : List (List Char × List Char)) (k : List Char) : List Char :=
  match cd with
  | [] => []
  | e :: rest => if e.1 = k then e.2 else dictLookup rest k

/-- The alternation `(escaped_k1|escaped_k2|…)` over `sorted_keys` matched at
the head of `s`: the first alternative that is a literal prefix wins; the
protected value is `custom_dict[m.group(1)]`. -/
def dictMatch (sortedKeys : List (List Char)) (cd : List (List Char × List Char))
    (s : List Char) : Option (Nat × List Char) :=
  match sortedKeys with
  | [] => none
  | k :: ks =>
    if k.isPrefixOf s then some (k.length, dictLookup cd k) else dictMatch ks cd s

/-- `(\d+)<kanji>` matched at the head of `s`; the protected value is
`f"{m.group(1)}{unit}"`. -/
def numMatch (kanji unit : Char) (s : List Char) : Option (Nat × List Char) :=
  let d := s.takeWhile isDigitCh
  if d.length = 0 then none
  else
    match s.get? d.length with
    | some c => if c = kanji then some (d.length + 1, d ++ [unit]) else none
    | none => none

/-! ## Dictionary loading (filter + sort of `load_dictionary`) -/

/-- The structural bracket/quote glyphs `"【】「」『』（）〈〉《》"`. -/
def bracketGlyphs : List Char :=
  [Char.ofNat 0x3010, Char.ofNat 0x3011, Char.ofNat 0x300C, Char.ofNat 0x300D,
   Char.ofNat 0x300E, Char.ofNat 0x300F, Char.ofNat 0xFF08, Char.ofNat 0xFF09,
   Char.ofNat 0x3008, Char.ofNat 0x3009, Char.ofNat 0x300A, Char.ofNat 0x300B]

/-- `k not in "【】「」『』（）〈〉《》"` — Python substring containment, so the
empty key and any contiguous run of the glyph string are excluded. -/
def keyKept (k : List Char) : Bool := !(decide (k <:+: bracketGlyphs))

/-- `self.custom_dict = {k: v for k, v in raw_dict.items() if k not in …}`. -/
def loadKeys (raw : List (List Char × List Char)) : List (List Char × List Char) :=
  raw.filter (fun kv => keyKept kv.1)

/-- Stable insertion of a key into a length-descending list (later-arriving
equal-length keys go after earlier ones, as Python's stable `sorted`). -/
def insertByLen (k : List Char) : List (List Char) → List (List Char)
  | [] => [k]
  | x :: xs => if k.length ≤ x.length then x :: insertByLen k xs else k :: x :: xs

/-- `sorted(keys, key=len, reverse=True)` (stable). -/
def sortByLenDesc : List (List Char) → List (List Char)
  | [] => []
  | x :: xs => insertByLen x (sortByLenDesc xs)

/-! ## `preprocess_chunking` -/

/-- The four `NUM_PATTERNS` with their Korean units:
`種→종`, `人→인`, `周→회`, `回→회`. -/
def numPatterns : List (Char × Char) :=
  [(Char.ofNat 0x7A2E, Char.ofNat 0xC885), (Char.ofNat 0x4EBA, Char.ofNat 0xC778),
   (Char.ofNat 0x5468, Char.ofNat 0xD68C), (Char.ofNat 0x56DE, Char.ofNat 0xD68C)]

/-- The four punctuation rewrites `、→", "`, `。→". "`, `・→", "`, `　→" "`. -/
def punctPairs : List (Char × List Char) :=
  [(Char.ofNat 0x3001, [',', ' ']), (Char.ofNat 0x3002, ['.', ' ']),
   (Char.ofNat 0x30FB, [',', ' ']), (Char.ofNat 0x3000, [' '])]

/-- `preprocess_chunking(text, stateful_nicks)` with the dictionary passed
explicitly (`raw_dict` is what `load_dictionary` read; filtering and
length-sorting happen there).  Returns the ordered `(chunk, protected)` list. -/
def preprocess_chunking (text : List Char)
    (rawDict nicks : List (List Char × List Char)) :
    List (List Char × Bool) :=
  let cd := loadKeys rawDict
  let sortedKeys := sortByLenDesc (cd.map (·.1))
  let t1 := punctPairs.foldl (fun s pr => replaceList [pr.1] pr.2 s) text
  let t2 := nicks.foldl (fun s kv => replaceList kv.1 kv.2 s) t1
  let st0 : PState := ⟨[], 0⟩
  let r1 := runSub recruitMatch st0 t2
  let r2 := if cd ≠ [] then runSub (dictMatch sortedKeys cd) r1.1 r1.2 else r1
  let r3 := numPatterns.foldl
    (fun (acc : PState × List Char) pu => runSub (numMatch pu.1 pu.2) acc.1 acc.2) r2
  let rawChunks := ((splitOnL splitMarker r3.2).map pyStrip).filter (· ≠ [])
  rawChunks.map (fun c =>
    match lookupPh r3.1.pmap c with
    | some v => (v, true)
    | none => (c, false))

/-- The protector state and scanned text after all substitution phases of
`preprocess_chunking` (the same pipeline as `preprocess_chunking`, stopped
just before the split): exposes `protected_map` for the opacity analysis. -/
def preprocess_state (text : List Char)
    (rawDict nicks : List (List Char × List Char)) : PState × List Char :=
  let cd := loadKeys rawDict
  let sortedKeys := sortByLenDesc (cd.map (·.1))
  let t1 := punctPairs.foldl (fun s pr => replaceList [pr.1] pr.2 s) text
  let t2 := nicks.foldl (fun s kv => replaceList kv.1 kv.2 s) t1
  let st0 : PState := ⟨[], 0⟩
  let r1 := runSub recruitMatch st0 t2
  let r2 := if cd ≠ [] then runSub (dictMatch sortedKeys cd) r1.1 r1.2 else r1
  numPatterns.foldl
    (fun (acc : PState × List Char) pu => runSub (numMatch pu.1 pu.2) acc.1 acc.2) r2

/-! ## Chunk routing and reassembly (`process_batch_inference`) -/

/-- Line 150's pass-through test: protected, or no translatable-script
character. -/
def chunkRouted (c : List Char × Bool) : Bool := c.2 || !(c.1.any isTransWord)

/-- The `chunk_mapping` / `ai_prompts` construction of lines 149–155 for one
message: pass-through entries carry their text, AI entries carry their index
into the prompt batch (`start` = `len(ai_prompts_tokens)` on entry). -/
def mkMapping (chunks : List (List Char × Bool)) (start : Nat) :
    List (List Char ⊕ Nat) × List (List Char) :=
  match chunks with
  | [] => ([], [])
  | c :: cs =>
    if chunkRouted c then
      let r := mkMapping cs start
      (Sum.inl c.1 :: r.1, r.2)
    else
      let r := mkMapping cs (start + 1)
      (Sum.inr start :: r.1, c.1 :: r.2)

/-- Lines 168–177: pass-through entries keep their payload, AI entries receive
the (decoded, post-processed) model output for their prompt index; `tr` is the
opaque translation boundary (tokenize, generate, decode, `<think>` strip,
kyūjitai and hanja post-passes). -/
def resolveMapping (tr : List Char → List Char)
    (mapping : List (List Char ⊕ Nat)) (ai : List (List Char)) :
    List (List Char) :=
  mapping.map (fun e =>
    match e with
    | Sum.inl t => t
    | Sum.inr i => tr (ai.getD i []))

/-- One chunk's contribution to `parts` (what routing + resolution produce). -/
def routeChunk (tr : List Char → List Char) (c : List Char × Bool) : List Char :=
  if chunkRouted c then c.1 else tr c.1

/-- The scanner of `re.sub(r'\s+([.!?,~])', r'\1', txt)`, fuel-structural:
a whitespace run immediately followed by sentence-final punctuation is
replaced by the punctuation alone. -/
def spacePunctSubF : Nat → List Char → List Char
  | 0, s => s
  | _ + 1, [] => []
  | fuel + 1, c :: rest =>
    let s := c :: rest
    let sp := (s.takeWhile isPySpace).length
    match s.get? sp with
    | some d =>
      if 1 ≤ sp && isFinalPunct d then d :: spacePunctSubF fuel (s.drop (sp + 1))
      else c :: spacePunctSubF fuel rest
    | none => c :: spacePunctSubF fuel rest

def spacePunctSub (s : List Char) : List Char := spacePunctSubF s.length s

/-- Lines 184–185: `" ".join(filter(None, parts))`, the whitespace-before-
punctuation collapse, `fix_korean_josa`, and `strip()`. -/
def reassemble (parts : List (List Char)) : List Char :=
  pyStrip (fix_korean_josa (spacePunctSub
    (List.intercalate [' '] (parts.filter (· ≠ [])))))

/-- The whole per-message pipeline of `process_batch_inference` (chunks are
emitted in index order, so the `sorted(…, key=chunk_idx)` is the identity):
protect, route, translate, resolve, reassemble. -/
def processMessage (tr : List Char → List Char) (text : List Char)
    (rawDict nicks : List (List Char × List Char)) : List Char :=
  let chunks := preprocess_chunking text rawDict nicks
  let mp := mkMapping chunks 0
  reassemble (resolveMapping tr mp.1 mp.2)

/-! ## Sequences of cache updates -/

/-- Fold a sequence of sightings through `update`, each with the
transliteration `rom` of its name (as the inference loop does per message). -/
def insertAll (m : NicknameManager) (names : List (List Char))
    (rom : List Char → List Char) : NicknameManager :=
  names.foldl (fun acc n => acc.update n (rom n)) m

/-! ## Decomposition of protected text into segments

A scanned text decomposes into raw stretches and inserted protection regions
`split_marker ++ placeholder ++ split_marker`.  The opacity analysis tracks
this decomposition through the substitution phases. -/

/-- A segment: raw text, or the inserted region for placeholder index `i`
protecting value `v`. -/
inductive ProtSeg where
  | raw : List Char → ProtSeg
  | ins : Nat → List Char → ProtSeg

/-- The characters `protect` inserts for placeholder index `i`. -/
def insRegion (i : Nat) : List Char :=
  splitMarker ++ placeholderOf i ++ splitMarker

/-- Flatten a segment list back to the scanned text. -/
def flattenSegs (segs : List ProtSeg) : List Char :=
  segs.foldr
    (fun sg acc =>
      (match sg with
        | ProtSeg.raw t => t
        | ProtSeg.ins i _ => insRegion i) ++ acc) []

/-- Raw segments never contain the marker glyph. -/
def RawOkSeg (sg : ProtSeg) : Prop :=
  match sg with
  | ProtSeg.raw t => gem ∉ t
  | ProtSeg.ins _ _ => True

def SegsOk (segs : List ProtSeg) : Prop := ∀ sg ∈ segs, RawOkSeg sg

/-- The protector state is exactly the placeholders `0 … count-1` paired with
their protected values, most recent first. -/
def PSOk (st : PState) : Prop :=
  ∃ vals : List (List Char), st.count = vals.length ∧
    st.pmap = (vals.enum.map (fun iv => (placeholderOf iv.1, iv.2))).reverse

/-- An insertion segment refers to a live placeholder whose recorded value it
carries. -/
def SegInsOk (st : PState) (sg : ProtSeg) : Prop :=
  match sg with
  | ProtSeg.raw _ => True
  | ProtSeg.ins i v =>
      i < st.count ∧ lookupPh st.pmap (placeholderOf i) = some v

/-- The pieces `split(split_marker)` produces from a flattened segment list. -/
def splitPieces : List ProtSeg → List (List Char)
  | [] => [[]]
  | ProtSeg.raw t :: rest =>
    match splitPieces rest with
    | [] => [t]
    | p :: ps => (t ++ p) :: ps
  | ProtSeg.ins i _ :: rest => [] :: placeholderOf i :: splitPieces rest

/-- Read a decimal digit string back as a number (inverse of `natDigits`). -/
def digitVal (l : List Char) : Nat :=
  l.foldl (fun a c => 10 * a + (c.toNat - 48)) 0

/-- A custom-dictionary key that cannot damage protection regions: it contains
no marker glyph, is not a pure digit run, and is not a substring of `SPLIT`. -/
def goodKey (k : List Char) : Prop :=
  gem ∉ k ∧ k.all isDigitCh = false ∧ ¬ k <:+: ['S', 'P', 'L', 'I', 'T']

instance (k : List Char) : Decidable (goodKey k) := by
  unfold goodKey
  infer_instance

/-! ## Token-structured inputs for the round-trip analysis -/

/-- A character of an ordinary (non-mention) token that every pipeline phase
leaves alone: not whitespace, not the marker glyph, not `@`, none of the
rewritten punctuation `、。・`, none of the counter kanji `種人周回`, and not
an ambiguous particle. -/
def plainChar (c : Char) : Prop :=
  isPySpace c = false ∧ c ≠ gem ∧ c ≠ '@' ∧
  c ≠ Char.ofNat 0x3001 ∧ c ≠ Char.ofNat 0x3002 ∧ c ≠ Char.ofNat 0x30FB ∧
  c ≠ Char.ofNat 0x7A2E ∧ c ≠ Char.ofNat 0x4EBA ∧
  c ≠ Char.ofNat 0x5468 ∧ c ≠ Char.ofNat 0x56DE ∧
  isParticle c = false

instance (c : Char) : Decidable (plainChar c) := by
  unfold plainChar
  infer_instance

/-- An ordinary token: non-empty, all characters inert, and not starting with
sentence-final punctuation (which the reassembly would glue leftwards). -/
def plainTok (t : List Char) : Prop :=
  t ≠ [] ∧ (∀ c ∈ t, plainChar c) ∧
  (∀ c, t.head? = some c → isFinalPunct c = false)

/-- A mention token: `@` followed by a non-empty recruit-word run (excluding
`・`, which the punctuation pass rewrites). -/
def menTok (t : List Char) : Prop :=
  ∃ tl, t = '@' :: tl ∧ tl ≠ [] ∧
    ∀ c ∈ tl, isRecruitWord c = true ∧ c ≠ Char.ofNat 0x30FB

/-- A well-formed token list: each token ordinary or a mention, and the token
after a mention does not start with a recruit-word character (otherwise the
greedy continuation of `RECRUIT_PATTERN` would absorb it). -/
def GoodToks : List (List Char) → Prop
  | [] => True
  | [t] => plainTok t ∨ menTok t
  | t :: t2 :: rest =>
    (plainTok t ∨ menTok t) ∧
    (menTok t → ∀ c, t2.head? = some c → isRecruitWord c = false) ∧
    GoodToks (t2 :: rest)

/-- The segments the recruit phase produces on a well-formed token list
(mentions are recognized by their `@` head): each mention becomes an
insertion, each ordinary token stays raw with its following separator. -/
def tokSegs (cnt : Nat) : List (List Char) → List ProtSeg
  | [] => []
  | t :: rest =>
    if t.head? = some '@' then
      ProtSeg.ins cnt t ::
        (if rest = [] then [] else ProtSeg.raw [' '] :: tokSegs (cnt + 1) rest)
    else
      ProtSeg.raw (t ++ if rest = [] then [] else [' ']) :: tokSegs cnt rest

/-- Resolve one piece against a placeholder environment (a protected piece
becomes its recorded value, any other piece stays itself). -/
def envPart (env : List Char → Option (List Char)) (c : List Char) :
    List Char :=
  match env c with
  | some v => v
  | none => c

/-- Chunk texts obtained from split pieces: strip, drop empties, resolve. -/
def partsOfPieces (env : List Char → Option (List Char))
    (pieces : List (List Char)) : List (List Char) :=
  ((pieces.map pyStrip).filter (· ≠ [])).map (envPart env)

/-- The expected chunk texts: maximal runs of ordinary tokens joined by single
spaces, and each mention on its own. -/
def groupParts : List (List Char) → List (List Char)
  | [] => []
  | [t] => [t]
  | t :: t2 :: rest =>
    if t.head? = some '@' then t :: groupParts (t2 :: rest)
    else if t2.head? = some '@' then t :: groupParts (t2 :: rest)
    else
      match groupParts (t2 :: rest) with
      | [] => [t]
      | p :: ps => (t ++ ' ' :: p) :: ps

/-! ## Spec-side formulations of reassembly and whitespace normalization -/

/-- Whether a string starts with sentence-final punctuation. -/
def headPunct (l : List Char) : Bool :=
  match l.head? with
  | some d => isFinalPunct d
  | none => false

/-- Following the spec's words for claim C8 (no scanner): remove every
whitespace character immediately preceding sentence-final punctuation, as a
right fold. -/
def remWsPunct (s : List Char) : List Char :=
  s.foldr
    (fun c acc =>
      if isPySpace c &&
          (match acc.head? with
           | some d => isFinalPunct d
           | none => false) then acc
      else c :: acc) []

/-- Following the spec's words: collapse every whitespace run to one space. -/
def collapseWsRuns (s : List Char) : List Char :=
  s.foldr
    (fun c acc =>
      if isPySpace c then
        match acc.head? with
        | some d => if d = ' ' then acc else ' ' :: acc
        | none => ' ' :: acc
      else c :: acc) []

/-- Following the spec's words of claim C8: join non-empty pieces with a
single separator, remove whitespace before sentence-final punctuation,
collapse every remaining whitespace run to a single space, trim both ends. -/
def specReassembleC8 (parts : List (List Char)) : List Char :=
  pyStrip (collapseWsRuns (remWsPunct
    (List.intercalate [' '] (parts.filter (· ≠ [])))))

/-- Whitespace-separated words of `s`. -/
def wordsOf (s : List Char) : List (List Char) :=
  s.foldr
    (fun c acc =>
      if isPySpace c then [] :: acc
      else
        match acc with
        | [] => [[c]]
        | w :: ws => (c :: w) :: ws) []

/-- Following the spec's words: the whitespace-normalized form of a text —
its words joined by single spaces. -/
def wsNormalize (s : List Char) : List Char :=
  List.intercalate [' '] ((wordsOf s).filter (· ≠ []))

/-! ## Spec-side particle-pair forms and the character-class skeleton -/

/-- Following the spec's particle-pair table: the final-consonant form of the
pair `p` belongs to (object 을/를, subject 이/가, topic 은/는,
conjunctive 과/와). -/
def pairFinalForm (p : Char) : Char :=
  if p = '을' || p = '를' then '을'
  else if p = '이' || p = '가' then '이'
  else if p = '은' || p = '는' then '은'
  else if p = '와' || p = '과' then '과'
  else p

/-- Following the spec's particle-pair table: the no-final-consonant form. -/
def pairNoFinalForm (p : Char) : Char :=
  if p = '을' || p = '를' then '를'
  else if p = '이' || p = '가' then '가'
  else if p = '은' || p = '는' then '는'
  else if p = '와' || p = '과' then '와'
  else p

/-- Character-class skeleton: two characters agree on word-class membership,
Hangul-syllable membership, and particle pair.  `JOSA_PATTERN`'s match
positions depend only on this skeleton. -/
def chClassEq (a b : Char) : Prop :=
  isJosaWord a = isJosaWord b ∧ isHangulSyl a = isHangulSyl b ∧
  pairIdx a = pairIdx b

/-- Pointwise skeleton equality of strings. -/
def SkelEq : List Char → List Char → Prop := List.Forall₂ chClassEq

/-! # Lemmas and claim theorems -/

namespace NicknameManager

theorem update_nil (m : NicknameManager) (r : List Char) : m.update [] r = m := by
  simp [update]

theorem update_limit (m : NicknameManager) (n r : List Char) :
    (m.update n r).limit = m.limit := by
  unfold update
  split
  · rfl
  · dsimp only
    split <;> rfl

theorem length_filter_ne_le (L : List (List Char × List Char)) (n : List Char) :
    (L.filter (fun e => e.1 ≠ n)).length ≤ L.length :=
  List.length_filter_le _ _

theorem update_length_le (m : NicknameManager) (n r : List Char)
    (h : m.nick_map.length ≤ m.limit) :
    (m.update n r).nick_map.length ≤ m.limit := by
  unfold update
  split
  · exact h
  · dsimp only
    have hf := length_filter_ne_le m.nick_map n
    split
    · simp only [List.length_drop, List.length_append, List.length_cons,
        List.length_nil]
      omega
    · simp only [List.length_append, List.length_cons, List.length_nil] at *
      omega

theorem filter_ne_eq_self {L : List (List Char × List Char)} {n : List Char}
    (h : n ∉ L.map (·.1)) : L.filter (fun e => e.1 ≠ n) = L := by
  rw [List.filter_eq_self]
  intro e he
  simp only [decide_eq_true_eq]
  intro hc
  exact h (List.mem_map.mpr ⟨e, he, hc⟩)

theorem update_fresh (m : NicknameManager) (n r : List Char) (hn : n ≠ [])
    (hfresh : n ∉ m.nick_map.map (·.1)) :
    m.update n r =
      if m.limit < m.nick_map.length + 1 then
        ⟨m.limit, (m.nick_map ++ [(n, r)]).drop 1⟩
      else ⟨m.limit, m.nick_map ++ [(n, r)]⟩ := by
  unfold update
  rw [if_neg hn, filter_ne_eq_self hfresh]
  simp only [List.length_append, List.length_cons, List.length_nil]

theorem insertAll_cons (m : NicknameManager) (n : List Char)
    (ns : List (List Char)) (rom : List Char → List Char) :
    insertAll m (n :: ns) rom = insertAll (m.update n (rom n)) ns rom := rfl

/-- Fresh distinct insertions keep a sliding window: the cache ends up holding
the last `limit` entries of `L0` followed by the new `(name, rom name)` pairs. -/
theorem insertAll_fresh (limit : Nat) (hl : 0 < limit)
    (L0 : List (List Char × List Char)) (names : List (List Char))
    (rom : List Char → List Char)
    (hlen : L0.length ≤ limit) (hnodup : names.Nodup)
    (hne : ∀ n ∈ names, n ≠ [])
    (hdisj : ∀ n ∈ names, n ∉ L0.map (·.1)) :
    insertAll ⟨limit, L0⟩ names rom =
      ⟨limit, (L0 ++ names.map (fun n => (n, rom n))).drop
        ((L0.length + names.length) - limit)⟩ := by
  induction names generalizing L0 with
  | nil => simp [insertAll, Nat.sub_eq_zero_of_le hlen]
  | cons n ns ih =>
    have hn : n ≠ [] := hne n (by simp)
    have hfresh : n ∉ L0.map (·.1) := hdisj n (by simp)
    have hstep := update_fresh ⟨limit, L0⟩ n (rom n) hn hfresh
    have hnsne : ∀ x ∈ ns, x ≠ [] := fun x hx => hne x (by simp [hx])
    have hnodup2 := (List.nodup_cons.mp hnodup).2
    have hnmem := (List.nodup_cons.mp hnodup).1
    by_cases hover : limit < L0.length + 1
    · have hL0 : L0.length = limit := by omega
      obtain ⟨e, L0', rfl⟩ : ∃ e L0', L0 = e :: L0' := by
        cases L0 with
        | nil =>
          exfalso
          simp only [List.length_nil] at hL0
          omega
        | cons e L0' => exact ⟨e, L0', rfl⟩
      have hupd : (⟨limit, e :: L0'⟩ : NicknameManager).update n (rom n) =
          ⟨limit, L0' ++ [(n, rom n)]⟩ := by
        rw [hstep]
        rw [if_pos (by simpa using hover)]
        simp
      have hdisj2 : ∀ x ∈ ns, x ∉ (L0' ++ [(n, rom n)]).map (·.1) := by
        intro x hx
        simp only [List.map_append, List.mem_append, List.map_cons,
          List.map_nil, List.mem_cons, List.not_mem_nil, or_false]
        rintro (hc | hc)
        · exact hdisj x (by simp [hx])
            (by simp only [List.map_cons, List.mem_cons]; exact Or.inr hc)
        · exact hnmem (hc ▸ hx)
      have hrec := ih (L0' ++ [(n, rom n)])
        (by
          simp only [List.length_append, List.length_cons, List.length_nil]
          simp only [List.length_cons] at hL0
          omega)
        hnodup2 hnsne hdisj2
      rw [insertAll_cons, hupd, hrec]
      have harr : (L0' ++ [(n, rom n)]) ++ ns.map (fun x => (x, rom x)) =
          L0' ++ (n :: ns).map (fun x => (x, rom x)) := by
        simp
      rw [harr]
      have hgoal : (e :: L0') ++ (n :: ns).map (fun x => (x, rom x)) =
          e :: (L0' ++ (n :: ns).map (fun x => (x, rom x))) := by simp
      have hc2 : (e :: L0').length + (n :: ns).length - limit =
          ((L0' ++ [(n, rom n)]).length + ns.length - limit) + 1 := by
        simp only [List.length_append, List.length_cons, List.length_nil]
        simp only [List.length_cons] at hL0
        omega
      rw [hgoal, hc2, List.drop_succ_cons]
    · have hupd : (⟨limit, L0⟩ : NicknameManager).update n (rom n) =
          ⟨limit, L0 ++ [(n, rom n)]⟩ := by
        rw [hstep]
        rw [if_neg (by simpa using hover)]
      have hdisj2 : ∀ x ∈ ns, x ∉ (L0 ++ [(n, rom n)]).map (·.1) := by
        intro x hx
        simp only [List.map_append, List.mem_append, List.map_cons,
          List.map_nil, List.mem_cons, List.not_mem_nil, or_false]
        rintro (hc | hc)
        · exact hdisj x (by simp [hx]) hc
        · exact hnmem (hc ▸ hx)
      have hrec := ih (L0 ++ [(n, rom n)])
        (by
          simp only [List.length_append, List.length_cons, List.length_nil]
          omega)
        hnodup2 hnsne hdisj2
      rw [insertAll_cons, hupd, hrec]
      simp only [List.append_assoc, List.singleton_append, List.length_append,
        List.length_cons, List.length_nil]
      congr 2
      omega

end NicknameManager

theorem toNat_ofNat_lt (n : Nat) (h : n < 55296) : (Char.ofNat n).toNat = n := by
  unfold Char.ofNat
  rw [dif_pos (Or.inl h)]
  rfl

theorem nodup_charNames (base count : Nat) (hb : base + count ≤ 55296) :
    ((List.range count).map (fun i => [Char.ofNat (base + i)])).Nodup := by
  apply List.Nodup.map_on _ (List.nodup_range count)
  intro x hx y hy hxy
  simp only [List.mem_range] at hx hy
  simp only [List.cons.injEq, and_true] at hxy
  have hx' := toNat_ofNat_lt (base + x) (by omega)
  have hy' := toNat_ofNat_lt (base + y) (by omega)
  have := congrArg Char.toNat hxy
  omega

theorem charNames_ne_nil (base count : Nat) :
    ∀ x ∈ (List.range count).map (fun i => [Char.ofNat (base + i)]), x ≠ [] := by
  intro x hx
  simp only [List.mem_map] at hx
  obtain ⟨i, _, rfl⟩ := hx
  simp

theorem charNames_disjoint (b1 c1 b2 c2 : Nat) (h12 : b1 + c1 ≤ b2)
    (h2 : b2 + c2 ≤ 55296) :
    ∀ x ∈ (List.range c2).map (fun i => [Char.ofNat (b2 + i)]),
      x ∉ (List.range c1).map (fun i => [Char.ofNat (b1 + i)]) := by
  intro x hx hc
  simp only [List.mem_map, List.mem_range] at hx hc
  obtain ⟨i, hi, rfl⟩ := hx
  obtain ⟨j, hj, hj2⟩ := hc
  simp only [List.cons.injEq, and_true] at hj2
  have h1 := toNat_ofNat_lt (b1 + j) (by omega)
  have h2' := toNat_ofNat_lt (b2 + i) (by omega)
  have := congrArg Char.toNat hj2
  omega

namespace NicknameManager

theorem filter_ne_length_of_mem {L : List (List Char × List Char)}
    {name v : List Char} (hmem : (name, v) ∈ L)
    (hnd : (L.map (·.1)).Nodup) :
    (L.filter (fun e => e.1 ≠ name)).length + 1 = L.length := by
  induction L with
  | nil => simp at hmem
  | cons e rest ih =>
    simp only [List.map_cons, List.nodup_cons] at hnd
    by_cases he : e.1 = name
    · have hrest : rest.filter (fun x => x.1 ≠ name) = rest :=
        filter_ne_eq_self (he ▸ hnd.1)
      have hcond : (decide (e.1 ≠ name)) = false := by simp [he]
      simp only [List.filter_cons, hcond, Bool.false_eq_true, if_false, hrest]
      simp
    · have hmem2 : (name, v) ∈ rest := by
        rcases List.mem_cons.mp hmem with h | h
        · exact absurd (congrArg Prod.fst h).symm he
        · exact h
      simp only [List.filter_cons, decide_eq_true_eq]
      rw [if_pos he]
      simp only [List.length_cons]
      rw [ih hmem2 hnd.2]

/-- Re-inserting a present key removes its old entry and appends the new pair
at the most-recently-used end; with the cache within its limit no eviction
happens. -/
theorem update_present (m : NicknameManager) (name v r : List Char)
    (hn : name ≠ []) (hmem : (name, v) ∈ m.nick_map)
    (hnd : (m.nick_map.map (·.1)).Nodup)
    (hlen : m.nick_map.length ≤ m.limit) :
    m.update name r =
      ⟨m.limit, m.nick_map.filter (fun e => e.1 ≠ name) ++ [(name, r)]⟩ := by
  have hflen := filter_ne_length_of_mem hmem hnd
  unfold update
  rw [if_neg hn]
  dsimp only
  rw [if_neg (by
    simp only [List.length_append, List.length_cons, List.length_nil]
    omega)]

/-- Touching the oldest entry of a full cache rotates it to the MRU end. -/
theorem update_touch (limit : Nat) (N v r : List Char)
    (rest : List (List Char × List Char)) (hN : N ≠ [])
    (hnd : (((N, v) :: rest).map (·.1)).Nodup)
    (hfull : ((N, v) :: rest).length ≤ limit) :
    (⟨limit, (N, v) :: rest⟩ : NicknameManager).update N r =
      ⟨limit, rest ++ [(N, r)]⟩ := by
  have h := update_present ⟨limit, (N, v) :: rest⟩ N v r hN (by simp) hnd hfull
  rw [h]
  simp only [List.map_cons, List.nodup_cons] at hnd
  have hf : ((N, v) :: rest).filter (fun e => e.1 ≠ N) = rest := by
    have hcond : (decide (((N, v) : List Char × List Char).1 ≠ N)) = false := by
      simp
    simp only [List.filter_cons, hcond, Bool.false_eq_true, if_false]
    exact filter_ne_eq_self hnd.1
  rw [hf]

end NicknameManager

/-- Claim C3: `update` is a no-op when the name is empty; any single update
keeps the cache within `limit` whenever it was within `limit`; and inserting
501 distinct non-empty names into an empty cache with `limit = 500` leaves
exactly 500 entries, with the least-recently-touched (first-inserted) name
absent. -/
theorem claim_C3_cache_bound_and_eviction :
    (∀ (m : NicknameManager) (r : List Char), m.update [] r = m) ∧
    (∀ (m : NicknameManager) (n r : List Char),
      m.nick_map.length ≤ m.limit →
      (m.update n r).nick_map.length ≤ m.limit) ∧
    (∀ (names : List (List Char)) (rom : List Char → List Char),
      names.length = 501 → names.Nodup → (∀ n ∈ names, n ≠ []) →
      (insertAll ⟨500, []⟩ names rom).nick_map.length = 500 ∧
      ∀ n0 ∈ names.head?,
        n0 ∉ (insertAll ⟨500, []⟩ names rom).nick_map.map (·.1)) := by
  refine ⟨NicknameManager.update_nil, NicknameManager.update_length_le, ?_⟩
  intro names rom hlen hnd hne
  have hw := NicknameManager.insertAll_fresh 500 (by omega) [] names rom
    (by simp) hnd hne (by simp)
  rw [hw]
  constructor
  · simp [hlen]
  · intro n0 h0
    cases names with
    | nil => simp at hlen
    | cons a rest =>
      simp only [List.head?_cons, Option.mem_def, Option.some.injEq] at h0
      rcases h0 with rfl
      have hcnt : ([] : List (List Char × List Char)).length
          + (a :: rest).length - 500 = 1 := by
        simp only [List.length_nil, List.length_cons]
        simp only [List.length_cons] at hlen
        omega
      simp only [hcnt, List.nil_append, List.map_cons, List.drop_succ_cons,
        List.drop_zero]
      intro hc
      have : a ∈ rest := by
        simpa using hc
      exact (List.nodup_cons.mp hnd).1 this

theorem claim_C3_cache_bound_and_eviction_witness :
    ((List.range 501).map (fun i => [Char.ofNat (44032 + i)])).length = 501 ∧
    ((List.range 501).map (fun i => [Char.ofNat (44032 + i)])).Nodup ∧
    (∀ n ∈ (List.range 501).map (fun i => [Char.ofNat (44032 + i)]), n ≠ []) ∧
    ((insertAll ⟨500, []⟩
        ((List.range 501).map (fun i => [Char.ofNat (44032 + i)]))
        (fun _ => [])).nick_map.length = 500 ∧
      ∀ n0 ∈ ((List.range 501).map (fun i => [Char.ofNat (44032 + i)])).head?,
        n0 ∉ (insertAll ⟨500, []⟩
          ((List.range 501).map (fun i => [Char.ofNat (44032 + i)]))
          (fun _ => [])).nick_map.map (·.1)) := by
  have h1 : ((List.range 501).map (fun i => [Char.ofNat (44032 + i)])).length
      = 501 := by simp
  have h2 := nodup_charNames 44032 501 (by omega)
  have h3 := charNames_ne_nil 44032 501
  exact ⟨h1, h2, h3,
    claim_C3_cache_bound_and_eviction.2.2 _ (fun _ => []) h1 h2 h3⟩

/-- Claim C4 as stated is false: with a full cache of 500 entries whose oldest
name is `N`, re-touching `N` and then inserting 500 fresh distinct names does
evict `N` (by the 500th insertion), so `N` — contrary to the claim that the
evicted entry is some name other than `N` — is absent at the end. -/
theorem claim_C4_lru_counterexample :
    [Char.ofNat 44032] ∉
      (insertAll
        ((⟨500, (List.range 500).map
            (fun i => ([Char.ofNat (44032 + i)], []))⟩ : NicknameManager).update
          [Char.ofNat 44032] [])
        ((List.range 500).map (fun i => [Char.ofNat (50000 + i)]))
        (fun _ => [])).nick_map.map (·.1) := by
  have hgnd := nodup_charNames 44032 500 (by omega)
  have hfnd := nodup_charNames 50000 500 (by omega)
  have hfne := charNames_ne_nil 50000 500
  have hdisj := charNames_disjoint 44032 500 50000 500 (by omega) (by omega)
  set g : List (List Char) := (List.range 500).map (fun i => [Char.ofNat (44032 + i)])
    with hg
  set f : List (List Char) := (List.range 500).map (fun i => [Char.ofNat (50000 + i)])
    with hf
  set N : List Char := [Char.ofNat 44032] with hN
  have hNg : N ∈ g := by
    rw [hN, hg]
    exact List.mem_map.mpr ⟨0, by simp, rfl⟩
  have hpairs : (List.range 500).map (fun i => ([Char.ofNat (44032 + i)], ([] : List Char)))
      = g.map (fun n => (n, ([] : List Char))) := by
    rw [hg, List.map_map]
    rfl
  have hglen : g.length = 500 := by rw [hg]; simp
  have hkeys : (g.map (fun n => (n, ([] : List Char)))).map (·.1) = g := by
    rw [List.map_map]
    exact List.map_id g
  rw [hpairs]
  have hNmem : (N, ([] : List Char)) ∈ g.map (fun n => (n, ([] : List Char))) :=
    List.mem_map.mpr ⟨N, hNg, rfl⟩
  have hN_ne : N ≠ [] := by rw [hN]; simp
  have hndk : ((g.map (fun n => (n, ([] : List Char)))).map (·.1)).Nodup := by
    rw [hkeys]; exact hgnd
  have hmlen : (g.map (fun n => (n, ([] : List Char)))).length ≤ 500 := by
    rw [List.length_map, hglen]
  have htouch := NicknameManager.update_present
    ⟨500, g.map (fun n => (n, ([] : List Char)))⟩ N [] [] hN_ne hNmem hndk hmlen
  have hflen1 := NicknameManager.filter_ne_length_of_mem hNmem hndk
  rw [htouch]
  set L1 := (g.map (fun n => (n, ([] : List Char)))).filter (fun e => e.1 ≠ N)
    ++ [(N, ([] : List Char))] with hL1
  have hL1len : L1.length = 500 := by
    rw [hL1]
    simp only [List.length_append, List.length_cons, List.length_nil]
    simp only [List.length_map, hglen] at hflen1
    omega
  have hL1keys : ∀ x ∈ f, x ∉ L1.map (·.1) := by
    intro x hx hc
    rw [hL1] at hc
    simp only [List.map_append, List.mem_append, List.map_cons, List.map_nil,
      List.mem_cons, List.not_mem_nil, or_false] at hc
    rcases hc with hc | hc
    · obtain ⟨e, he, rfl⟩ := List.mem_map.mp hc
      have hmem := List.mem_of_mem_filter he
      obtain ⟨n, hn, rfl⟩ := List.mem_map.mp hmem
      exact hdisj _ (hf ▸ hx) (hg ▸ hn)
    · rcases hc with hc
      exact hdisj x (hf ▸ hx) (hg ▸ (hc ▸ hNg))
  have h2 := NicknameManager.insertAll_fresh 500 (by omega) L1 f (fun _ => [])
    (by omega) hfnd hfne hL1keys
  rw [h2]
  have hcnt2 : L1.length + f.length - 500 = L1.length := by
    have hfl : f.length = 500 := by rw [hf]; simp
    omega
  rw [hcnt2, List.drop_left]
  intro hc
  simp only [List.map_map] at hc
  have hNf : N ∈ f := by simpa using hc
  exact hdisj N (hf ▸ hNf) (hg ▸ hNg)

/-- Claim C4 (amended): the cache is a true LRU, not a FIFO — re-touching a
present name moves its entry to the most-recently-used end, so with `N` the
oldest entry of a full cache, the first of the 500 fresh insertions evicts the
previously-second entry rather than `N`, and `N` survives every proper prefix
of the insertions (it is evicted only by the `limit`-th, as the
counterexample shows). -/
theorem claim_C4_lru_recency_amended
    (limit : Nat) (N v r0 : List Char) (rest : List (List Char × List Char))
    (fresh : List (List Char)) (rom : List Char → List Char)
    (hlim : 2 ≤ limit) (hN : N ≠ [])
    (hnd : (((N, v) :: rest).map (·.1)).Nodup)
    (hfull : ((N, v) :: rest).length = limit)
    (hfnd : fresh.Nodup) (hfne : ∀ x ∈ fresh, x ≠ [])
    (hdisj : ∀ x ∈ fresh, x ∉ ((N, v) :: rest).map (·.1))
    (hflen : fresh.length = limit) :
    ((⟨limit, (N, v) :: rest⟩ : NicknameManager).update N r0).nick_map
        = rest ++ [(N, r0)] ∧
    (∀ k < limit,
      N ∈ (insertAll ((⟨limit, (N, v) :: rest⟩ : NicknameManager).update N r0)
            (fresh.take k) rom).nick_map.map (·.1)) ∧
    (∀ e1 rest', rest = e1 :: rest' → ∀ f1 ∈ fresh.head?,
      (insertAll ((⟨limit, (N, v) :: rest⟩ : NicknameManager).update N r0)
            (fresh.take 1) rom).nick_map
          = rest' ++ [(N, r0), (f1, rom f1)] ∧ e1.1 ≠ N) := by
  have htouch := NicknameManager.update_touch limit N v r0 rest hN hnd
    (le_of_eq hfull)
  have hrestlen : rest.length + 1 = limit := by
    simpa using hfull
  have hL0len : (rest ++ [(N, r0)]).length = limit := by
    simp only [List.length_append, List.length_cons, List.length_nil]
    omega
  have hkeysub : ∀ x ∈ fresh, x ∉ (rest ++ [(N, r0)]).map (·.1) := by
    intro x hx hc
    simp only [List.map_append, List.mem_append, List.map_cons, List.map_nil,
      List.mem_cons, List.not_mem_nil, or_false] at hc
    apply hdisj x hx
    simp only [List.map_cons, List.mem_cons]
    rcases hc with hc | hc
    · exact Or.inr hc
    · rcases hc with hc
      exact Or.inl hc
  refine ⟨by rw [htouch], ?_, ?_⟩
  · intro k hk
    have htk_nd : (fresh.take k).Nodup := hfnd.sublist (List.take_sublist k fresh)
    have htk_ne : ∀ x ∈ fresh.take k, x ≠ [] :=
      fun x hx => hfne x (List.mem_of_mem_take hx)
    have htk_dj : ∀ x ∈ fresh.take k, x ∉ (rest ++ [(N, r0)]).map (·.1) :=
      fun x hx => hkeysub x (List.mem_of_mem_take hx)
    have htk_len : (fresh.take k).length = k := by
      rw [List.length_take]
      omega
    rw [htouch]
    rw [NicknameManager.insertAll_fresh limit (by omega) _ _ rom
      (le_of_eq hL0len) htk_nd htk_ne htk_dj]
    dsimp only
    rw [List.map_drop]
    have hsplit : ((rest ++ [(N, r0)]) ++
        (fresh.take k).map (fun n => (n, rom n))).map (·.1)
        = (rest.map (·.1) ++ [N]) ++ ((fresh.take k).map (fun n => (n, rom n))).map (·.1) := by
      simp [List.map_append]
    rw [hsplit]
    have hcnt : (rest ++ [(N, r0)]).length + (fresh.take k).length - limit = k := by
      rw [hL0len, htk_len]
      omega
    rw [hcnt]
    rw [List.drop_append_of_le_length (by
      simp only [List.length_append, List.length_map, List.length_cons,
        List.length_nil]
      omega)]
    apply List.mem_append_left
    rw [List.drop_append_of_le_length (by
      simp only [List.length_map]
      omega)]
    apply List.mem_append_right
    simp
  · intro e1 rest' hrest f1 hf1
    subst hrest
    obtain ⟨ftail, rfl⟩ : ∃ ftail, fresh = f1 :: ftail := by
      cases fresh with
      | nil => simp at hf1
      | cons a t =>
        simp only [List.head?_cons, Option.mem_def, Option.some.injEq] at hf1
        exact ⟨t, by rw [hf1]⟩
    constructor
    · rw [htouch]
      have h1 : (f1 :: ftail).take 1 = [f1] := by simp
      rw [h1]
      have hone : insertAll ⟨limit, (e1 :: rest') ++ [(N, r0)]⟩ [f1] rom
          = (⟨limit, (e1 :: rest') ++ [(N, r0)]⟩ : NicknameManager).update f1 (rom f1) := rfl
      rw [hone]
      rw [NicknameManager.update_fresh _ _ _ (hfne f1 (by simp))
        (hkeysub f1 (by simp))]
      dsimp only
      rw [if_pos (by
        simp only [List.length_append, List.length_cons, List.length_nil] at *
        omega)]
      simp
    · have hx : (List.map (fun x => x.1) ((N, v) :: e1 :: rest')).Nodup := hnd
      simp only [List.map_cons, List.nodup_cons, List.mem_cons] at hx
      intro hc
      exact hx.1 (Or.inl hc.symm)

theorem claim_C4_lru_recency_amended_witness :
    (2 ≤ 2 ∧ (['N'] : List Char) ≠ [] ∧
      ((((['N'], []) : List Char × List Char) :: [((['e'], []) : List Char × List Char)]).map (·.1)).Nodup ∧
      ([((['N'], []) : List Char × List Char), ((['e'], []))]).length = 2 ∧
      ([['f'], ['g']] : List (List Char)).Nodup ∧
      (∀ x ∈ ([['f'], ['g']] : List (List Char)), x ≠ []) ∧
      (∀ x ∈ ([['f'], ['g']] : List (List Char)),
        x ∉ ([((['N'], []) : List Char × List Char), ((['e'], []))]).map (·.1)) ∧
      ([['f'], ['g']] : List (List Char)).length = 2) ∧
    ((⟨2, [(['N'], []), (['e'], [])]⟩ : NicknameManager).update ['N'] ['r']).nick_map
        = [(['e'], [])] ++ [(['N'], ['r'])] := by
  have h := claim_C4_lru_recency_amended 2 ['N'] [] ['r'] [(['e'], [])]
    [['f'], ['g']] (fun _ => []) (by omega) (by decide) (by decide) (by decide)
    (by decide) (by decide) (by decide) (by decide)
  exact ⟨⟨by omega, by decide, by decide, by decide, by decide, by decide,
    by decide, by decide⟩, h.1⟩

/-- Claim C9 as stated is false: on a later sighting of a cached name the
pipeline recomputes the transliteration and overwrites the stored value — it
does not reuse the cached one.  With `'n'` cached as `"A"` and the
transliterator now producing `"B"`, the stored value becomes `"B"`. -/
theorem claim_C9_nickname_reuse_counterexample :
    (pipelineNickStep (fun _ => ['B'])
        ⟨500, [(['n'], ['A'])]⟩ ['n']).nick_map = [(['n'], ['B'])] ∧
    (pipelineNickStep (fun _ => ['B'])
        ⟨500, [(['n'], ['A'])]⟩ ['n']).nick_map ≠ [(['n'], ['A'])] := by
  decide

/-- Claim C9 (amended): on a later sighting of a cached name the pipeline
recomputes `get_romaji` and overwrites the stored entry with the fresh value
while bumping it to most-recently-used; the size is unchanged, and the stored
value equals the cached one only when recomputation returns the same result
(the transliterator being deterministic makes this observable reuse). -/
theorem claim_C9_nickname_recompute_amended
    (rom : List Char → List Char) (nm : NicknameManager) (name v : List Char)
    (hn : name ≠ []) (hmem : (name, v) ∈ nm.nick_map)
    (hnd : (nm.nick_map.map (·.1)).Nodup)
    (hlen : nm.nick_map.length ≤ nm.limit) :
    (pipelineNickStep rom nm name).nick_map
        = nm.nick_map.filter (fun e => e.1 ≠ name) ++ [(name, rom name)] ∧
    (pipelineNickStep rom nm name).nick_map.length = nm.nick_map.length := by
  have hstep : pipelineNickStep rom nm name = nm.update name (rom name) := by
    rw [pipelineNickStep, if_neg hn]
  have hupd := NicknameManager.update_present nm name v (rom name) hn hmem hnd hlen
  have hflen := NicknameManager.filter_ne_length_of_mem hmem hnd
  rw [hstep, hupd]
  refine ⟨rfl, ?_⟩
  simp only [List.length_append, List.length_cons, List.length_nil]
  omega

theorem claim_C9_nickname_recompute_amended_witness :
    ((['n'] : List Char) ≠ [] ∧
      ((['n'], ['A']) : List Char × List Char) ∈ [((['n'], ['A']) : List Char × List Char)] ∧
      (([((['n'], ['A']) : List Char × List Char)]).map (·.1)).Nodup ∧
      ([((['n'], ['A']) : List Char × List Char)]).length ≤ 500) ∧
    (pipelineNickStep (fun _ => ['B'])
        (⟨500, [(['n'], ['A'])]⟩ : NicknameManager) ['n']).nick_map
      = ([((['n'], ['A']) : List Char × List Char)]).filter (fun e => e.1 ≠ ['n'])
        ++ [(['n'], ['B'])] := by
  have h := claim_C9_nickname_recompute_amended (fun _ => ['B'])
    ⟨500, [(['n'], ['A'])]⟩ ['n'] ['A'] (by decide) (by decide) (by decide)
    (by decide)
  exact ⟨⟨by decide, by decide, by decide, by decide⟩, h.1⟩

/-! ## Structure of the `JOSA_PATTERN` scanner -/

theorem fkjF_irrel : ∀ (f1 f2 : Nat) (s : List Char),
    s.length ≤ f1 → s.length ≤ f2 → fkjF f1 s = fkjF f2 s := by
  intro f1
  induction f1 with
  | zero =>
    intro f2 s h1 h2
    have hnil : s = [] := by
      cases s with
      | nil => rfl
      | cons a b => simp at h1
    subst hnil
    cases f2 with
    | zero => rfl
    | succ k => rfl
  | succ k1 ih =>
    intro f2 s h1 h2
    cases s with
    | nil =>
      cases f2 with
      | zero => rfl
      | succ k2 => rfl
    | cons c rest =>
      cases f2 with
      | zero => simp at h2
      | succ k2 =>
        rw [fkjF, fkjF]
        cases hm : josaMatchLen (c :: rest) with
        | some w =>
          dsimp only
          congr 1
          apply ih
          · simp only [List.length_drop, List.length_cons]
            simp only [List.length_cons] at h1
            omega
          · simp only [List.length_drop, List.length_cons]
            simp only [List.length_cons] at h2
            omega
        | none =>
          dsimp only
          congr 1
          apply ih
          · simp only [List.length_cons] at h1
            omega
          · simp only [List.length_cons] at h2
            omega

theorem fkj_nil : fix_korean_josa [] = [] := rfl

theorem fkj_match {c : Char} {rest : List Char} {w : Nat}
    (h : josaMatchLen (c :: rest) = some w) :
    fix_korean_josa (c :: rest) =
      (c :: rest).take w ++
        [josaMap (josaHasFinal (((c :: rest).take w).getLastD ' '))
          ((c :: rest).getD w ' ')] ++
        fix_korean_josa ((c :: rest).drop (w + 1)) := by
  show fkjF (c :: rest).length (c :: rest) = _
  rw [List.length_cons, fkjF, h]
  dsimp only
  rw [fkjF_irrel rest.length ((c :: rest).drop (w + 1)).length
    ((c :: rest).drop (w + 1))
    (by simp only [List.length_drop, List.length_cons]; omega) (le_refl _)]
  rfl

theorem fkj_none {c : Char} {rest : List Char}
    (h : josaMatchLen (c :: rest) = none) :
    fix_korean_josa (c :: rest) = c :: fix_korean_josa rest := by
  show fkjF (c :: rest).length (c :: rest) = _
  rw [List.length_cons, fkjF, h]
  rfl

theorem josaSearch_some {s : List Char} {n w : Nat}
    (h : josaSearch s n = some w) :
    1 ≤ w ∧ w ≤ n ∧ ∃ p, s.get? w = some p ∧ isParticle p = true ∧
      josaLookOk s (w + 1) = true := by
  induction n with
  | zero => simp [josaSearch] at h
  | succ m ih =>
    rw [josaSearch] at h
    cases hg : s.get? (m + 1) with
    | some p =>
      rw [hg] at h
      dsimp only at h
      by_cases hc : (isParticle p && josaLookOk s (m + 2)) = true
      · rw [if_pos hc] at h
        have hw : m + 1 = w := by injection h
        subst hw
        simp only [Bool.and_eq_true] at hc
        exact ⟨by omega, le_refl _, p, hg, hc.1, hc.2⟩
      · rw [if_neg hc] at h
        obtain ⟨h1, h2, hrest⟩ := ih h
        exact ⟨h1, by omega, hrest⟩
    | none =>
      rw [hg] at h
      dsimp only at h
      obtain ⟨h1, h2, hrest⟩ := ih h
      exact ⟨h1, by omega, hrest⟩

theorem josaMatchLen_some {s : List Char} {w : Nat}
    (h : josaMatchLen s = some w) :
    1 ≤ w ∧ w ≤ josaRun s ∧ ∃ p, s.get? w = some p ∧ isParticle p = true ∧
      josaLookOk s (w + 1) = true :=
  josaSearch_some h

theorem josaMatchLen_lt {s : List Char} {w : Nat}
    (h : josaMatchLen s = some w) : w < s.length := by
  obtain ⟨-, -, p, hp, -⟩ := josaMatchLen_some h
  exact (List.get?_eq_some.mp hp).1

theorem josaRun_spec (s : List Char) :
    ∀ i, i < josaRun s → ∃ c, s.get? i = some c ∧ isJosaWord c = true := by
  induction s with
  | nil => intro i hi; simp [josaRun] at hi
  | cons a t ih =>
    intro i hi
    rw [josaRun, List.takeWhile_cons] at hi
    cases ha : isJosaWord a with
    | false => rw [ha] at hi; simp at hi
    | true =>
      rw [ha] at hi
      simp only [eq_self_iff_true, if_true, List.length_cons] at hi
      cases i with
      | zero => exact ⟨a, rfl, ha⟩
      | succ j => exact ih j (by rw [josaRun]; omega)

theorem josaHasFinal_eq (c : Char) :
    josaHasFinal c = (isHangulSyl c && ((c.toNat - 44032) % 28 != 0)) := by
  unfold josaHasFinal has_batchim
  cases h : isHangulSyl c <;> simp [h]

theorem isParticle_cases {p : Char} (hp : isParticle p = true) :
    p = '을' ∨ p = '를' ∨ p = '이' ∨ p = '가' ∨ p = '은' ∨ p = '는' ∨
    p = '와' ∨ p = '과' := by
  unfold isParticle pairIdx at hp
  split_ifs at hp with h1 h2 h3 h4
  · rcases Bool.or_eq_true_iff.mp h1 with h | h <;> simp_all
  · rcases Bool.or_eq_true_iff.mp h2 with h | h <;> simp_all
  · rcases Bool.or_eq_true_iff.mp h3 with h | h <;> simp_all
  · rcases Bool.or_eq_true_iff.mp h4 with h | h <;> simp_all
  · simp at hp

theorem josaMap_eq_pairForm (p c : Char) (hp : isParticle p = true) :
    josaMap (josaHasFinal c) p =
      if isHangulSyl c && ((c.toNat - 44032) % 28 != 0) then pairFinalForm p
      else pairNoFinalForm p := by
  rw [josaHasFinal_eq]
  rcases isParticle_cases hp with rfl | rfl | rfl | rfl | rfl | rfl | rfl | rfl <;>
    cases hb : (isHangulSyl c && ((c.toNat - 44032) % 28 != 0)) <;>
      simp [josaMap, pairFinalForm, pairNoFinalForm]

theorem take_getLastD_eq {s : List Char} {w : Nat} {lastc : Char}
    (hw : 1 ≤ w) (hlt : w ≤ s.length) (hl : s.get? (w - 1) = some lastc) :
    (s.take w).getLastD ' ' = lastc := by
  have hlen : (s.take w).length = w := by
    rw [List.length_take]
    omega
  rw [List.getLastD_eq_getLast?, List.getLast?_eq_get?, hlen]
  rw [List.get?_take (by omega)]
  rw [hl]
  rfl

/-- Claim C1: at every `JOSA_PATTERN` match the corrector emits the word
unchanged followed by the particle rewritten purely from the last word
character: the final-consonant form of the particle's pair exactly when that
character lies in the Hangul-syllable block with code-point offset from 44032
not divisible by 28, and the no-final-consonant form otherwise — in
particular always the no-final form when the word ends in a non-block
character (Latin letter, digit, or closing parenthesis), regardless of which
form was originally present. -/
theorem claim_C1_particle_agreement (s : List Char) (w : Nat)
    (h : josaMatchLen s = some w) :
    ∃ p lastc,
      s.get? w = some p ∧ isParticle p = true ∧
      s.get? (w - 1) = some lastc ∧ isJosaWord lastc = true ∧
      fix_korean_josa s =
        s.take w ++
          [if isHangulSyl lastc && ((lastc.toNat - 44032) % 28 != 0) then
            pairFinalForm p else pairNoFinalForm p] ++
          fix_korean_josa (s.drop (w + 1)) ∧
      (isHangulSyl lastc = false →
        fix_korean_josa s =
          s.take w ++ [pairNoFinalForm p] ++
            fix_korean_josa (s.drop (w + 1))) := by
  obtain ⟨hw1, hwrun, p, hp, hpart, -⟩ := josaMatchLen_some h
  have hwlt : w < s.length := josaMatchLen_lt h
  obtain ⟨lastc, hl, hlw⟩ := josaRun_spec s (w - 1) (by omega)
  obtain ⟨c, rest, rfl⟩ : ∃ c rest, s = c :: rest := by
    cases s with
    | nil => simp at hwlt
    | cons c rest => exact ⟨c, rest, rfl⟩
  have hmain := fkj_match h
  rw [List.getD_eq_get?, hp, Option.getD_some] at hmain
  rw [take_getLastD_eq hw1 (by omega) hl] at hmain
  rw [josaMap_eq_pairForm p lastc hpart] at hmain
  refine ⟨p, lastc, hp, hpart, hl, hlw, hmain, ?_⟩
  intro hH
  rw [hmain, hH]
  simp

theorem claim_C1_particle_agreement_witness :
    josaMatchLen ['산', '가'] = some 1 ∧
    ∃ p lastc,
      (['산', '가'] : List Char).get? 1 = some p ∧ isParticle p = true ∧
      (['산', '가'] : List Char).get? 0 = some lastc ∧ isJosaWord lastc = true ∧
      fix_korean_josa ['산', '가'] =
        (['산', '가'] : List Char).take 1 ++
          [if isHangulSyl lastc && ((lastc.toNat - 44032) % 28 != 0) then
            pairFinalForm p else pairNoFinalForm p] ++
          fix_korean_josa ((['산', '가'] : List Char).drop 2) ∧
      (isHangulSyl lastc = false →
        fix_korean_josa ['산', '가'] =
          (['산', '가'] : List Char).take 1 ++ [pairNoFinalForm p] ++
            fix_korean_josa ((['산', '가'] : List Char).drop 2)) := by
  have hm : josaMatchLen ['산', '가'] = some 1 := by decide
  exact ⟨hm, claim_C1_particle_agreement ['산', '가'] 1 hm⟩

/-! ## Skeleton invariance of the josa scanner, and idempotence -/

theorem chClassEq_refl (a : Char) : chClassEq a a := ⟨rfl, rfl, rfl⟩

theorem skel_refl (s : List Char) : SkelEq s s :=
  List.forall₂_same.mpr (fun x _ => chClassEq_refl x)

theorem skel_append {a b c d : List Char} (h1 : SkelEq a c) (h2 : SkelEq b d) :
    SkelEq (a ++ b) (c ++ d) :=
  List.rel_append h1 h2

theorem skel_get? {s t : List Char} (h : SkelEq s t) (i : Nat) :
    (s.get? i = none ∧ t.get? i = none) ∨
    ∃ a b, s.get? i = some a ∧ t.get? i = some b ∧ chClassEq a b := by
  induction h generalizing i with
  | nil => left; simp
  | cons hab htail ih =>
    cases i with
    | zero => right; exact ⟨_, _, rfl, rfl, hab⟩
    | succ j => simpa using ih j

theorem skel_run {s t : List Char} (h : SkelEq s t) : josaRun s = josaRun t := by
  induction h with
  | nil => rfl
  | cons hab htail ih =>
    rw [josaRun, josaRun, List.takeWhile_cons, List.takeWhile_cons, hab.1]
    rw [josaRun, josaRun] at ih
    cases hb : isJosaWord _ with
    | false => simp
    | true =>
      simp only [if_true, List.length_cons]
      omega

theorem skel_lookOk {s t : List Char} (h : SkelEq s t) (i : Nat) :
    josaLookOk s i = josaLookOk t i := by
  rcases skel_get? h i with ⟨h1, h2⟩ | ⟨a, b, h1, h2, hab⟩
  · unfold josaLookOk
    rw [h1, h2]
  · unfold josaLookOk
    rw [h1, h2]
    dsimp only
    rw [hab.2.1]

theorem skel_search {s t : List Char} (h : SkelEq s t) (n : Nat) :
    josaSearch s n = josaSearch t n := by
  induction n with
  | zero => rfl
  | succ m ih =>
    rw [josaSearch, josaSearch]
    rcases skel_get? h (m + 1) with ⟨h1, h2⟩ | ⟨a, b, h1, h2, hab⟩
    · rw [h1, h2]
      dsimp only
      exact ih
    · rw [h1, h2]
      dsimp only
      have hpart : isParticle a = isParticle b := by
        unfold isParticle
        rw [hab.2.2]
      rw [hpart, skel_lookOk h (m + 2)]
      by_cases hc : (isParticle b && josaLookOk t (m + 2)) = true
      · rw [if_pos hc, if_pos hc]
      · rw [if_neg hc, if_neg hc]
        exact ih

theorem skel_matchLen {s t : List Char} (h : SkelEq s t) :
    josaMatchLen s = josaMatchLen t := by
  rw [josaMatchLen, josaMatchLen, skel_run h, skel_search h]

theorem josaMap_classEq (hf : Bool) (p : Char) (hp : isParticle p = true) :
    chClassEq (josaMap hf p) p := by
  rcases isParticle_cases hp with rfl | rfl | rfl | rfl | rfl | rfl | rfl | rfl <;>
    cases hf <;> exact ⟨by decide, by decide, by decide⟩

theorem pairIdx_inv {q : Char} {k : Nat} (h : pairIdx q = some k) :
    (k = 0 ∧ (q = '을' ∨ q = '를')) ∨ (k = 1 ∧ (q = '이' ∨ q = '가')) ∨
    (k = 2 ∧ (q = '은' ∨ q = '는')) ∨ (k = 3 ∧ (q = '와' ∨ q = '과')) := by
  unfold pairIdx at h
  split_ifs at h with h1 h2 h3 h4
  · refine Or.inl ⟨by injection h with h; omega, ?_⟩
    simpa using h1
  · refine Or.inr (Or.inl ⟨by injection h with h; omega, ?_⟩)
    simpa using h2
  · refine Or.inr (Or.inr (Or.inl ⟨by injection h with h; omega, ?_⟩))
    simpa using h3
  · refine Or.inr (Or.inr (Or.inr ⟨by injection h with h; omega, ?_⟩))
    simpa using h4

theorem josaMap_pair_eq {p q : Char} (hp : isParticle p = true)
    (hpq : pairIdx q = pairIdx p) (hf : Bool) : josaMap hf q = josaMap hf p := by
  rcases isParticle_cases hp with rfl | rfl | rfl | rfl | rfl | rfl | rfl | rfl <;>
    [(have hk : pairIdx q = some 0 := by rw [hpq]; decide);
     (have hk : pairIdx q = some 0 := by rw [hpq]; decide);
     (have hk : pairIdx q = some 1 := by rw [hpq]; decide);
     (have hk : pairIdx q = some 1 := by rw [hpq]; decide);
     (have hk : pairIdx q = some 2 := by rw [hpq]; decide);
     (have hk : pairIdx q = some 2 := by rw [hpq]; decide);
     (have hk : pairIdx q = some 3 := by rw [hpq]; decide);
     (have hk : pairIdx q = some 3 := by rw [hpq]; decide)] <;>
    rcases pairIdx_inv hk with ⟨hk0, hq⟩ | ⟨hk0, hq⟩ | ⟨hk0, hq⟩ | ⟨hk0, hq⟩ <;>
      first
        | omega
        | (rcases hq with rfl | rfl <;> cases hf <;> decide)

theorem josaMap_idem (hf : Bool) (p : Char) (hp : isParticle p = true) :
    josaMap hf (josaMap hf p) = josaMap hf p :=
  josaMap_pair_eq hp (josaMap_classEq hf p hp).2.2 hf

theorem fkj_match' {s : List Char} {w : Nat} (hne : s ≠ [])
    (h : josaMatchLen s = some w) :
    fix_korean_josa s =
      s.take w ++
        [josaMap (josaHasFinal ((s.take w).getLastD ' ')) (s.getD w ' ')] ++
        fix_korean_josa (s.drop (w + 1)) := by
  cases s with
  | nil => exact absurd rfl hne
  | cons c rest => exact fkj_match h

theorem josa_decomp {s : List Char} {w : Nat} {p : Char}
    (hp : s.get? w = some p) :
    s = s.take w ++ p :: s.drop (w + 1) := by
  obtain ⟨hlt, hget⟩ := List.get?_eq_some.mp hp
  conv_lhs => rw [← List.take_append_drop w s]
  rw [List.drop_eq_getElem_cons hlt]
  congr 2

/-- The scanner only rewrites particles within their pair, so its output is
skeleton-equal to its input. -/
theorem skel_fkj : ∀ (n : Nat) (s : List Char), s.length ≤ n →
    SkelEq (fix_korean_josa s) s := by
  intro n
  induction n with
  | zero =>
    intro s hs
    have : s = [] := by
      cases s with
      | nil => rfl
      | cons c r => simp at hs
    subst this
    rw [fkj_nil]
    exact List.Forall₂.nil
  | succ n ih =>
    intro s hs
    cases s with
    | nil =>
      rw [fkj_nil]
      exact List.Forall₂.nil
    | cons c rest =>
      cases hm : josaMatchLen (c :: rest) with
      | none =>
        rw [fkj_none hm]
        exact List.Forall₂.cons (chClassEq_refl c)
          (ih rest (by simpa using hs))
      | some w =>
        obtain ⟨hw1, hwrun, p, hp, hpart, -⟩ := josaMatchLen_some hm
        have hmain := fkj_match hm
        rw [List.getD_eq_get?, hp, Option.getD_some] at hmain
        rw [hmain]
        have hdrop_le : ((c :: rest).drop (w + 1)).length ≤ n := by
          simp only [List.length_drop, List.length_cons]
          simp only [List.length_cons] at hs
          omega
        have htail : SkelEq
            ([josaMap (josaHasFinal (((c :: rest).take w).getLastD ' ')) p] ++
              fix_korean_josa ((c :: rest).drop (w + 1)))
            (p :: (c :: rest).drop (w + 1)) := by
          exact List.Forall₂.cons (josaMap_classEq _ p hpart)
            (ih _ hdrop_le)
        have hall := skel_append (skel_refl ((c :: rest).take w)) htail
        rw [← List.append_assoc] at hall
        have hdecomp := josa_decomp hp
        conv_rhs => rw [hdecomp]
        exact hall

theorem take_app (A : List Char) (x : Char) (B : List Char) :
    (A ++ [x] ++ B).take A.length = A := by
  rw [List.append_assoc, List.take_left]

theorem getD_app (A : List Char) (x : Char) (B : List Char) :
    (A ++ [x] ++ B).getD A.length ' ' = x := by
  rw [List.append_assoc, List.getD_eq_get?, List.get?_append_right (le_refl _)]
  simp

theorem drop_app (A : List Char) (x : Char) (B : List Char) :
    (A ++ [x] ++ B).drop (A.length + 1) = B := by
  have hlen : (A ++ [x]).length = A.length + 1 := by simp
  rw [← hlen, List.drop_left]

theorem fkj_idem_n : ∀ (n : Nat) (s : List Char), s.length ≤ n →
    fix_korean_josa (fix_korean_josa s) = fix_korean_josa s := by
  intro n
  induction n with
  | zero =>
    intro s hs
    have hnil : s = [] := by
      cases s with
      | nil => rfl
      | cons c r => simp at hs
    subst hnil
    rw [fkj_nil, fkj_nil]
  | succ n ih =>
    intro s hs
    cases s with
    | nil => rw [fkj_nil, fkj_nil]
    | cons c rest =>
      cases hm : josaMatchLen (c :: rest) with
      | none =>
        rw [fkj_none hm]
        have hskel : SkelEq (c :: fix_korean_josa rest) (c :: rest) :=
          List.Forall₂.cons (chClassEq_refl c)
            (skel_fkj rest.length rest (le_refl _))
        have hm2 : josaMatchLen (c :: fix_korean_josa rest) = none := by
          rw [skel_matchLen hskel]
          exact hm
        rw [fkj_none hm2]
        congr 1
        exact ih rest (by simpa using hs)
      | some w =>
        obtain ⟨hw1, hwrun, p, hp, hpart, -⟩ := josaMatchLen_some hm
        have hwlt : w < (c :: rest).length := josaMatchLen_lt hm
        have hmain := fkj_match hm
        rw [List.getD_eq_get?, hp, Option.getD_some] at hmain
        have hskel : SkelEq (fix_korean_josa (c :: rest)) (c :: rest) :=
          skel_fkj (c :: rest).length (c :: rest) (le_refl _)
        have hm2 : josaMatchLen (fix_korean_josa (c :: rest)) = some w := by
          rw [skel_matchLen hskel]
          exact hm
        have hne2 : fix_korean_josa (c :: rest) ≠ [] := by
          intro hc
          have hle := List.Forall₂.length_eq hskel
          rw [hc] at hle
          simp at hle
        rw [fkj_match' hne2 hm2, hmain]
        set A := (c :: rest).take w with hA
        have hAlen : A.length = w := by
          rw [hA, List.length_take]
          omega
        set x := josaMap (josaHasFinal (A.getLastD ' ')) p with hx
        set B := fix_korean_josa ((c :: rest).drop (w + 1)) with hB
        have hdrop_le : ((c :: rest).drop (w + 1)).length ≤ n := by
          simp only [List.length_drop, List.length_cons]
          simp only [List.length_cons] at hs
          omega
        rw [← hAlen, take_app, getD_app, drop_app]
        have hfixB : fix_korean_josa B = B := by
          rw [hB]
          exact ih _ hdrop_le
        rw [hfixB, hx, josaMap_idem (josaHasFinal (A.getLastD ' ')) p hpart,
          ← hx]

/-- Claim C2: the Agreement Corrector is idempotent — for every string `s`,
`fix_korean_josa (fix_korean_josa s) = fix_korean_josa s`; re-running it on
already-corrected text changes nothing. -/
theorem claim_C2_josa_idempotent (s : List Char) :
    fix_korean_josa (fix_korean_josa s) = fix_korean_josa s :=
  fkj_idem_n s.length s (le_refl _)

/-! ## Chunk routing: pass-through vs the translation boundary -/

theorem mkMapping_ai_chars :
    ∀ (chunks : List (List Char × Bool)) (start : Nat),
      (mkMapping chunks start).2 =
        (chunks.filter (fun c => !c.2 && c.1.any isTransWord)).map (·.1) := by
  intro chunks
  induction chunks with
  | nil => intro start; rfl
  | cons c cs ih =>
    intro start
    rw [mkMapping]
    by_cases hr : chunkRouted c = true
    · rw [if_pos hr]
      dsimp only
      rw [ih start]
      have hfil : (!c.2 && c.1.any isTransWord) = false := by
        unfold chunkRouted at hr
        cases h2 : c.2 <;> cases hw : c.1.any isTransWord <;>
          simp_all
      rw [List.filter_cons, hfil]
      simp
    · rw [if_neg hr]
      dsimp only
      rw [ih (start + 1)]
      have hfil : (!c.2 && c.1.any isTransWord) = true := by
        unfold chunkRouted at hr
        cases h2 : c.2 <;> cases hw : c.1.any isTransWord <;>
          simp_all
      rw [List.filter_cons, hfil]
      simp

theorem resolveMapping_cons (tr : List Char → List Char)
    (e : List Char ⊕ Nat) (m : List (List Char ⊕ Nat))
    (ai : List (List Char)) :
    resolveMapping tr (e :: m) ai =
      (match e with
        | Sum.inl t => t
        | Sum.inr i => tr (ai.getD i [])) :: resolveMapping tr m ai := rfl

/-- The index-based `chunk_mapping`/`ai_results` resolution reconstructs
exactly one part per chunk, in order: pass-through chunks verbatim, AI chunks
through the boundary. -/
theorem resolve_mkMapping (tr : List Char → List Char) :
    ∀ (chunks : List (List Char × Bool)) (pre : List (List Char)),
      resolveMapping tr (mkMapping chunks pre.length).1
          (pre ++ (mkMapping chunks pre.length).2)
        = chunks.map (routeChunk tr) := by
  intro chunks
  induction chunks with
  | nil => intro pre; rfl
  | cons c cs ih =>
    intro pre
    rw [mkMapping]
    by_cases hr : chunkRouted c = true
    · rw [if_pos hr]
      dsimp only
      rw [resolveMapping_cons]
      dsimp only
      rw [List.map_cons, routeChunk, if_pos hr, ih pre]
    · rw [if_neg hr]
      dsimp only
      rw [resolveMapping_cons]
      dsimp only
      have hget : ((pre ++ c.1 :: (mkMapping cs (pre.length + 1)).2).getD
          pre.length []) = c.1 := by
        rw [List.getD_eq_get?, List.get?_append_right (le_refl _)]
        simp
      rw [hget, List.map_cons, routeChunk, if_neg hr]
      have hshift : pre ++ c.1 :: (mkMapping cs (pre.length + 1)).2
          = (pre ++ [c.1]) ++ (mkMapping cs (pre.length + 1)).2 := by
        simp
      have hlen : pre.length + 1 = (pre ++ [c.1]).length := by simp
      rw [hshift, hlen, ih (pre ++ [c.1])]

/-- Claim C10: an unprotected chunk with no translatable-script character
(Latin letter, kana, CJK ideograph, Hangul syllable) is never sent to the
translation boundary — the AI prompt batch contains exactly the texts of
unprotected word-bearing chunks — and it is passed to reassembly verbatim,
exactly as a protected chunk is. -/
theorem claim_C10_nonword_passthrough :
    (∀ (chunks : List (List Char × Bool)) (start : Nat),
      (mkMapping chunks start).2 =
        (chunks.filter (fun c => !c.2 && c.1.any isTransWord)).map (·.1)) ∧
    (∀ (tr : List Char → List Char) (t : List Char),
      t.any isTransWord = false →
      routeChunk tr (t, false) = t ∧
      routeChunk tr (t, false) = routeChunk tr (t, true)) ∧
    (∀ (tr : List Char → List Char) (chunks : List (List Char × Bool)),
      resolveMapping tr (mkMapping chunks 0).1 (mkMapping chunks 0).2
        = chunks.map (routeChunk tr)) := by
  refine ⟨mkMapping_ai_chars, ?_, ?_⟩
  · intro tr t ht
    constructor
    · rw [routeChunk, if_pos (by simp [chunkRouted, ht])]
    · rw [routeChunk, if_pos (by simp [chunkRouted, ht]),
        routeChunk, if_pos (by simp [chunkRouted])]
  · intro tr chunks
    have h := resolve_mkMapping tr chunks []
    simpa using h

theorem claim_C10_nonword_passthrough_witness :
    ((([')', '('] : List Char).any isTransWord = false) ∧
      routeChunk (fun _ => ['T']) ([')', '('], false) = [')', '('] ∧
      routeChunk (fun _ => ['T']) ([')', '('], false)
        = routeChunk (fun _ => ['T']) ([')', '('], true)) := by
  have hw : (([')', '('] : List Char).any isTransWord) = false := by decide
  have h := claim_C10_nonword_passthrough.2.1 (fun _ => ['T']) [')', '('] hw
  exact ⟨hw, h.1, h.2⟩

/-! ## The whitespace-before-punctuation collapse -/

theorem space_not_punct {c : Char} (h : isPySpace c = true) :
    isFinalPunct c = false := by
  cases hp : isFinalPunct c
  · rfl
  · exfalso
    unfold isFinalPunct at hp
    simp only [Bool.or_eq_true, decide_eq_true_eq] at hp
    rcases hp with ((((rfl | rfl) | rfl) | rfl) | rfl) <;> simp [isPySpace] at h

theorem punct_not_space {c : Char} (h : isFinalPunct c = true) :
    isPySpace c = false := by
  cases hs : isPySpace c
  · rfl
  · rw [space_not_punct hs] at h
    exact absurd h (by simp)

theorem remWsPunct_cons (c : Char) (r : List Char) :
    remWsPunct (c :: r) =
      if isPySpace c && headPunct (remWsPunct r) then remWsPunct r
      else c :: remWsPunct r := rfl

theorem dropWhile_eq_drop_run (p : Char → Bool) (l : List Char) :
    l.dropWhile p = l.drop (l.takeWhile p).length := by
  induction l with
  | nil => rfl
  | cons c r ih =>
    rw [List.dropWhile_cons, List.takeWhile_cons]
    cases hc : p c with
    | false => simp
    | true => simpa using ih

theorem remWsPunct_headPunct (t : List Char) :
    headPunct (remWsPunct t) = headPunct (t.dropWhile isPySpace) := by
  induction t with
  | nil => rfl
  | cons c r ih =>
    rw [remWsPunct_cons]
    cases hc : isPySpace c with
    | false =>
      rw [List.dropWhile_cons_of_neg (by simp [hc])]
      simp only [hc, Bool.false_and, Bool.false_eq_true, if_false]
      rfl
    | true =>
      rw [List.dropWhile_cons_of_pos hc]
      simp only [hc, Bool.true_and]
      cases hp : headPunct (remWsPunct r) with
      | true =>
        rw [if_pos rfl]
        exact ih
      | false =>
        rw [if_neg (by simp)]
        show isFinalPunct c = _
        rw [space_not_punct hc, ← ih, hp]

theorem remWsPunct_spaces_prefix (r t : List Char)
    (hr : ∀ c ∈ r, isPySpace c = true)
    (ht : headPunct (remWsPunct t) = true) :
    remWsPunct (r ++ t) = remWsPunct t := by
  induction r with
  | nil => rfl
  | cons x r' ih =>
    rw [List.cons_append, remWsPunct_cons, ih (fun c hc => hr c (by simp [hc]))]
    rw [if_pos]
    rw [hr x (by simp), ht]
    rfl

section
attribute [local irreducible] isPySpace isFinalPunct

theorem spsF_irrel : ∀ (f1 f2 : Nat) (s : List Char),
    s.length ≤ f1 → s.length ≤ f2 → spacePunctSubF f1 s = spacePunctSubF f2 s := by
  intro f1
  induction f1 with
  | zero =>
    intro f2 s h1 h2
    have hnil : s = [] := by
      cases s with
      | nil => rfl
      | cons a b => simp at h1
    subst hnil
    cases f2 with
    | zero => rfl
    | succ k => rfl
  | succ k1 ih =>
    intro f2 s h1 h2
    cases s with
    | nil =>
      cases f2 with
      | zero => rfl
      | succ k2 => rfl
    | cons c rest =>
      cases f2 with
      | zero => simp at h2
      | succ k2 =>
        rw [spacePunctSubF, spacePunctSubF]
        cases hg : (c :: rest).get? ((c :: rest).takeWhile isPySpace).length with
        | some d =>
          dsimp only
          by_cases hc : (1 ≤ ((c :: rest).takeWhile isPySpace).length
              && isFinalPunct d) = true
          · rw [if_pos hc, if_pos hc]
            congr 1
            apply ih
            · simp only [List.length_drop, List.length_cons]
              simp only [List.length_cons] at h1
              omega
            · simp only [List.length_drop, List.length_cons]
              simp only [List.length_cons] at h2
              omega
          · rw [if_neg hc, if_neg hc]
            congr 1
            apply ih
            · simp only [List.length_cons] at h1
              omega
            · simp only [List.length_cons] at h2
              omega
        | none =>
          dsimp only
          congr 1
          apply ih
          · simp only [List.length_cons] at h1
            omega
          · simp only [List.length_cons] at h2
            omega

theorem spacePunctSub_nil : spacePunctSub [] = [] := rfl

theorem spacePunctSub_cons_some (c : Char) (rest : List Char) (d : Char)
    (h : (c :: rest).get? ((c :: rest).takeWhile isPySpace).length = some d) :
    spacePunctSub (c :: rest) =
      if 1 ≤ ((c :: rest).takeWhile isPySpace).length && isFinalPunct d then
        d :: spacePunctSub
          ((c :: rest).drop (((c :: rest).takeWhile isPySpace).length + 1))
      else c :: spacePunctSub rest := by
  show spacePunctSubF (c :: rest).length (c :: rest) = _
  rw [List.length_cons, spacePunctSubF, h]
  dsimp only
  rw [spsF_irrel rest.length
    ((c :: rest).drop (((c :: rest).takeWhile isPySpace).length + 1)).length
    ((c :: rest).drop (((c :: rest).takeWhile isPySpace).length + 1))
    (by simp only [List.length_drop, List.length_cons]; omega) (le_refl _)]
  rfl

theorem spacePunctSub_cons_none (c : Char) (rest : List Char)
    (h : (c :: rest).get? ((c :: rest).takeWhile isPySpace).length = none) :
    spacePunctSub (c :: rest) = c :: spacePunctSub rest := by
  show spacePunctSubF (c :: rest).length (c :: rest) = _
  rw [List.length_cons, spacePunctSubF, h]
  rfl

end

theorem spacePunctSub_eq_remWsPunct : ∀ (n : Nat) (s : List Char),
    s.length ≤ n → spacePunctSub s = remWsPunct s := by
  intro n
  induction n with
  | zero =>
    intro s hs
    have hnil : s = [] := by
      cases s with
      | nil => rfl
      | cons c r => simp at hs
    subst hnil
    rw [spacePunctSub_nil]
    rfl
  | succ n ih =>
    intro s hs
    cases s with
    | nil => rw [spacePunctSub_nil]; rfl
    | cons c rest =>
      have hrestlen : rest.length ≤ n := by simpa using hs
      have hheadno : ∀ (hc : isPySpace c = true),
          (c :: rest).get? ((c :: rest).takeWhile isPySpace).length
              = (rest.dropWhile isPySpace).head? := by
        intro hc
        have h1 : rest.dropWhile isPySpace = (c :: rest).dropWhile isPySpace := by
          rw [List.dropWhile_cons_of_pos hc]
        rw [h1, dropWhile_eq_drop_run, List.head?_drop, List.get?_eq_getElem?]
      cases hc : isPySpace c with
      | false =>
        have hsp : ((c :: rest).takeWhile isPySpace).length = 0 := by
          rw [List.takeWhile_cons_of_neg (by simp [hc])]
          rfl
        have hg : (c :: rest).get? ((c :: rest).takeWhile isPySpace).length
            = some c := by rw [hsp]; rfl
        rw [spacePunctSub_cons_some c rest c hg]
        rw [if_neg (by rw [hsp]; simp)]
        rw [remWsPunct_cons, if_neg (by rw [hc]; simp)]
        congr 1
        exact ih rest hrestlen
      | true =>
        have hsp1 : 1 ≤ ((c :: rest).takeWhile isPySpace).length := by
          rw [List.takeWhile_cons_of_pos hc]
          simp
        cases hg : (c :: rest).get? ((c :: rest).takeWhile isPySpace).length with
        | none =>
          rw [spacePunctSub_cons_none c rest hg]
          rw [remWsPunct_cons]
          have hhead : headPunct (remWsPunct rest) = false := by
            rw [remWsPunct_headPunct]
            unfold headPunct
            rw [← hheadno hc, hg]
          rw [if_neg (by rw [hhead]; simp)]
          congr 1
          exact ih rest hrestlen
        | some d =>
          rw [spacePunctSub_cons_some c rest d hg]
          cases hd : isFinalPunct d with
          | false =>
            rw [if_neg (by simp)]
            rw [remWsPunct_cons]
            have hhead : headPunct (remWsPunct rest) = false := by
              rw [remWsPunct_headPunct]
              unfold headPunct
              rw [← hheadno hc, hg]
              exact hd
            rw [if_neg (by rw [hhead]; simp)]
            congr 1
            exact ih rest hrestlen
          | true =>
            rw [if_pos (by simpa using hsp1)]
            have hdrop : (c :: rest).drop ((c :: rest).takeWhile isPySpace).length
                = d :: (c :: rest).drop (((c :: rest).takeWhile isPySpace).length + 1) := by
              obtain ⟨hlt, hget⟩ := List.get?_eq_some.mp hg
              rw [List.drop_eq_getElem_cons hlt]
              congr 1
            have hdecomp : (c :: rest) =
                (c :: rest).takeWhile isPySpace ++
                  d :: (c :: rest).drop (((c :: rest).takeWhile isPySpace).length + 1) := by
              conv_lhs =>
                rw [← List.takeWhile_append_dropWhile isPySpace (c :: rest)]
              rw [dropWhile_eq_drop_run, hdrop]
            have htail : remWsPunct
                (d :: (c :: rest).drop (((c :: rest).takeWhile isPySpace).length + 1)) =
                d :: remWsPunct ((c :: rest).drop (((c :: rest).takeWhile isPySpace).length + 1)) := by
              rw [remWsPunct_cons, if_neg]
              rw [punct_not_space hd]
              simp
            have hpref : remWsPunct (c :: rest) =
                remWsPunct (d :: (c :: rest).drop (((c :: rest).takeWhile isPySpace).length + 1)) := by
              conv_lhs => rw [hdecomp]
              apply remWsPunct_spaces_prefix
              · intro x hx
                exact List.mem_takeWhile_imp hx
              · rw [htail]
                show isFinalPunct d = true
                exact hd
            rw [hpref, htail]
            congr 1
            apply ih
            simp only [List.length_drop, List.length_cons]
            omega

/-- Claim C8 as stated is false: reassembly does not collapse interior
whitespace runs to single spaces.  The single chunk `"a  b"` keeps its double
space, where the claimed normalization would produce `"a b"`. -/
theorem claim_C8_reassembly_counterexample :
    reassemble [['a', ' ', ' ', 'b']] = ['a', ' ', ' ', 'b'] ∧
    specReassembleC8 [['a', ' ', ' ', 'b']] = ['a', ' ', 'b'] ∧
    reassemble [['a', ' ', ' ', 'b']] ≠ specReassembleC8 [['a', ' ', ' ', 'b']] := by
  refine ⟨by decide, by decide, by decide⟩

/-- Claim C8 (amended): reassembly joins the non-empty pieces with a single
space, removes every whitespace run immediately preceding sentence-final
punctuation (`[.!?,~]`), applies the particle corrector, and trims whitespace
from both ends; it does not collapse other interior whitespace runs. -/
theorem claim_C8_reassembly_amended (parts : List (List Char)) :
    reassemble parts =
      pyStrip (fix_korean_josa (remWsPunct
        (List.intercalate [' '] (parts.filter (· ≠ []))))) := by
  unfold reassemble
  rw [spacePunctSub_eq_remWsPunct
    (List.intercalate [' '] (parts.filter (· ≠ []))).length _ (le_refl _)]

/-! ## Longest-key-first dictionary matching -/

theorem mem_insertByLen {x k : List Char} {l : List (List Char)} :
    x ∈ insertByLen k l ↔ x = k ∨ x ∈ l := by
  induction l with
  | nil => simp [insertByLen]
  | cons a t ih =>
    rw [insertByLen]
    by_cases hc : k.length ≤ a.length
    · rw [if_pos hc]
      simp only [List.mem_cons, ih]
      tauto
    · rw [if_neg hc]
      simp only [List.mem_cons]

theorem mem_sortByLenDesc {x : List Char} {l : List (List Char)} :
    x ∈ sortByLenDesc l ↔ x ∈ l := by
  induction l with
  | nil => simp [sortByLenDesc]
  | cons a t ih =>
    rw [sortByLenDesc, mem_insertByLen]
    simp [ih]

theorem pairwise_insertByLen {k : List Char} {l : List (List Char)}
    (h : List.Pairwise (fun a b : List Char => b.length ≤ a.length) l) :
    List.Pairwise (fun a b : List Char => b.length ≤ a.length)
      (insertByLen k l) := by
  induction l with
  | nil => simp [insertByLen]
  | cons a t ih =>
    rcases List.pairwise_cons.mp h with ⟨ha, ht⟩
    rw [insertByLen]
    by_cases hc : k.length ≤ a.length
    · rw [if_pos hc, List.pairwise_cons]
      refine ⟨?_, ih ht⟩
      intro y hy
      rcases mem_insertByLen.mp hy with rfl | hy
      · exact hc
      · exact ha y hy
    · rw [if_neg hc, List.pairwise_cons]
      refine ⟨?_, h⟩
      intro y hy
      rcases List.mem_cons.mp hy with rfl | hy
      · omega
      · exact le_trans (ha y hy) (by omega)

theorem pairwise_sortByLenDesc (l : List (List Char)) :
    List.Pairwise (fun a b : List Char => b.length ≤ a.length)
      (sortByLenDesc l) := by
  induction l with
  | nil => simp [sortByLenDesc]
  | cons a t ih =>
    rw [sortByLenDesc]
    exact pairwise_insertByLen ih

theorem dictMatch_longest {ks : List (List Char)}
    {cd : List (List Char × List Char)} {s k : List Char}
    (hs : List.Pairwise (fun a b : List Char => b.length ≤ a.length) ks)
    (hk : k ∈ ks) (hpre : k.isPrefixOf s = true) :
    ∃ n v, dictMatch ks cd s = some (n, v) ∧ k.length ≤ n := by
  induction ks with
  | nil => simp at hk
  | cons k0 kt ih =>
    rw [dictMatch]
    by_cases h0 : k0.isPrefixOf s = true
    · rw [if_pos h0]
      refine ⟨k0.length, dictLookup cd k0, rfl, ?_⟩
      rcases List.mem_cons.mp hk with rfl | hmem
      · exact le_refl _
      · exact (List.pairwise_cons.mp hs).1 k hmem
    · rw [if_neg h0]
      have hk2 : k ∈ kt := by
        rcases List.mem_cons.mp hk with rfl | hmem
        · exact absurd hpre h0
        · exact hmem
      exact ih (List.pairwise_cons.mp hs).2 hk2

/-- Claim C5: dictionary substitution is longest-key-first — whenever some
dictionary key is a prefix of the text at the match position, the matched
alternative has length at least that key's length (so a longer key shadows
its prefixes); concretely, with `{"AB": "x", "A": "y"}` the input `"AB"`
protects to the single chunk `("x", protected)`, never `"y" + "B"`. -/
theorem claim_C5_longest_match :
    (∀ (rawDict : List (List Char × List Char)) (s k : List Char),
      k ∈ (loadKeys rawDict).map (·.1) → k.isPrefixOf s = true →
      ∃ n v,
        dictMatch (sortByLenDesc ((loadKeys rawDict).map (·.1)))
          (loadKeys rawDict) s = some (n, v) ∧ k.length ≤ n) ∧
    preprocess_chunking ['A', 'B'] [(['A', 'B'], ['x']), (['A'], ['y'])] []
      = [(['x'], true)] := by
  constructor
  · intro rawDict s k hk hpre
    exact dictMatch_longest (pairwise_sortByLenDesc _)
      (mem_sortByLenDesc.mpr hk) hpre
  · decide

theorem claim_C5_longest_match_witness :
    ((['A'] : List Char) ∈
        (loadKeys [(['A', 'B'], ['x']), (['A'], ['y'])]).map (·.1) ∧
      (['A'] : List Char).isPrefixOf ['A', 'B'] = true) ∧
    ∃ n v,
      dictMatch
        (sortByLenDesc ((loadKeys [(['A', 'B'], ['x']), (['A'], ['y'])]).map (·.1)))
        (loadKeys [(['A', 'B'], ['x']), (['A'], ['y'])]) ['A', 'B']
        = some (n, v) ∧ (['A'] : List Char).length ≤ n := by
  refine ⟨⟨by decide, by decide⟩, ?_⟩
  exact claim_C5_longest_match.1 [(['A', 'B'], ['x']), (['A'], ['y'])]
    ['A', 'B'] ['A'] (by decide) (by decide)

/-! ## Decimal digit strings: shape, classification, injectivity -/

theorem natDigitsF_irrel : ∀ (f1 f2 n : Nat), n < f1 → n < f2 →
    natDigitsF f1 n = natDigitsF f2 n := by
  intro f1
  induction f1 with
  | zero => intro f2 n h1 _; exact absurd h1 (Nat.not_lt_zero n)
  | succ k ih =>
    intro f2 n h1 h2
    cases f2 with
    | zero => exact absurd h2 (Nat.not_lt_zero n)
    | succ k2 =>
      rw [natDigitsF, natDigitsF]
      by_cases h10 : n < 10
      · rw [if_pos h10, if_pos h10]
      · rw [if_neg h10, if_neg h10]
        congr 1
        have hd : n / 10 < n := Nat.div_lt_self (by omega) (by omega)
        exact ih k2 (n / 10) (by omega) (by omega)

theorem natDigits_eq (n : Nat) :
    natDigits n = if n < 10 then [Char.ofNat (48 + n)]
      else natDigits (n / 10) ++ [Char.ofNat (48 + n % 10)] := by
  show natDigitsF (n + 1) n = _
  rw [natDigitsF]
  by_cases h10 : n < 10
  · rw [if_pos h10, if_pos h10]
  · rw [if_neg h10, if_neg h10]
    congr 1
    have hd : n / 10 < n := Nat.div_lt_self (by omega) (by omega)
    exact natDigitsF_irrel n (n / 10 + 1) (n / 10) (by omega) (by omega)

theorem natDigits_ne_nil (n : Nat) : natDigits n ≠ [] := by
  rw [natDigits_eq]
  by_cases h10 : n < 10
  · rw [if_pos h10]; simp
  · rw [if_neg h10]; simp

theorem isDigitCh_ofNat (d : Nat) (h1 : 48 ≤ d) (h2 : d ≤ 57) :
    isDigitCh (Char.ofNat d) = true := by
  interval_cases d <;> decide

theorem natDigits_digits (n : Nat) : ∀ c ∈ natDigits n, isDigitCh c = true := by
  induction n using Nat.strong_induction_on with
  | _ n ih =>
    rw [natDigits_eq]
    by_cases h10 : n < 10
    · rw [if_pos h10]
      intro c hc
      simp only [List.mem_singleton] at hc
      subst hc
      exact isDigitCh_ofNat _ (by omega) (by omega)
    · rw [if_neg h10]
      intro c hc
      rcases List.mem_append.mp hc with hc | hc
      · exact ih (n / 10) (Nat.div_lt_self (by omega) (by omega)) c hc
      · simp only [List.mem_singleton] at hc
        subst hc
        have : n % 10 < 10 := Nat.mod_lt _ (by omega)
        exact isDigitCh_ofNat _ (by omega) (by omega)

theorem digitCh_toNat {c : Char} (h : isDigitCh c = true) :
    48 ≤ c.toNat ∧ c.toNat ≤ 57 := by
  simp only [isDigitCh, Bool.and_eq_true] at h
  obtain ⟨h1, h2⟩ := h
  exact ⟨by simpa using Char.le_def.mp (by exact_mod_cast of_decide_eq_true h1),
         by simpa using Char.le_def.mp (by exact_mod_cast of_decide_eq_true h2)⟩

theorem gem_toNat : gem.toNat = 128160 := by decide

theorem digit_ne_gem {c : Char} (h : isDigitCh c = true) : c ≠ gem := by
  intro he
  have := digitCh_toNat h
  rw [he, gem_toNat] at this
  omega

theorem digitVal_append_digit (l : List Char) (c : Char) :
    digitVal (l ++ [c]) = 10 * digitVal l + (c.toNat - 48) := by
  simp [digitVal, List.foldl_append]

theorem digitVal_natDigits (n : Nat) : digitVal (natDigits n) = n := by
  induction n using Nat.strong_induction_on with
  | _ n ih =>
    rw [natDigits_eq]
    by_cases h10 : n < 10
    · rw [if_pos h10]
      have ht : (Char.ofNat (48 + n)).toNat = 48 + n :=
        toNat_ofNat_lt _ (by omega)
      simp [digitVal, ht]
    · rw [if_neg h10]
      rw [digitVal_append_digit]
      have hm : n % 10 < 10 := Nat.mod_lt _ (by omega)
      have ht : (Char.ofNat (48 + n % 10)).toNat = 48 + n % 10 :=
        toNat_ofNat_lt _ (by omega)
      rw [ih (n / 10) (Nat.div_lt_self (by omega) (by omega)), ht]
      omega

theorem natDigits_inj {a b : Nat} (h : natDigits a = natDigits b) : a = b := by
  have := congrArg digitVal h
  rwa [digitVal_natDigits, digitVal_natDigits] at this

theorem placeholderOf_inj {a b : Nat} (h : placeholderOf a = placeholderOf b) :
    a = b := by
  simp only [placeholderOf, List.cons.injEq, true_and] at h
  have h2 := (List.append_inj' h rfl).1
  simp only [List.cons.injEq, true_and] at h2
  exact natDigits_inj h2

theorem gem_mem_placeholder (n : Nat) : gem ∈ placeholderOf n := by
  simp [placeholderOf]

theorem placeholder_not_infix {n : Nat} {t : List Char} (h : gem ∉ t) :
    ¬ placeholderOf n <:+: t := by
  intro hin
  exact h (hin.subset (gem_mem_placeholder n))

/-! ## Gem-free infixes of an insertion region -/

theorem mem_of_some_getElem {l : List Char} {n : Nat} {a : Char}
    (h : l[n]? = some a) : a ∈ l := by
  have h2 : n < l.length := by
    by_contra hc
    rw [List.getElem?_eq_none (by omega)] at h
    cases h
  rw [List.getElem?_eq_getElem h2, Option.some.injEq] at h
  exact h ▸ List.getElem_mem h2

theorem infix_split {k X Y : List Char} {g : Char} (hg : g ∉ k)
    (h : k <:+: X ++ g :: Y) : k <:+: X ∨ k <:+: Y := by
  obtain ⟨s, t, hst⟩ := h
  rw [List.append_assoc] at hst
  by_cases hA : s.length + k.length ≤ X.length
  · left
    have h2 := congrArg (fun l => (l.drop s.length).take k.length) hst
    simp only at h2
    rw [List.drop_left, List.take_left] at h2
    rw [List.drop_append_eq_append_drop,
        Nat.sub_eq_zero_of_le (by omega : s.length ≤ X.length),
        List.drop_zero] at h2
    rw [List.take_append_of_le_length
        (by rw [List.length_drop]; omega)] at h2
    have hpre : k <+: X.drop s.length := h2 ▸ List.take_prefix _ _
    exact hpre.isInfix.trans (List.drop_suffix _ _).isInfix
  · by_cases hB : X.length + 1 ≤ s.length
    · right
      have h2 := congrArg (List.drop (X.length + 1)) hst
      rw [List.drop_append_eq_append_drop,
          Nat.sub_eq_zero_of_le (by omega : X.length + 1 ≤ s.length),
          List.drop_zero] at h2
      rw [List.append_cons X g Y, List.drop_left' (by simp)] at h2
      exact ⟨s.drop (X.length + 1), t, by rw [List.append_assoc]; exact h2⟩
    · exfalso
      have h2 := congrArg (fun l => l[X.length]?) hst
      simp only at h2
      rw [List.getElem?_append_right (by omega : s.length ≤ X.length)] at h2
      rw [List.getElem?_append_left (by omega)] at h2
      rw [List.getElem?_append_right (le_refl X.length), Nat.sub_self] at h2
      simp only [List.getElem?_cons_zero] at h2
      exact hg (mem_of_some_getElem h2)

theorem region_decomp (i : Nat) : insRegion i =
    [] ++ gem :: (['S', 'P', 'L', 'I', 'T'] ++ gem ::
      ([] ++ gem :: (natDigits i ++ gem ::
        ([] ++ gem :: (['S', 'P', 'L', 'I', 'T'] ++ gem :: []))))) := by
  simp [insRegion, splitMarker, placeholderOf]

theorem gemfree_infix_region {k : List Char} (hg : gem ∉ k) (i : Nat)
    (h : k <:+: insRegion i) :
    k <:+: ['S', 'P', 'L', 'I', 'T'] ∨ k <:+: natDigits i := by
  rw [region_decomp] at h
  rcases infix_split hg h with h | h
  · left; rw [List.eq_nil_of_infix_nil h]; exact List.nil_infix
  rcases infix_split hg h with h | h
  · left; exact h
  rcases infix_split hg h with h | h
  · left; rw [List.eq_nil_of_infix_nil h]; exact List.nil_infix
  rcases infix_split hg h with h | h
  · right; exact h
  rcases infix_split hg h with h | h
  · left; rw [List.eq_nil_of_infix_nil h]; exact List.nil_infix
  rcases infix_split hg h with h | h
  · left; exact h
  · left; rw [List.eq_nil_of_infix_nil h]; exact List.nil_infix

theorem region_last (i : Nat) :
    insRegion i = (splitMarker ++ placeholderOf i ++
      [gem, 'S', 'P', 'L', 'I', 'T']) ++ [gem] := by
  simp [insRegion, splitMarker]

theorem gem_mem_region_drop {i j : Nat} (hj : j < (insRegion i).length) :
    gem ∈ (insRegion i).drop j := by
  have hlen : (insRegion i).length =
      (splitMarker ++ placeholderOf i ++ [gem, 'S', 'P', 'L', 'I', 'T']).length + 1 := by
    rw [region_last, List.length_append]
    rfl
  have hlast : (insRegion i)[(insRegion i).length - 1]? = some gem := by
    rw [hlen, Nat.add_sub_cancel]
    conv_lhs => rw [region_last]
    rw [List.getElem?_append_right (le_refl _), Nat.sub_self]
    rfl
  have hidx := List.getElem?_drop (insRegion i) j ((insRegion i).length - 1 - j)
  rw [show j + ((insRegion i).length - 1 - j) = (insRegion i).length - 1 by omega,
      hlast] at hidx
  exact mem_of_some_getElem hidx

theorem goodKey_no_prefix_region {k : List Char} (hk : goodKey k)
    {i j : Nat} (tail : List Char) (hj : j < (insRegion i).length)
    (hpre : k <+: (insRegion i).drop j ++ tail) : False := by
  obtain ⟨hgem, hdig, hsplit⟩ := hk
  by_cases hlen : k.length ≤ ((insRegion i).drop j).length
  · have h1 : k <+: (insRegion i).drop j := by
      have h2 := List.prefix_iff_eq_take.mp hpre
      rw [List.take_append_of_le_length hlen] at h2
      exact h2 ▸ List.take_prefix _ _
    have h2 : k <:+: insRegion i :=
      h1.isInfix.trans (List.drop_suffix _ _).isInfix
    rcases gemfree_infix_region hgem i h2 with h | h
    · exact hsplit h
    · have hall : k.all isDigitCh = true := by
        rw [List.all_eq_true]
        intro c hc
        exact natDigits_digits i c (h.subset hc)
      rw [hall] at hdig
      cases hdig
  · have hD : (insRegion i).drop j <+: k :=
      List.prefix_of_prefix_length_le (List.prefix_append _ _) hpre (by omega)
    exact hgem (hD.subset (gem_mem_region_drop hj))

/-! ## Equations for the `protect`-substitution scanner -/

theorem runSubF_irrel (f : List Char → Option (Nat × List Char)) :
    ∀ (f1 f2 : Nat) (st : PState) (s : List Char),
      s.length ≤ f1 → s.length ≤ f2 →
      runSubF f f1 st s = runSubF f f2 st s := by
  intro f1
  induction f1 with
  | zero =>
    intro f2 st s h1 _
    have hs : s = [] := List.eq_nil_of_length_eq_zero (by omega)
    subst hs
    cases f2 with
    | zero => rfl
    | succ k => rfl
  | succ k1 ih =>
    intro f2 st s h1 h2
    cases s with
    | nil =>
      cases f2 with
      | zero => rfl
      | succ k2 => rfl
    | cons c rest =>
      cases f2 with
      | zero => simp at h2
      | succ k2 =>
        rw [runSubF, runSubF]
        cases hm : f (c :: rest) with
        | some nv =>
          obtain ⟨n, v⟩ := nv
          dsimp only
          by_cases hn : 1 ≤ n
          · rw [if_pos hn, if_pos hn]
            rw [ih k2 (protectVal st v).1 ((c :: rest).drop n)
              (by simp only [List.length_drop, List.length_cons]
                  simp only [List.length_cons] at h1; omega)
              (by simp only [List.length_drop, List.length_cons]
                  simp only [List.length_cons] at h2; omega)]
          · rw [if_neg hn, if_neg hn]
            rw [ih k2 st rest
              (by simp only [List.length_cons] at h1; omega)
              (by simp only [List.length_cons] at h2; omega)]
        | none =>
          dsimp only
          rw [ih k2 st rest
            (by simp only [List.length_cons] at h1; omega)
            (by simp only [List.length_cons] at h2; omega)]

theorem runSub_nil (f : List Char → Option (Nat × List Char)) (st : PState) :
    runSub f st [] = (st, []) := rfl

theorem runSub_cons_none {f : List Char → Option (Nat × List Char)}
    {c : Char} {rest : List Char} (st : PState) (h : f (c :: rest) = none) :
    runSub f st (c :: rest) =
      ((runSub f st rest).1, c :: (runSub f st rest).2) := by
  show runSubF f (c :: rest).length st (c :: rest) = _
  rw [List.length_cons, runSubF, h]
  rfl

theorem runSub_cons_some {f : List Char → Option (Nat × List Char)}
    {c : Char} {rest : List Char} {n : Nat} {v : List Char} (st : PState)
    (h : f (c :: rest) = some (n, v)) (hn : 1 ≤ n) :
    runSub f st (c :: rest) =
      ((runSub f (protectVal st v).1 ((c :: rest).drop n)).1,
       (protectVal st v).2 ++
         (runSub f (protectVal st v).1 ((c :: rest).drop n)).2) := by
  show runSubF f (c :: rest).length st (c :: rest) = _
  rw [List.length_cons, runSubF, h]
  dsimp only
  rw [if_pos hn]
  rw [runSubF_irrel f rest.length ((c :: rest).drop n).length (protectVal st v).1
    ((c :: rest).drop n)
    (by simp only [List.length_drop, List.length_cons]; omega) (le_refl _)]
  rfl

theorem runSub_prefix_nomatch (f : List Char → Option (Nat × List Char)) :
    ∀ (p : List Char) (st : PState) (t : List Char),
      (∀ j, j < p.length → f (p.drop j ++ t) = none) →
      runSub f st (p ++ t) = ((runSub f st t).1, p ++ (runSub f st t).2) := by
  intro p
  induction p with
  | nil =>
    intro st t _
    simp only [List.nil_append]
  | cons c p' ih =>
    intro st t h
    have h0 := h 0 (by simp)
    rw [List.drop_zero, List.cons_append] at h0
    rw [List.cons_append, runSub_cons_none st h0]
    rw [ih st t (fun j hj => by
      have := h (j + 1) (by simp only [List.length_cons]; omega)
      rwa [List.drop_succ_cons] at this)]
    rfl

/-! ## Match spans: length bounds and marker-freeness per matcher -/

theorem matchSpan_contain {f : List Char → Option (Nat × List Char)}
    (hspan : ∀ s n v, f s = some (n, v) → 1 ≤ n ∧ n ≤ s.length ∧ gem ∉ s.take n)
    {u tail : List Char} {n : Nat} {v : List Char}
    (htail : tail = [] ∨ tail.head? = some gem)
    (h : f (u ++ tail) = some (n, v)) : n ≤ u.length := by
  obtain ⟨_, h2, h3⟩ := hspan _ _ _ h
  rcases htail with ht | ht
  · subst ht
    simpa using h2
  · by_contra hlen
    push_neg at hlen
    apply h3
    apply mem_of_some_getElem
      (show ((u ++ tail).take n)[u.length]? = some gem from ?_)
    rw [List.getElem?_take_of_lt hlen,
        List.getElem?_append_right (le_refl _), Nat.sub_self,
        ← List.head?_eq_getElem?, ht]

theorem dictMatch_some_prefix {ks : List (List Char)}
    {cd : List (List Char × List Char)} {s : List Char} {n : Nat} {v : List Char}
    (h : dictMatch ks cd s = some (n, v)) :
    ∃ k ∈ ks, k <+: s ∧ n = k.length ∧ v = dictLookup cd k := by
  induction ks with
  | nil => simp [dictMatch] at h
  | cons k ks ih =>
    rw [dictMatch] at h
    by_cases hp : k.isPrefixOf s
    · rw [if_pos hp] at h
      rw [Option.some.injEq, Prod.mk.injEq] at h
      exact ⟨k, List.mem_cons_self k ks, List.isPrefixOf_iff_prefix.mp hp,
        h.1.symm, h.2.symm⟩
    · rw [if_neg hp] at h
      obtain ⟨k', hk', hrest⟩ := ih h
      exact ⟨k', List.mem_cons_of_mem k hk', hrest⟩

theorem dictMatch_span {ks : List (List Char)}
    {cd : List (List Char × List Char)} (hks : ∀ k ∈ ks, goodKey k) :
    ∀ s n v, dictMatch ks cd s = some (n, v) →
      1 ≤ n ∧ n ≤ s.length ∧ gem ∉ s.take n := by
  intro s n v h
  obtain ⟨k, hk, hpre, hn, _⟩ := dictMatch_some_prefix h
  obtain ⟨hg, hd, _⟩ := hks k hk
  have hne : k ≠ [] := by
    intro he
    subst he
    simp at hd
  subst hn
  refine ⟨List.length_pos.mpr hne, hpre.length_le, ?_⟩
  rw [← List.prefix_iff_eq_take.mp hpre]
  exact hg

theorem dictMatch_none_of_no_prefix {ks : List (List Char)}
    {cd : List (List Char × List Char)} {s : List Char}
    (h : ∀ k ∈ ks, ¬ k <+: s) : dictMatch ks cd s = none := by
  induction ks with
  | nil => rfl
  | cons k ks ih =>
    rw [dictMatch, if_neg (by
      rw [List.isPrefixOf_iff_prefix]
      exact h k (List.mem_cons_self k ks))]
    exact ih (fun k' hk' => h k' (List.mem_cons_of_mem k hk'))

theorem dictMatch_region_none {ks : List (List Char)}
    {cd : List (List Char × List Char)} (hks : ∀ k ∈ ks, goodKey k)
    {i j : Nat} (tail : List Char) (hj : j < (insRegion i).length) :
    dictMatch ks cd ((insRegion i).drop j ++ tail) = none := by
  apply dictMatch_none_of_no_prefix
  intro k hk hpre
  exact goodKey_no_prefix_region (hks k hk) tail hj hpre

theorem numMatch_some_shape {kanji unit : Char} {s : List Char} {n : Nat}
    {v : List Char} (h : numMatch kanji unit s = some (n, v)) :
    let d := s.takeWhile isDigitCh
    d.length ≠ 0 ∧ s[d.length]? = some kanji ∧ n = d.length + 1 ∧
      v = d ++ [unit] := by
  intro d
  rw [numMatch] at h
  by_cases hd : (s.takeWhile isDigitCh).length = 0
  · rw [if_pos hd] at h
    cases h
  · rw [if_neg hd] at h
    cases hg : s.get? (s.takeWhile isDigitCh).length with
    | none =>
      rw [hg] at h
      cases h
    | some c =>
      rw [hg] at h
      dsimp only at h
      by_cases hc : c = kanji
      · rw [if_pos hc] at h
        rw [Option.some.injEq, Prod.mk.injEq] at h
        subst hc
        rw [List.get?_eq_getElem?] at hg
        exact ⟨hd, hg, h.1.symm, h.2.symm⟩
      · rw [if_neg hc] at h
        cases h

theorem numMatch_span {kanji unit : Char} (hkg : kanji ≠ gem) :
    ∀ s n v, numMatch kanji unit s = some (n, v) →
      1 ≤ n ∧ n ≤ s.length ∧ gem ∉ s.take n := by
  intro s n v h
  obtain ⟨hd, hg, hn, _⟩ := numMatch_some_shape h
  have hlt : (s.takeWhile isDigitCh).length < s.length := by
    by_contra hc
    rw [List.getElem?_eq_none (by omega)] at hg
    cases hg
  subst hn
  refine ⟨by omega, by omega, ?_⟩
  rw [List.take_succ,
      (List.prefix_iff_eq_take.mp (List.takeWhile_prefix isDigitCh)).symm, hg]
  intro hmem
  rcases List.mem_append.mp hmem with hmem | hmem
  · exact digit_ne_gem (List.mem_takeWhile_imp hmem) rfl
  · simp only [Option.toList_some, List.mem_singleton] at hmem
    exact hkg hmem.symm

theorem numMatch_region_none {kanji unit : Char} (hkd : isDigitCh kanji = false)
    (hkg : kanji ≠ gem) {i j : Nat} (tail : List Char)
    (hj : j < (insRegion i).length) :
    numMatch kanji unit ((insRegion i).drop j ++ tail) = none := by
  cases hm : numMatch kanji unit ((insRegion i).drop j ++ tail) with
  | none => rfl
  | some nv =>
    exfalso
    obtain ⟨n, v⟩ := nv
    obtain ⟨hd, hg, hn, _⟩ := numMatch_some_shape hm
    set s := (insRegion i).drop j ++ tail with hs
    set d := s.takeWhile isDigitCh with hdd
    have hpre : (d ++ [kanji]) <+: s := by
      have : s.take (d.length + 1) = d ++ [kanji] := by
        rw [List.take_succ,
            (List.prefix_iff_eq_take.mp (List.takeWhile_prefix isDigitCh)).symm,
            hg]
        rfl
      exact this ▸ List.take_prefix _ _
    have hgood : goodKey (d ++ [kanji]) := by
      refine ⟨?_, ?_, ?_⟩
      · intro hmem
        rcases List.mem_append.mp hmem with hmem | hmem
        · exact digit_ne_gem (List.mem_takeWhile_imp hmem) rfl
        · rw [List.mem_singleton] at hmem
          exact hkg hmem.symm
      · rw [List.all_append]
        simp [hkd]
      · intro hin
        obtain ⟨c0, d', hd0⟩ := List.exists_cons_of_ne_nil
          (show d ≠ [] by intro he; rw [he] at hd; simp at hd)
        have hc0d : isDigitCh c0 = true := by
          apply List.mem_takeWhile_imp
          rw [← hdd, hd0]
          exact List.mem_cons_self c0 d'
        have hc0 : c0 ∈ (['S', 'P', 'L', 'I', 'T'] : List Char) := by
          apply hin.subset
          rw [hd0]
          simp
        rcases (by simpa using hc0 : c0 = 'S' ∨ c0 = 'P' ∨ c0 = 'L' ∨
            c0 = 'I' ∨ c0 = 'T') with rfl | rfl | rfl | rfl | rfl <;>
          exact absurd hc0d (by decide)
    exact goodKey_no_prefix_region hgood tail hj hpre

theorem recruitExtF_le : ∀ (fuel : Nat) (s : List Char),
    recruitExtF fuel s ≤ s.length := by
  intro fuel
  induction fuel with
  | zero => intro s; simp [recruitExtF]
  | succ k ih =>
    intro s
    simp only [recruitExtF]
    by_cases hsp : (s.takeWhile isPySpace).length = 0
    · rw [if_pos hsp]
      omega
    · rw [if_neg hsp]
      by_cases hw : ((s.drop (s.takeWhile isPySpace).length).takeWhile
          isRecruitWord).length = 0
      · rw [if_pos hw]
        omega
      · rw [if_neg hw]
        have h1 : (s.takeWhile isPySpace).length ≤ s.length :=
          (List.takeWhile_sublist _).length_le
        have h2 : ((s.drop (s.takeWhile isPySpace).length).takeWhile
            isRecruitWord).length ≤ s.length - (s.takeWhile isPySpace).length := by
          have h4 : ((s.drop (s.takeWhile isPySpace).length).takeWhile
              isRecruitWord).length ≤ (s.drop (s.takeWhile isPySpace).length).length :=
            (List.takeWhile_sublist _).length_le
          rwa [List.length_drop] at h4
        have h3 := ih (s.drop ((s.takeWhile isPySpace).length +
          ((s.drop (s.takeWhile isPySpace).length).takeWhile
            isRecruitWord).length))
        rw [List.length_drop] at h3
        omega

theorem recruitExtF_chars : ∀ (fuel : Nat) (s : List Char) (c : Char),
    c ∈ s.take (recruitExtF fuel s) →
    isPySpace c = true ∨ isRecruitWord c = true := by
  intro fuel
  induction fuel with
  | zero => intro s c hc; simp [recruitExtF] at hc
  | succ k ih =>
    intro s c hc
    simp only [recruitExtF] at hc
    by_cases hsp : (s.takeWhile isPySpace).length = 0
    · rw [if_pos hsp] at hc
      simp at hc
    · rw [if_neg hsp] at hc
      by_cases hw : ((s.drop (s.takeWhile isPySpace).length).takeWhile
          isRecruitWord).length = 0
      · rw [if_pos hw] at hc
        simp at hc
      · rw [if_neg hw] at hc
        rw [Nat.add_assoc, List.take_add] at hc
        rcases List.mem_append.mp hc with hc | hc
        · left
          rw [(List.prefix_iff_eq_take.mp
            (List.takeWhile_prefix isPySpace)).symm] at hc
          exact List.mem_takeWhile_imp hc
        · rw [List.take_add] at hc
          rcases List.mem_append.mp hc with hc | hc
          · right
            rw [(List.prefix_iff_eq_take.mp
              (List.takeWhile_prefix isRecruitWord)).symm] at hc
            exact List.mem_takeWhile_imp hc
          · rw [List.drop_drop, Nat.add_comm] at hc
            exact ih _ c hc

theorem recruitMatch_cons_ne {c : Char} (x : List Char) (h : c ≠ '@') :
    recruitMatch (c :: x) = none := by
  unfold recruitMatch
  split
  · rename_i rest heq
    rw [List.cons.injEq] at heq
    exact absurd heq.1 h
  · rfl

theorem recruitMatch_at (rest : List Char) :
    recruitMatch ('@' :: rest) =
      (if (rest.takeWhile isRecruitWord).length = 0 then none
       else some
         (1 + (rest.takeWhile isRecruitWord).length +
            recruitExt (rest.drop (rest.takeWhile isRecruitWord).length),
          ('@' :: rest).take
            (1 + (rest.takeWhile isRecruitWord).length +
              recruitExt (rest.drop (rest.takeWhile isRecruitWord).length)))) := by
  simp only [recruitMatch]

theorem recruitMatch_some_shape {s : List Char} {n : Nat} {v : List Char}
    (h : recruitMatch s = some (n, v)) :
    ∃ rest, s = '@' :: rest ∧
      (rest.takeWhile isRecruitWord).length ≠ 0 ∧
      n = 1 + (rest.takeWhile isRecruitWord).length +
        recruitExt (rest.drop (rest.takeWhile isRecruitWord).length) ∧
      v = s.take n := by
  cases s with
  | nil => simp [recruitMatch] at h
  | cons c rest =>
    by_cases hc : c = '@'
    · subst hc
      rw [recruitMatch_at] at h
      by_cases hw : (rest.takeWhile isRecruitWord).length = 0
      · rw [if_pos hw] at h
        cases h
      · rw [if_neg hw] at h
        rw [Option.some.injEq, Prod.mk.injEq] at h
        refine ⟨rest, rfl, hw, h.1.symm, ?_⟩
        have h2 := h.2
        rw [h.1] at h2
        exact h2.symm
    · rw [recruitMatch_cons_ne rest hc] at h
      cases h

theorem recruitMatch_span : ∀ (s : List Char) (n : Nat) (v : List Char),
    recruitMatch s = some (n, v) →
    1 ≤ n ∧ n ≤ s.length ∧ gem ∉ s.take n := by
  intro s n v h
  obtain ⟨rest, hs, hw, hn, _⟩ := recruitMatch_some_shape h
  subst hs
  have hwle : (rest.takeWhile isRecruitWord).length ≤ rest.length :=
    (List.takeWhile_sublist _).length_le
  have hext : recruitExt (rest.drop (rest.takeWhile isRecruitWord).length) ≤
      rest.length - (rest.takeWhile isRecruitWord).length :=
    le_trans (recruitExtF_le _ _) (Nat.le_of_eq (List.length_drop _ _))
  refine ⟨by omega, by simp only [List.length_cons]; omega, ?_⟩
  intro hmem
  rw [show n = ((rest.takeWhile isRecruitWord).length +
      recruitExt (rest.drop (rest.takeWhile isRecruitWord).length)) + 1
    by omega] at hmem
  rw [List.take_succ_cons] at hmem
  rcases List.mem_cons.mp hmem with hmem | hmem
  · exact absurd hmem.symm (by decide)
  · rw [List.take_add] at hmem
    rcases List.mem_append.mp hmem with hmem | hmem
    · rw [(List.prefix_iff_eq_take.mp
        (List.takeWhile_prefix isRecruitWord)).symm] at hmem
      have := List.mem_takeWhile_imp hmem
      exact absurd this (by decide)
    · rcases recruitExtF_chars _ _ _ hmem with hcl | hcl <;>
        exact absurd hcl (by decide)

theorem region_chars {c : Char} {i : Nat} (h : c ∈ insRegion i) :
    c = gem ∨ c ∈ (['S', 'P', 'L', 'I', 'T'] : List Char) ∨
      isDigitCh c = true := by
  have hsub : insRegion i ⊆ gem :: 'S' :: 'P' :: 'L' :: 'I' :: 'T' :: natDigits i := by
    intro x hx
    simp only [insRegion, splitMarker, placeholderOf, List.mem_append,
      List.mem_cons, List.not_mem_nil, or_false] at hx ⊢
    tauto
  have h2 := hsub h
  simp only [List.mem_cons] at h2
  rcases h2 with h2 | h2 | h2 | h2 | h2 | h2 | h2
  · exact Or.inl h2
  · exact Or.inr (Or.inl (by simp [h2]))
  · exact Or.inr (Or.inl (by simp [h2]))
  · exact Or.inr (Or.inl (by simp [h2]))
  · exact Or.inr (Or.inl (by simp [h2]))
  · exact Or.inr (Or.inl (by simp [h2]))
  · exact Or.inr (Or.inr (natDigits_digits i c h2))

theorem recruitMatch_region_none {i j : Nat} (tail : List Char)
    (hj : j < (insRegion i).length) :
    recruitMatch ((insRegion i).drop j ++ tail) = none := by
  have hne : (insRegion i).drop j ≠ [] := by
    intro he
    have hlen := List.length_drop j (insRegion i)
    rw [he] at hlen
    simp at hlen
    omega
  obtain ⟨c, D', hD⟩ := List.exists_cons_of_ne_nil hne
  have hc : c ∈ insRegion i :=
    List.drop_subset j _ (hD ▸ List.mem_cons_self c D')
  have hcne : c ≠ '@' := by
    rcases region_chars hc with h | h | h
    · subst h; decide
    · rcases (by simpa using h : c = 'S' ∨ c = 'P' ∨ c = 'L' ∨ c = 'I' ∨
          c = 'T') with rfl | rfl | rfl | rfl | rfl <;> decide
    · intro he
      rw [he] at h
      exact absurd h (by decide)
  rw [hD, List.cons_append]
  exact recruitMatch_cons_ne _ hcne

/-! ## The protector-state invariant -/

theorem flattenSegs_nil : flattenSegs [] = [] := rfl

theorem flattenSegs_raw (t : List Char) (rest : List ProtSeg) :
    flattenSegs (ProtSeg.raw t :: rest) = t ++ flattenSegs rest := rfl

theorem flattenSegs_ins (i : Nat) (v : List Char) (rest : List ProtSeg) :
    flattenSegs (ProtSeg.ins i v :: rest) = insRegion i ++ flattenSegs rest := rfl

theorem protectVal_pmap (st : PState) (v : List Char) :
    (protectVal st v).1.pmap = (placeholderOf st.count, v) :: st.pmap := rfl

theorem protectVal_count (st : PState) (v : List Char) :
    (protectVal st v).1.count = st.count + 1 := rfl

theorem protectVal_snd (st : PState) (v : List Char) :
    (protectVal st v).2 = insRegion st.count := rfl

theorem PSOk_init : PSOk ⟨[], 0⟩ := ⟨[], rfl, rfl⟩

theorem PSOk_protect {st : PState} (h : PSOk st) (v : List Char) :
    PSOk (protectVal st v).1 := by
  obtain ⟨vals, hc, hp⟩ := h
  refine ⟨vals ++ [v], by simp [protectVal, hc], ?_⟩
  rw [protectVal_pmap, hp, List.enum_append, List.map_append, List.reverse_append]
  simp [hc]

theorem PSOk_keys {st : PState} (h : PSOk st) {e : List Char × List Char}
    (he : e ∈ st.pmap) : ∃ i, i < st.count ∧ e.1 = placeholderOf i := by
  obtain ⟨vals, hc, hp⟩ := h
  rw [hp, List.mem_reverse, List.mem_map] at he
  obtain ⟨iv, hiv, hev⟩ := he
  have hlt : iv.1 < vals.length := by
    have h2 : iv.1 ∈ vals.enum.map Prod.fst := List.mem_map_of_mem _ hiv
    rw [List.enum_map_fst, List.mem_range] at h2
    exact h2
  exact ⟨iv.1, by omega, by rw [← hev]⟩

theorem PSOk_nodup_keys {st : PState} (h : PSOk st) :
    (st.pmap.map (fun e => e.1)).Nodup := by
  obtain ⟨vals, _, hp⟩ := h
  rw [hp, List.map_reverse, List.nodup_reverse, List.map_map]
  have heq : (fun e => Prod.fst e) ∘
      (fun iv : Nat × List Char => (placeholderOf iv.1, iv.2)) =
      (fun iv : Nat × List Char => placeholderOf iv.1) := rfl
  rw [heq]
  have h2 : (fun iv : Nat × List Char => placeholderOf iv.1) =
      placeholderOf ∘ Prod.fst := rfl
  rw [h2, ← List.map_map, List.enum_map_fst]
  exact (List.nodup_range vals.length).map (fun a b hab => placeholderOf_inj hab)

theorem lookupPh_mem {pmap : List (List Char × List Char)} {c v : List Char}
    (h : lookupPh pmap c = some v) : (c, v) ∈ pmap := by
  induction pmap with
  | nil => cases h
  | cons e rest ih =>
    rw [lookupPh] at h
    by_cases he : e.1 = c
    · rw [if_pos he, Option.some.injEq] at h
      have : (c, v) = e := by
        rw [← he, ← h]
      rw [this]
      exact List.mem_cons_self e rest
    · rw [if_neg he] at h
      exact List.mem_cons_of_mem e (ih h)

theorem lookupPh_of_mem_nodup {pmap : List (List Char × List Char)}
    (hnd : (pmap.map (fun e => e.1)).Nodup) {c v : List Char}
    (hm : (c, v) ∈ pmap) : lookupPh pmap c = some v := by
  induction pmap with
  | nil => cases hm
  | cons e rest ih =>
    rw [List.map_cons, List.nodup_cons] at hnd
    rw [lookupPh]
    rcases List.mem_cons.mp hm with hm | hm
    · rw [← hm]
      simp
    · by_cases he : e.1 = c
      · exfalso
        apply hnd.1
        rw [he]
        exact List.mem_map_of_mem _ hm
      · rw [if_neg he]
        exact ih hnd.2 hm

theorem lookupPh_protect (st : PState) (v : List Char) (i : Nat) :
    lookupPh (protectVal st v).1.pmap (placeholderOf i) =
      if i = st.count then some v
      else lookupPh st.pmap (placeholderOf i) := by
  rw [protectVal_pmap, lookupPh]
  by_cases hi : i = st.count
  · subst hi
    rw [if_pos rfl, if_pos rfl]
  · rw [if_neg (fun he => hi (placeholderOf_inj he).symm), if_neg hi]

theorem SegInsOk_protect {st : PState} (v : List Char) {sg : ProtSeg}
    (hs : SegInsOk st sg) : SegInsOk (protectVal st v).1 sg := by
  cases sg with
  | raw t => trivial
  | ins i w =>
    obtain ⟨hi, hl⟩ := hs
    refine ⟨by rw [protectVal_count]; omega, ?_⟩
    rw [lookupPh_protect, if_neg (by omega)]
    exact hl

theorem segInsOk_of_mem {st : PState} (h : PSOk st) {i : Nat} {v : List Char}
    (hm : (placeholderOf i, v) ∈ st.pmap) :
    SegInsOk st (ProtSeg.ins i v) := by
  refine ⟨?_, lookupPh_of_mem_nodup (PSOk_nodup_keys h) hm⟩
  obtain ⟨i', hi', he⟩ := PSOk_keys h hm
  rwa [show i' = i from placeholderOf_inj he.symm] at hi'

theorem insRegion_ne_nil (i : Nat) : insRegion i ≠ [] := by
  simp [insRegion, splitMarker]

theorem insRegion_length_pos (i : Nat) : 0 < (insRegion i).length :=
  List.length_pos.mpr (insRegion_ne_nil i)

theorem insRegion_append_head (i : Nat) (X : List Char) :
    (insRegion i ++ X).head? = some gem := rfl

/-! ## The structure theorem: one substitution phase preserves and creates
insertion regions and never rewrites inside an existing one -/

theorem runSub_structure (f : List Char → Option (Nat × List Char))
    (hspan : ∀ s n v, f s = some (n, v) → 1 ≤ n ∧ n ≤ s.length ∧ gem ∉ s.take n)
    (hins : ∀ (i j : Nat) (tail : List Char), j < (insRegion i).length →
      f ((insRegion i).drop j ++ tail) = none) :
    ∀ (N : Nat) (segs : List ProtSeg) (st : PState),
      (flattenSegs segs).length + segs.length ≤ N →
      PSOk st → SegsOk segs → (∀ sg ∈ segs, SegInsOk st sg) →
      ∃ (st' : PState) (segs' : List ProtSeg),
        runSub f st (flattenSegs segs) = (st', flattenSegs segs') ∧
        PSOk st' ∧ SegsOk segs' ∧ (∀ sg ∈ segs', SegInsOk st' sg) ∧
        (∀ i v, ProtSeg.ins i v ∈ segs → ProtSeg.ins i v ∈ segs') ∧
        (∀ e ∈ st'.pmap, e ∈ st.pmap ∨
          ∃ i, e.1 = placeholderOf i ∧ ProtSeg.ins i e.2 ∈ segs') ∧
        (∀ e ∈ st.pmap, e ∈ st'.pmap) := by
  intro N
  induction N with
  | zero =>
    intro segs st hN hst hsegs hinsok
    have hsegs0 : segs = [] := by
      cases segs with
      | nil => rfl
      | cons a b =>
        rw [List.length_cons] at hN
        omega
    subst hsegs0
    exact ⟨st, [], by rw [flattenSegs_nil, runSub_nil], hst, hsegs, hinsok,
      fun i v hm => hm, fun e he => Or.inl he, fun e he => he⟩
  | succ N ih =>
    intro segs st hN hst hsegs hinsok
    have scan : ∀ (M : Nat) (t : List Char) (rest : List ProtSeg) (st0 : PState),
        t.length ≤ M →
        (rest = [] ∨ ∃ i2 v2 rest2, rest = ProtSeg.ins i2 v2 :: rest2) →
        t.length + (flattenSegs rest).length + (rest.length + 1) ≤ N + 1 →
        PSOk st0 → gem ∉ t → SegsOk rest → (∀ sg ∈ rest, SegInsOk st0 sg) →
        ∃ (st' : PState) (segs' : List ProtSeg),
          runSub f st0 (t ++ flattenSegs rest) = (st', flattenSegs segs') ∧
          PSOk st' ∧ SegsOk segs' ∧ (∀ sg ∈ segs', SegInsOk st' sg) ∧
          (∀ i v, ProtSeg.ins i v ∈ rest → ProtSeg.ins i v ∈ segs') ∧
          (∀ e ∈ st'.pmap, e ∈ st0.pmap ∨
            ∃ i, e.1 = placeholderOf i ∧ ProtSeg.ins i e.2 ∈ segs') ∧
          (∀ e ∈ st0.pmap, e ∈ st'.pmap) := by
      intro M
      induction M with
      | zero =>
        intro t rest st0 htM hshape hNle hst0 hgt hsr hir
        have ht0 : t = [] := List.eq_nil_of_length_eq_zero (by omega)
        subst ht0
        rw [List.nil_append]
        exact ih rest st0 (by simp only [List.length_nil] at hNle; omega)
          hst0 hsr hir
      | succ M ihM =>
        intro t rest st0 htM hshape hNle hst0 hgt hsr hir
        cases t with
        | nil =>
          rw [List.nil_append]
          exact ih rest st0 (by simp only [List.length_nil] at hNle; omega)
            hst0 hsr hir
        | cons c t' =>
          have htail : flattenSegs rest = [] ∨
              (flattenSegs rest).head? = some gem := by
            rcases hshape with h | ⟨i2, v2, rest2, h⟩
            · subst h
              exact Or.inl rfl
            · subst h
              right
              rw [flattenSegs_ins]
              exact insRegion_append_head i2 _
          rw [List.cons_append]
          cases hm : f (c :: (t' ++ flattenSegs rest)) with
          | none =>
            rw [runSub_cons_none st0 hm]
            obtain ⟨st', segs', heq, hst', hsegs', hinsok', hold, hnew, hmono⟩ :=
              ihM t' rest st0
                (by simp only [List.length_cons] at htM; omega)
                hshape
                (by simp only [List.length_cons] at hNle; omega)
                hst0 (fun hc => hgt (List.mem_cons_of_mem c hc)) hsr hir
            refine ⟨st', ProtSeg.raw [c] :: segs', ?_, hst', ?_, ?_, ?_, ?_, ?_⟩
            · rw [heq, flattenSegs_raw]
              rfl
            · intro sg hsg
              rcases List.mem_cons.mp hsg with h | h
              · subst h
                intro hc
                rw [List.mem_singleton] at hc
                exact hgt (hc ▸ List.mem_cons_self c t')
              · exact hsegs' sg h
            · intro sg hsg
              rcases List.mem_cons.mp hsg with h | h
              · subst h
                trivial
              · exact hinsok' sg h
            · intro i v hm2
              exact List.mem_cons_of_mem _ (hold i v hm2)
            · intro e he
              rcases hnew e he with h | ⟨i, h1, h2⟩
              · exact Or.inl h
              · exact Or.inr ⟨i, h1, List.mem_cons_of_mem _ h2⟩
            · exact hmono
          | some nv =>
            obtain ⟨n, v⟩ := nv
            obtain ⟨hn1, _, _⟩ := hspan _ _ _ hm
            have hnle : n ≤ (c :: t').length :=
              matchSpan_contain hspan htail
                (by rw [List.cons_append]; exact hm)
            rw [runSub_cons_some st0 hm hn1]
            have hdrop : (c :: (t' ++ flattenSegs rest)).drop n =
                ((c :: t').drop n) ++ flattenSegs rest := by
              rw [← List.cons_append, List.drop_append_eq_append_drop,
                  Nat.sub_eq_zero_of_le hnle, List.drop_zero]
            obtain ⟨st', segs', heq, hst', hsegs', hinsok', hold, hnew, hmono⟩ :=
              ihM ((c :: t').drop n) rest (protectVal st0 v).1
                (by rw [List.length_drop]
                    simp only [List.length_cons] at htM ⊢
                    omega)
                hshape
                (by rw [List.length_drop]
                    simp only [List.length_cons] at hNle ⊢
                    omega)
                (PSOk_protect hst0 v)
                (fun hc => hgt (List.drop_subset _ _ hc))
                hsr
                (fun sg hsg => SegInsOk_protect v (hir sg hsg))
            rw [hdrop, heq]
            refine ⟨st', ProtSeg.ins st0.count v :: segs', ?_, hst', ?_, ?_, ?_,
              ?_, ?_⟩
            · rw [flattenSegs_ins, protectVal_snd]
            · intro sg hsg
              rcases List.mem_cons.mp hsg with h | h
              · subst h
                trivial
              · exact hsegs' sg h
            · intro sg hsg
              rcases List.mem_cons.mp hsg with h | h
              · subst h
                apply segInsOk_of_mem hst'
                apply hmono
                rw [protectVal_pmap]
                exact List.mem_cons_self _ _
              · exact hinsok' sg h
            · intro i v2 hm2
              exact List.mem_cons_of_mem _ (hold i v2 hm2)
            · intro e he
              rcases hnew e he with h | ⟨i, h1, h2⟩
              · rw [protectVal_pmap] at h
                rcases List.mem_cons.mp h with h | h
                · subst h
                  exact Or.inr ⟨st0.count, rfl, List.mem_cons_self _ _⟩
                · exact Or.inl h
              · exact Or.inr ⟨i, h1, List.mem_cons_of_mem _ h2⟩
            · intro e he
              apply hmono
              rw [protectVal_pmap]
              exact List.mem_cons_of_mem _ he
    cases segs with
    | nil =>
      exact ⟨st, [], by rw [flattenSegs_nil, runSub_nil], hst, hsegs, hinsok,
        fun i v hm => hm, fun e he => Or.inl he, fun e he => he⟩
    | cons sg rest =>
      cases sg with
      | ins i v =>
        have hpre : ∀ j, j < (insRegion i).length →
            f ((insRegion i).drop j ++ flattenSegs rest) = none :=
          fun j hj => hins i j _ hj
        rw [flattenSegs_ins, runSub_prefix_nomatch f _ st _ hpre]
        obtain ⟨st', segs', heq, hst', hsegs', hinsok', hold, hnew, hmono⟩ :=
          ih rest st
            (by have hpos := insRegion_length_pos i
                rw [flattenSegs_ins, List.length_append, List.length_cons] at hN
                omega)
            hst (fun sg2 h2 => hsegs sg2 (List.mem_cons_of_mem _ h2))
            (fun sg2 h2 => hinsok sg2 (List.mem_cons_of_mem _ h2))
        rw [heq]
        refine ⟨st', ProtSeg.ins i v :: segs', by rw [flattenSegs_ins], hst',
          ?_, ?_, ?_, ?_, ?_⟩
        · intro sg2 hsg2
          rcases List.mem_cons.mp hsg2 with h | h
          · subst h
            trivial
          · exact hsegs' sg2 h
        · intro sg2 hsg2
          rcases List.mem_cons.mp hsg2 with h | h
          · subst h
            obtain ⟨hi, hl⟩ := hinsok (ProtSeg.ins i v) (List.mem_cons_self _ _)
            exact segInsOk_of_mem hst' (hmono _ (lookupPh_mem hl))
          · exact hinsok' sg2 h
        · intro i2 v2 hm2
          rcases List.mem_cons.mp hm2 with h | h
          · rw [h]
            exact List.mem_cons_self _ _
          · exact List.mem_cons_of_mem _ (hold i2 v2 h)
        · intro e he
          rcases hnew e he with h | ⟨i2, h1, h2⟩
          · exact Or.inl h
          · exact Or.inr ⟨i2, h1, List.mem_cons_of_mem _ h2⟩
        · exact hmono
      | raw t =>
        have hgt : gem ∉ t := hsegs (ProtSeg.raw t) (List.mem_cons_self _ _)
        cases rest with
        | nil =>
          rw [flattenSegs_raw]
          obtain ⟨st', segs', heq, hst', hsegs', hinsok', hold, hnew, hmono⟩ :=
            scan t.length t [] st (le_refl _) (Or.inl rfl)
              (by rw [flattenSegs_raw, flattenSegs_nil, List.append_nil,
                    List.length_cons] at hN
                  simp only [flattenSegs_nil, List.length_nil]
                  omega)
              hst hgt (fun sg2 h2 => absurd h2 (List.not_mem_nil sg2))
              (fun sg2 h2 => absurd h2 (List.not_mem_nil sg2))
          refine ⟨st', segs', heq, hst', hsegs', hinsok', ?_, hnew, hmono⟩
          intro i2 v2 hm2
          rcases List.mem_cons.mp hm2 with h | h
          · cases h
          · exact absurd h (List.not_mem_nil _)
        | cons sg2 rest2 =>
          cases sg2 with
          | raw t2 =>
            have hgt2 : gem ∉ t2 :=
              hsegs (ProtSeg.raw t2)
                (List.mem_cons_of_mem _ (List.mem_cons_self _ _))
            obtain ⟨st', segs', heq, hst', hsegs', hinsok', hold, hnew, hmono⟩ :=
              ih (ProtSeg.raw (t ++ t2) :: rest2) st
                (by rw [flattenSegs_raw, flattenSegs_raw] at hN
                    rw [flattenSegs_raw]
                    simp only [List.length_append, List.length_cons] at hN ⊢
                    omega)
                hst
                (by intro sg3 hsg3
                    rcases List.mem_cons.mp hsg3 with h | h
                    · subst h
                      intro hc
                      rcases List.mem_append.mp hc with hc | hc
                      · exact hgt hc
                      · exact hgt2 hc
                    · exact hsegs sg3 (List.mem_cons_of_mem _
                        (List.mem_cons_of_mem _ h)))
                (fun sg3 h3 => by
                  rcases List.mem_cons.mp h3 with h | h
                  · subst h
                    trivial
                  · exact hinsok sg3 (List.mem_cons_of_mem _
                      (List.mem_cons_of_mem _ h)))
            rw [show flattenSegs (ProtSeg.raw t :: ProtSeg.raw t2 :: rest2) =
                flattenSegs (ProtSeg.raw (t ++ t2) :: rest2) by
              rw [flattenSegs_raw, flattenSegs_raw, flattenSegs_raw,
                List.append_assoc]]
            refine ⟨st', segs', heq, hst', hsegs', hinsok', ?_, hnew, hmono⟩
            intro i2 v2 hm2
            rcases List.mem_cons.mp hm2 with h | h
            · cases h
            · rcases List.mem_cons.mp h with h | h
              · cases h
              · exact hold i2 v2 (List.mem_cons_of_mem _ h)
          | ins i2 v2 =>
            rw [flattenSegs_raw]
            obtain ⟨st', segs', heq, hst', hsegs', hinsok', hold, hnew, hmono⟩ :=
              scan t.length t (ProtSeg.ins i2 v2 :: rest2) st (le_refl _)
                (Or.inr ⟨i2, v2, rest2, rfl⟩)
                (by rw [flattenSegs_raw, List.length_append,
                      List.length_cons] at hN
                    omega)
                hst hgt
                (fun sg3 h3 => hsegs sg3 (List.mem_cons_of_mem _ h3))
                (fun sg3 h3 => hinsok sg3 (List.mem_cons_of_mem _ h3))
            refine ⟨st', segs', heq, hst', hsegs', hinsok', ?_, hnew, hmono⟩
            intro i3 v3 hm3
            rcases List.mem_cons.mp hm3 with h | h
            · cases h
            · exact hold i3 v3 h

/-! ## The split on `split_marker` of a flattened segment list -/

theorem splitGoF_irrel (d : Char) (ds : List Char) :
    ∀ (f1 f2 : Nat) (s : List Char), s.length ≤ f1 → s.length ≤ f2 →
      splitGoF d ds f1 s = splitGoF d ds f2 s := by
  intro f1
  induction f1 with
  | zero =>
    intro f2 s h1 _
    have hs : s = [] := List.eq_nil_of_length_eq_zero (by omega)
    subst hs
    cases f2 with
    | zero => rfl
    | succ k => rfl
  | succ k1 ih =>
    intro f2 s h1 h2
    cases s with
    | nil =>
      cases f2 with
      | zero => rfl
      | succ k2 => rfl
    | cons c rest =>
      cases f2 with
      | zero => simp at h2
      | succ k2 =>
        rw [splitGoF, splitGoF]
        by_cases hp : (d :: ds).isPrefixOf (c :: rest)
        · rw [if_pos hp, if_pos hp]
          rw [ih k2 ((c :: rest).drop (ds.length + 1))
            (by simp only [List.length_drop, List.length_cons]
                simp only [List.length_cons] at h1; omega)
            (by simp only [List.length_drop, List.length_cons]
                simp only [List.length_cons] at h2; omega)]
        · rw [if_neg hp, if_neg hp]
          rw [ih k2 rest
            (by simp only [List.length_cons] at h1; omega)
            (by simp only [List.length_cons] at h2; omega)]

theorem splitGo_nil (d : Char) (ds : List Char) : splitGo d ds [] = [[]] := rfl

theorem splitGo_cons_match {d c : Char} {ds rest : List Char}
    (h : (d :: ds).isPrefixOf (c :: rest)) :
    splitGo d ds (c :: rest) =
      [] :: splitGo d ds ((c :: rest).drop (ds.length + 1)) := by
  show splitGoF d ds (c :: rest).length (c :: rest) = _
  rw [List.length_cons, splitGoF, if_pos h]
  rw [splitGoF_irrel d ds rest.length ((c :: rest).drop (ds.length + 1)).length
    ((c :: rest).drop (ds.length + 1))
    (by simp only [List.length_drop, List.length_cons]; omega) (le_refl _)]
  rfl

theorem splitGo_cons_nomatch {d c : Char} {ds rest : List Char}
    (h : ¬ (d :: ds).isPrefixOf (c :: rest)) :
    splitGo d ds (c :: rest) =
      (match splitGo d ds rest with
        | [] => [[c]]
        | piece :: more => (c :: piece) :: more) := by
  show splitGoF d ds (c :: rest).length (c :: rest) = _
  rw [List.length_cons, splitGoF, if_neg h]
  rfl

theorem splitGoF_ne_nil (d : Char) (ds : List Char) :
    ∀ (fuel : Nat) (s : List Char), splitGoF d ds fuel s ≠ [] := by
  intro fuel
  induction fuel with
  | zero => intro s; simp [splitGoF]
  | succ k ih =>
    intro s
    cases s with
    | nil => simp [splitGoF]
    | cons c rest =>
      rw [splitGoF]
      by_cases hp : (d :: ds).isPrefixOf (c :: rest)
      · rw [if_pos hp]
        simp
      · rw [if_neg hp]
        cases hm : splitGoF d ds k rest with
        | nil => simp
        | cons piece more => simp

theorem splitGo_ne_nil (d : Char) (ds : List Char) (s : List Char) :
    splitGo d ds s ≠ [] := splitGoF_ne_nil d ds s.length s

theorem prefix_head {c : Char} {l₁ l₂ : List Char} (h : (c :: l₁) <+: l₂) :
    l₂.head? = some c := by
  obtain ⟨r, hr⟩ := h
  rw [← hr]
  rfl

theorem prefix_second {c c2 : Char} {l₁ l₂ : List Char}
    (h : (c :: c2 :: l₁) <+: l₂) : l₂[1]? = some c2 := by
  obtain ⟨r, hr⟩ := h
  rw [← hr]
  simp

theorem splitGo_append_nomatch (d : Char) (ds : List Char) :
    ∀ (a b : List Char),
      (∀ j, j < a.length → ¬ (d :: ds).isPrefixOf (a.drop j ++ b)) →
      splitGo d ds (a ++ b) =
        (a ++ (splitGo d ds b).headD []) :: (splitGo d ds b).tail := by
  intro a
  induction a with
  | nil =>
    intro b _
    rw [List.nil_append]
    cases hm : splitGo d ds b with
    | nil => exact absurd hm (splitGo_ne_nil d ds b)
    | cons p ps => simp
  | cons c a' ih =>
    intro b h
    have h0 := h 0 (by simp)
    rw [List.drop_zero, List.cons_append] at h0
    rw [List.cons_append, splitGo_cons_nomatch h0]
    rw [ih b (fun j hj => by
      have := h (j + 1) (by simp only [List.length_cons]; omega)
      rwa [List.drop_succ_cons] at this)]
    simp

theorem marker_shape :
    splitMarker = gem :: 'S' :: 'P' :: 'L' :: 'I' :: 'T' :: [gem] := rfl

theorem marker_nomatch_gemfree {a : List Char} (hg : gem ∉ a) (b : List Char)
    (j : Nat) (hj : j < a.length) :
    ¬ splitMarker.isPrefixOf (a.drop j ++ b) := by
  intro h
  rw [List.isPrefixOf_iff_prefix, marker_shape] at h
  have h1 := prefix_head h
  rw [List.head?_eq_getElem?,
      List.getElem?_append_left (by rw [List.length_drop]; omega),
      List.getElem?_drop] at h1
  exact hg (mem_of_some_getElem (by rw [Nat.add_zero] at h1; exact h1))

theorem marker_nomatch_in_ph (i : Nat) (X : List Char) (j : Nat)
    (hj : j < (placeholderOf i).length) :
    ¬ splitMarker.isPrefixOf
      ((placeholderOf i).drop j ++ (splitMarker ++ X)) := by
  intro h
  rw [List.isPrefixOf_iff_prefix, marker_shape] at h
  have h1 := prefix_head h
  have h2 := prefix_second h
  have hdlen : 0 < (natDigits i).length :=
    List.length_pos.mpr (natDigits_ne_nil i)
  have hph : placeholderOf i = gem :: (natDigits i ++ [gem]) := by
    simp [placeholderOf]
  cases j with
  | zero =>
    rw [List.drop_zero, hph, List.cons_append] at h2
    rw [show ((1 : Nat)) = 0 + 1 from rfl, List.getElem?_cons_succ,
        List.getElem?_append_left
          (by simp only [List.length_append, List.length_singleton]; omega),
        List.getElem?_append_left hdlen] at h2
    exact absurd (natDigits_digits i 'S' (mem_of_some_getElem h2)) (by decide)
  | succ j' =>
    rw [hph, List.drop_succ_cons] at h1 h2
    by_cases hj2 : j' < (natDigits i).length
    · have hlen1 : 0 < ((natDigits i ++ [gem]).drop j').length := by
        rw [List.length_drop]
        simp only [List.length_append, List.length_singleton]
        omega
      rw [List.head?_eq_getElem?, List.getElem?_append_left hlen1,
          List.getElem?_drop, Nat.add_zero,
          List.getElem?_append_left hj2] at h1
      exact absurd (natDigits_digits i gem (mem_of_some_getElem h1)) (by decide)
    · have hj3 : j' = (natDigits i).length := by
        rw [hph] at hj
        simp only [List.length_cons, List.length_append,
          List.length_singleton, List.length_nil] at hj
        omega
      subst hj3
      rw [List.drop_left, List.singleton_append,
          show ((1 : Nat)) = 0 + 1 from rfl, List.getElem?_cons_succ,
          List.getElem?_append_left (by simp)] at h2
      simp at h2
      exact absurd h2 (by decide)

theorem splitPieces_ne_nil (segs : List ProtSeg) : splitPieces segs ≠ [] := by
  cases segs with
  | nil => simp [splitPieces]
  | cons sg rest =>
    cases sg with
    | raw t =>
      rw [splitPieces]
      cases splitPieces rest with
      | nil => simp
      | cons p ps => simp
    | ins i v => simp [splitPieces]

theorem splitOnL_marker (s : List Char) :
    splitOnL splitMarker s =
      splitGo gem ('S' :: 'P' :: 'L' :: 'I' :: 'T' :: [gem]) s := rfl

theorem splitOn_marker_head (X : List Char) :
    splitOnL splitMarker (splitMarker ++ X) = [] :: splitOnL splitMarker X := by
  rw [splitOnL_marker, splitOnL_marker]
  have hpre : (gem :: 'S' :: 'P' :: 'L' :: 'I' :: 'T' :: [gem]).isPrefixOf
      (gem :: ('S' :: 'P' :: 'L' :: 'I' :: 'T' :: [gem] ++ X)) := by
    rw [List.isPrefixOf_iff_prefix]
    exact ⟨X, by simp⟩
  rw [show splitMarker ++ X =
      gem :: ('S' :: 'P' :: 'L' :: 'I' :: 'T' :: [gem] ++ X) from rfl]
  rw [splitGo_cons_match hpre]
  congr 1

theorem splitOnL_flatten : ∀ (segs : List ProtSeg), SegsOk segs →
    splitOnL splitMarker (flattenSegs segs) = splitPieces segs := by
  intro segs
  induction segs with
  | nil => intro _; rfl
  | cons sg rest ih =>
    intro h
    have hrest := ih (fun x hx => h x (List.mem_cons_of_mem _ hx))
    cases sg with
    | raw t =>
      have hgt : gem ∉ t := h _ (List.mem_cons_self _ _)
      rw [flattenSegs_raw, splitOnL_marker]
      rw [splitGo_append_nomatch gem _ t (flattenSegs rest)
        (fun j hj => marker_nomatch_gemfree hgt (flattenSegs rest) j hj)]
      rw [show splitGo gem ('S' :: 'P' :: 'L' :: 'I' :: 'T' :: [gem])
          (flattenSegs rest) = splitPieces rest from hrest]
      rw [splitPieces]
      obtain ⟨p, ps, hp⟩ :=
        List.exists_cons_of_ne_nil (splitPieces_ne_nil rest)
      rw [hp]
      simp
    | ins i v =>
      rw [flattenSegs_ins]
      rw [show insRegion i ++ flattenSegs rest =
          splitMarker ++ (placeholderOf i ++ (splitMarker ++ flattenSegs rest))
        by simp [insRegion, List.append_assoc]]
      rw [splitOn_marker_head, splitOnL_marker]
      rw [splitGo_append_nomatch gem _ (placeholderOf i)
        (splitMarker ++ flattenSegs rest)
        (fun j hj => marker_nomatch_in_ph i (flattenSegs rest) j hj)]
      rw [show splitGo gem ('S' :: 'P' :: 'L' :: 'I' :: 'T' :: [gem])
          (splitMarker ++ flattenSegs rest) =
          [] :: splitPieces rest by
        rw [← splitOnL_marker, splitOn_marker_head, hrest]]
      rw [splitPieces]
      simp

/-! ## Classification of the split pieces -/

theorem digit_not_space {c : Char} (h : isDigitCh c = true) :
    isPySpace c = false := by
  obtain ⟨h1, h2⟩ := digitCh_toNat h
  cases hs : isPySpace c
  · rfl
  · exfalso
    unfold isPySpace at hs
    simp only [Bool.or_eq_true, Bool.and_eq_true, decide_eq_true_eq] at hs
    casesm* _ ∨ _
    all_goals try subst c
    all_goals first
      | omega
      | exact absurd h1 (by decide)

theorem pyStrip_no_space {s : List Char}
    (h : ∀ c ∈ s, isPySpace c = false) : pyStrip s = s := by
  have hgen : ∀ (l : List Char), (∀ c ∈ l, isPySpace c = false) →
      l.dropWhile isPySpace = l := by
    intro l hl
    cases l with
    | nil => rfl
    | cons c rest =>
      rw [List.dropWhile_cons_of_neg
        (by rw [hl c (List.mem_cons_self c rest)]; simp)]
  unfold pyStrip
  rw [hgen s h, hgen s.reverse (fun c hc => h c (List.mem_reverse.mp hc))]
  exact List.reverse_reverse s

theorem placeholder_no_space (i : Nat) (c : Char)
    (hc : c ∈ placeholderOf i) : isPySpace c = false := by
  simp only [placeholderOf, List.mem_cons, List.mem_append,
    List.mem_singleton] at hc
  rcases hc with (rfl | hc) | (rfl | h0)
  · decide
  · exact digit_not_space (natDigits_digits i c hc)
  · decide
  · exact absurd h0 (List.not_mem_nil c)

theorem pyStrip_placeholder (i : Nat) :
    pyStrip (placeholderOf i) = placeholderOf i :=
  pyStrip_no_space (placeholder_no_space i)

theorem pyStrip_subset {s : List Char} {c : Char} (h : c ∈ pyStrip s) :
    c ∈ s := by
  unfold pyStrip at h
  rw [List.mem_reverse] at h
  have h2 := (List.dropWhile_sublist _).subset h
  rw [List.mem_reverse] at h2
  exact (List.dropWhile_sublist _).subset h2

theorem lookupPh_none_gemfree {st : PState} (h : PSOk st) {c : List Char}
    (hg : gem ∉ c) : lookupPh st.pmap c = none := by
  cases hl : lookupPh st.pmap c with
  | none => rfl
  | some v =>
    exfalso
    obtain ⟨i, _, hkey⟩ := PSOk_keys h (lookupPh_mem hl)
    apply hg
    rw [show c = placeholderOf i from hkey]
    exact gem_mem_placeholder i

theorem splitPieces_spec : ∀ (segs : List ProtSeg), SegsOk segs →
    ∃ p0 ps, splitPieces segs = p0 :: ps ∧ gem ∉ p0 ∧
      (∀ p ∈ ps, gem ∉ p ∨
        ∃ i v, p = placeholderOf i ∧ ProtSeg.ins i v ∈ segs) ∧
      (∀ i v, ProtSeg.ins i v ∈ segs → placeholderOf i ∈ ps) := by
  intro segs
  induction segs with
  | nil =>
    intro _
    exact ⟨[], [], rfl, by simp, by simp, by simp⟩
  | cons sg rest ih =>
    intro h
    obtain ⟨p0, ps, hsp, hg0, hps, hins⟩ :=
      ih (fun x hx => h x (List.mem_cons_of_mem _ hx))
    cases sg with
    | raw t =>
      have hgt : gem ∉ t := h _ (List.mem_cons_self _ _)
      refine ⟨t ++ p0, ps, ?_, ?_, ?_, ?_⟩
      · rw [splitPieces, hsp]
      · intro hc
        rcases List.mem_append.mp hc with hc | hc
        · exact hgt hc
        · exact hg0 hc
      · intro p hp
        rcases hps p hp with hgp | ⟨i, v, h1, h2⟩
        · exact Or.inl hgp
        · exact Or.inr ⟨i, v, h1, List.mem_cons_of_mem _ h2⟩
      · intro i v hm
        rcases List.mem_cons.mp hm with hm | hm
        · cases hm
        · exact hins i v hm
    | ins i v =>
      refine ⟨[], placeholderOf i :: p0 :: ps, ?_, by simp, ?_, ?_⟩
      · rw [splitPieces, hsp]
      · intro p hp
        rcases List.mem_cons.mp hp with hp | hp
        · exact Or.inr ⟨i, v, hp, List.mem_cons_self _ _⟩
        · rcases List.mem_cons.mp hp with hp | hp
          · exact Or.inl (hp ▸ hg0)
          · rcases hps p hp with hgp | ⟨i2, v2, h1, h2⟩
            · exact Or.inl hgp
            · exact Or.inr ⟨i2, v2, h1, List.mem_cons_of_mem _ h2⟩
      · intro i2 v2 hm
        rcases List.mem_cons.mp hm with hm | hm
        · rw [show i2 = i by cases hm; rfl]
          exact List.mem_cons_self _ _
        · exact List.mem_cons_of_mem _
            (List.mem_cons_of_mem _ (hins i2 v2 hm))

/-! ## Composing the substitution phases -/

theorem flattenSegs_single (t : List Char) :
    flattenSegs [ProtSeg.raw t] = t := by
  rw [flattenSegs_raw, flattenSegs_nil, List.append_nil]

theorem preprocess_chunking_eq (text : List Char)
    (rawDict nicks : List (List Char × List Char)) :
    preprocess_chunking text rawDict nicks =
      (((splitOnL splitMarker
          (preprocess_state text rawDict nicks).2).map pyStrip).filter
            (· ≠ [])).map
        (fun c =>
          match lookupPh (preprocess_state text rawDict nicks).1.pmap c with
          | some v => (v, true)
          | none => (c, false)) := rfl

theorem replaceGoF_subset (p : Char) (ps rep : List Char) :
    ∀ (fuel : Nat) (s : List Char) (c : Char),
      c ∈ replaceGoF p ps rep fuel s → c ∈ s ∨ c ∈ rep := by
  intro fuel
  induction fuel with
  | zero => intro s c hc; exact Or.inl hc
  | succ k ih =>
    intro s c hc
    cases s with
    | nil => cases hc
    | cons a rest =>
      rw [replaceGoF] at hc
      by_cases hp : (p :: ps).isPrefixOf (a :: rest)
      · rw [if_pos hp] at hc
        rcases List.mem_append.mp hc with hc | hc
        · exact Or.inr hc
        · rcases ih _ c hc with hc | hc
          · exact Or.inl (List.drop_subset _ _ hc)
          · exact Or.inr hc
      · rw [if_neg hp] at hc
        rcases List.mem_cons.mp hc with hc | hc
        · exact Or.inl (hc ▸ List.mem_cons_self a rest)
        · rcases ih _ c hc with hc | hc
          · exact Or.inl (List.mem_cons_of_mem _ hc)
          · exact Or.inr hc

theorem replaceList_subset {pat rep s : List Char} {c : Char}
    (h : c ∈ replaceList pat rep s) : c ∈ s ∨ c ∈ rep := by
  cases pat with
  | nil =>
    rw [replaceList] at h
    have aux : ∀ (l : List Char),
        c ∈ l.foldr (fun d acc => d :: (rep ++ acc)) [] → c ∈ l ∨ c ∈ rep := by
      intro l
      induction l with
      | nil => intro hc; cases hc
      | cons d rest ihl =>
        intro hc
        rw [List.foldr_cons] at hc
        rcases List.mem_cons.mp hc with hc | hc
        · exact Or.inl (hc ▸ List.mem_cons_self d rest)
        · rcases List.mem_append.mp hc with hc | hc
          · exact Or.inr hc
          · rcases ihl hc with hc | hc
            · exact Or.inl (List.mem_cons_of_mem _ hc)
            · exact Or.inr hc
    rcases List.mem_append.mp h with h | h
    · exact Or.inr h
    · exact aux s h
  | cons p ps => exact replaceGoF_subset p ps rep s.length s c h

theorem punct_foldl_gemfree {text : List Char} (h : gem ∉ text) :
    gem ∉ punctPairs.foldl (fun s pr => replaceList [pr.1] pr.2 s) text := by
  simp only [punctPairs, List.foldl_cons, List.foldl_nil]
  intro hc
  rcases replaceList_subset hc with hc | hc
  · rcases replaceList_subset hc with hc | hc
    · rcases replaceList_subset hc with hc | hc
      · rcases replaceList_subset hc with hc | hc
        · exact h hc
        · exact absurd hc (by decide)
      · exact absurd hc (by decide)
    · exact absurd hc (by decide)
  · exact absurd hc (by decide)

theorem nick_foldl_gemfree (nicks : List (List Char × List Char)) :
    ∀ (s : List Char), gem ∉ s → (∀ kv ∈ nicks, gem ∉ kv.2) →
    gem ∉ nicks.foldl (fun s kv => replaceList kv.1 kv.2 s) s := by
  induction nicks with
  | nil => intro s hs _; exact hs
  | cons kv rest ih =>
    intro s hs hr
    rw [List.foldl_cons]
    apply ih
    · intro hc
      rcases replaceList_subset hc with hc | hc
      · exact hs hc
      · exact hr kv (List.mem_cons_self _ _) hc
    · exact fun kv2 h2 => hr kv2 (List.mem_cons_of_mem _ h2)

theorem phase_step (f : List Char → Option (Nat × List Char))
    (hspan : ∀ s n v, f s = some (n, v) → 1 ≤ n ∧ n ≤ s.length ∧ gem ∉ s.take n)
    (hins : ∀ (i j : Nat) (tail : List Char), j < (insRegion i).length →
      f ((insRegion i).drop j ++ tail) = none)
    (st : PState) (segs : List ProtSeg)
    (h1 : PSOk st) (h2 : SegsOk segs) (h3 : ∀ sg ∈ segs, SegInsOk st sg)
    (h4 : ∀ e ∈ st.pmap, ∃ i, e.1 = placeholderOf i ∧
      ProtSeg.ins i e.2 ∈ segs) :
    ∃ (st' : PState) (segs' : List ProtSeg),
      runSub f st (flattenSegs segs) = (st', flattenSegs segs') ∧
      PSOk st' ∧ SegsOk segs' ∧ (∀ sg ∈ segs', SegInsOk st' sg) ∧
      (∀ e ∈ st'.pmap, ∃ i, e.1 = placeholderOf i ∧
        ProtSeg.ins i e.2 ∈ segs') := by
  obtain ⟨st', segs', heq, hst', hsegs', hinsok', hold, hnew, _⟩ :=
    runSub_structure f hspan hins ((flattenSegs segs).length + segs.length)
      segs st (le_refl _) h1 h2 h3
  refine ⟨st', segs', heq, hst', hsegs', hinsok', ?_⟩
  intro e he
  rcases hnew e he with h | ⟨i, hk, hm⟩
  · obtain ⟨i, hk, hm⟩ := h4 e h
    exact ⟨i, hk, hold i e.2 hm⟩
  · exact ⟨i, hk, hm⟩

theorem preprocess_opacity (text : List Char)
    (rawDict nicks : List (List Char × List Char))
    (htext : gem ∉ text)
    (hnicks : ∀ kv ∈ nicks, gem ∉ kv.2)
    (hkeys : ∀ kv ∈ loadKeys rawDict, goodKey kv.1) :
    (∀ e ∈ (preprocess_state text rawDict nicks).1.pmap,
        (e.2, true) ∈ preprocess_chunking text rawDict nicks) ∧
    (∀ c ∈ preprocess_chunking text rawDict nicks,
        (c.2 = true → c.1 ∈ (preprocess_state text rawDict nicks).1.pmap.map
          (fun e => e.2)) ∧
        (c.2 = false → gem ∉ c.1)) := by
  have ht2 : gem ∉ nicks.foldl (fun s kv => replaceList kv.1 kv.2 s)
      (punctPairs.foldl (fun s pr => replaceList [pr.1] pr.2 s) text) :=
    nick_foldl_gemfree nicks _ (punct_foldl_gemfree htext) hnicks
  have hgoodsorted : ∀ k ∈ sortByLenDesc ((loadKeys rawDict).map (·.1)),
      goodKey k := by
    intro k hk
    rw [mem_sortByLenDesc, List.mem_map] at hk
    obtain ⟨kv, hkv, hk⟩ := hk
    exact hk ▸ hkeys kv hkv
  -- Phase 1: RECRUIT_PATTERN
  obtain ⟨st1, segs1, heq1, hP1, hS1, hI1, hM1⟩ :=
    phase_step recruitMatch recruitMatch_span
      (fun i j tail hj => recruitMatch_region_none tail hj)
      ⟨[], 0⟩
      [ProtSeg.raw (nicks.foldl (fun s kv => replaceList kv.1 kv.2 s)
        (punctPairs.foldl (fun s pr => replaceList [pr.1] pr.2 s) text))]
      PSOk_init
      (by intro sg hsg
          rcases List.mem_cons.mp hsg with h | h
          · subst h; exact ht2
          · cases h)
      (by intro sg hsg
          rcases List.mem_cons.mp hsg with h | h
          · subst h; trivial
          · cases h)
      (by intro e he; cases he)
  rw [flattenSegs_single] at heq1
  -- Phase 2: dictionary alternation (if the dictionary is non-empty)
  have stage2 : ∃ (st2 : PState) (segs2 : List ProtSeg),
      (if loadKeys rawDict ≠ [] then
        runSub (dictMatch (sortByLenDesc ((loadKeys rawDict).map (·.1)))
          (loadKeys rawDict)) st1 (flattenSegs segs1)
      else (st1, flattenSegs segs1)) = (st2, flattenSegs segs2) ∧
      PSOk st2 ∧ SegsOk segs2 ∧ (∀ sg ∈ segs2, SegInsOk st2 sg) ∧
      (∀ e ∈ st2.pmap, ∃ i, e.1 = placeholderOf i ∧
        ProtSeg.ins i e.2 ∈ segs2) := by
    by_cases hcd : loadKeys rawDict = []
    · rw [if_neg (by simp [hcd])]
      exact ⟨st1, segs1, rfl, hP1, hS1, hI1, hM1⟩
    · rw [if_pos hcd]
      exact phase_step _ (dictMatch_span hgoodsorted)
        (fun i j tail hj => dictMatch_region_none hgoodsorted tail hj)
        st1 segs1 hP1 hS1 hI1 hM1
  obtain ⟨st2, segs2, heq2, hP2, hS2, hI2, hM2⟩ := stage2
  -- Phases 3-6: the four numeric counter patterns
  obtain ⟨st3, segs3, heq3, hP3, hS3, hI3, hM3⟩ :=
    phase_step (numMatch (Char.ofNat 0x7A2E) (Char.ofNat 0xC885))
      (numMatch_span (by decide))
      (fun i j tail hj => numMatch_region_none (by decide) (by decide) tail hj)
      st2 segs2 hP2 hS2 hI2 hM2
  obtain ⟨st4, segs4, heq4, hP4, hS4, hI4, hM4⟩ :=
    phase_step (numMatch (Char.ofNat 0x4EBA) (Char.ofNat 0xC778))
      (numMatch_span (by decide))
      (fun i j tail hj => numMatch_region_none (by decide) (by decide) tail hj)
      st3 segs3 hP3 hS3 hI3 hM3
  obtain ⟨st5, segs5, heq5, hP5, hS5, hI5, hM5⟩ :=
    phase_step (numMatch (Char.ofNat 0x5468) (Char.ofNat 0xD68C))
      (numMatch_span (by decide))
      (fun i j tail hj => numMatch_region_none (by decide) (by decide) tail hj)
      st4 segs4 hP4 hS4 hI4 hM4
  obtain ⟨st6, segs6, heq6, hP6, hS6, hI6, hM6⟩ :=
    phase_step (numMatch (Char.ofNat 0x56DE) (Char.ofNat 0xD68C))
      (numMatch_span (by decide))
      (fun i j tail hj => numMatch_region_none (by decide) (by decide) tail hj)
      st5 segs5 hP5 hS5 hI5 hM5
  -- the assembled pipeline state
  have hps : preprocess_state text rawDict nicks = (st6, flattenSegs segs6) := by
    show numPatterns.foldl
        (fun (acc : PState × List Char) pu =>
          runSub (numMatch pu.1 pu.2) acc.1 acc.2)
        (if loadKeys rawDict ≠ [] then
          runSub (dictMatch
              (sortByLenDesc ((loadKeys rawDict).map (·.1)))
              (loadKeys rawDict))
            (runSub recruitMatch ⟨[], 0⟩
              (nicks.foldl (fun s kv => replaceList kv.1 kv.2 s)
                (punctPairs.foldl
                  (fun s pr => replaceList [pr.1] pr.2 s) text))).1
            (runSub recruitMatch ⟨[], 0⟩
              (nicks.foldl (fun s kv => replaceList kv.1 kv.2 s)
                (punctPairs.foldl
                  (fun s pr => replaceList [pr.1] pr.2 s) text))).2
        else runSub recruitMatch ⟨[], 0⟩
          (nicks.foldl (fun s kv => replaceList kv.1 kv.2 s)
            (punctPairs.foldl
              (fun s pr => replaceList [pr.1] pr.2 s) text))) = _
    rw [heq1]
    rw [show (if loadKeys rawDict ≠ [] then
        runSub (dictMatch (sortByLenDesc ((loadKeys rawDict).map (·.1)))
          (loadKeys rawDict)) (st1, flattenSegs segs1).1
          (st1, flattenSegs segs1).2
      else (st1, flattenSegs segs1)) =
        (if loadKeys rawDict ≠ [] then
          runSub (dictMatch (sortByLenDesc ((loadKeys rawDict).map (·.1)))
            (loadKeys rawDict)) st1 (flattenSegs segs1)
        else (st1, flattenSegs segs1)) from rfl]
    rw [heq2]
    simp only [numPatterns, List.foldl_cons, List.foldl_nil]
    rw [heq3, heq4, heq5, heq6]
  -- classify the split pieces
  have hchunks := preprocess_chunking_eq text rawDict nicks
  rw [hps] at hchunks
  rw [splitOnL_flatten segs6 hS6] at hchunks
  obtain ⟨p0, ps, hsp, hg0, hclass, hphmem⟩ := splitPieces_spec segs6 hS6
  constructor
  · -- every recorded value appears as a protected chunk
    intro e he
    rw [hps] at he
    obtain ⟨i, hk, hm⟩ := hM6 e he
    have hphp : placeholderOf i ∈ splitPieces segs6 := by
      rw [hsp]
      exact List.mem_cons_of_mem _ (hphmem i e.2 hm)
    have hlook : lookupPh st6.pmap (placeholderOf i) = some e.2 :=
      (hI6 _ hm).2
    rw [hchunks]
    have h1 : placeholderOf i ∈
        ((splitPieces segs6).map pyStrip).filter (· ≠ []) := by
      rw [List.mem_filter]
      constructor
      · have h3 := List.mem_map_of_mem pyStrip hphp
        rwa [pyStrip_placeholder] at h3
      · simp [placeholderOf]
    rw [List.mem_map]
    refine ⟨placeholderOf i, h1, ?_⟩
    show (match lookupPh st6.pmap (placeholderOf i) with
      | some v => (v, true)
      | none => (placeholderOf i, false)) = (e.2, true)
    rw [hlook]
  · -- protected chunks are recorded values; plain chunks are marker-free
    intro c hc
    rw [hchunks] at hc
    rw [List.mem_map] at hc
    obtain ⟨q, hq, hqc⟩ := hc
    rw [List.mem_filter] at hq
    obtain ⟨hq1, hq2⟩ := hq
    rw [List.mem_map] at hq1
    obtain ⟨q0, hq0, hq0s⟩ := hq1
    have hq0cases : gem ∉ q0 ∨
        ∃ i v, q0 = placeholderOf i ∧ ProtSeg.ins i v ∈ segs6 := by
      rw [hsp] at hq0
      rcases List.mem_cons.mp hq0 with h | h
      · exact Or.inl (h ▸ hg0)
      · exact hclass q0 h
    rw [hps]
    rcases hq0cases with hfree | ⟨i, v, hq0ph, hmem⟩
    · -- a marker-free piece: classified as unprotected
      have hqfree : gem ∉ q := by
        intro hg
        exact hfree (pyStrip_subset (hq0s ▸ hg))
      have hcval : c = (q, false) := by
        rw [← hqc]
        show (match lookupPh st6.pmap q with
          | some v => (v, true)
          | none => (q, false)) = (q, false)
        rw [lookupPh_none_gemfree hP6 hqfree]
      subst hcval
      exact ⟨fun h => (nomatch h), fun _ => hqfree⟩
    · -- a placeholder piece: classified with its recorded value
      subst hq0ph
      rw [pyStrip_placeholder] at hq0s
      subst hq0s
      have hlook : lookupPh st6.pmap (placeholderOf i) = some v :=
        (hI6 _ hmem).2
      have hcval : c = (v, true) := by
        rw [← hqc]
        show (match lookupPh st6.pmap (placeholderOf i) with
          | some v => (v, true)
          | none => (placeholderOf i, false)) = (v, true)
        rw [hlook]
      subst hcval
      refine ⟨fun _ => ?_, fun h => (nomatch h)⟩
      rw [List.mem_map]
      exact ⟨(placeholderOf i, v), lookupPh_mem hlook, rfl⟩

/-- C6 (counterexample): with dictionary key `"0"` (a pure digit run) and text
`"@a"`, the recruit phase records the mention `"@a"` under placeholder 0, but
the dictionary phase then matches inside that placeholder token and destroys
it: the protected value `"@a"` never reappears as a protected chunk — instead
the dictionary replacement `"Z"` does.  Later phases are therefore not opaque
for every dictionary, refuting the claim as stated. -/
theorem claim_C6_opacity_counterexample :
    (placeholderOf 0, ['@', 'a']) ∈
      (preprocess_state ['@', 'a'] [(['0'], ['Z'])] []).1.pmap ∧
    (['Z'], true) ∈ preprocess_chunking ['@', 'a'] [(['0'], ['Z'])] [] ∧
    (['@', 'a'], true) ∉ preprocess_chunking ['@', 'a'] [(['0'], ['Z'])] [] := by
  refine ⟨by decide, by decide, by decide⟩

/-- C6 (amended): placeholder tokens of one request are pairwise distinct and,
containing the marker glyph `'💠'`, collide with no substring of marker-free
text; and provided the text and nickname replacement values are marker-free
and every retained dictionary key contains no marker glyph, is not a pure
digit run, and is not a substring of `"SPLIT"`, the later substitution phases
(dictionary, numeric counters) never match inside a placeholder token: every
value recorded by `protect` reappears as a protected chunk, every protected
chunk is a recorded value, and unprotected chunks are marker-free. -/
theorem claim_C6_opacity_amended :
    (∀ i j : Nat, i ≠ j → placeholderOf i ≠ placeholderOf j) ∧
    (∀ (n : Nat) (t : List Char), gem ∉ t → ¬ placeholderOf n <:+: t) ∧
    (∀ (text : List Char) (rawDict nicks : List (List Char × List Char)),
      gem ∉ text →
      (∀ kv ∈ nicks, gem ∉ kv.2) →
      (∀ kv ∈ loadKeys rawDict, goodKey kv.1) →
      (∀ e ∈ (preprocess_state text rawDict nicks).1.pmap,
          (e.2, true) ∈ preprocess_chunking text rawDict nicks) ∧
      (∀ c ∈ preprocess_chunking text rawDict nicks,
          (c.2 = true →
            c.1 ∈ (preprocess_state text rawDict nicks).1.pmap.map
              (fun e => e.2)) ∧
          (c.2 = false → gem ∉ c.1))) := by
  refine ⟨fun i j hij he => hij (placeholderOf_inj he),
    fun n t hg => placeholder_not_infix hg,
    fun text rawDict nicks h1 h2 h3 =>
      preprocess_opacity text rawDict nicks h1 h2 h3⟩

theorem claim_C6_opacity_amended_witness :
    (gem ∉ (['@', 'a'] : List Char)) ∧
    ((∀ kv ∈ ([] : List (List Char × List Char)), gem ∉ kv.2) ∧
     (∀ kv ∈ loadKeys [(['x'], ['y'])], goodKey kv.1)) ∧
    ((∀ e ∈ (preprocess_state ['@', 'a'] [(['x'], ['y'])] []).1.pmap,
        (e.2, true) ∈ preprocess_chunking ['@', 'a'] [(['x'], ['y'])] []) ∧
     (∀ c ∈ preprocess_chunking ['@', 'a'] [(['x'], ['y'])] [],
        (c.2 = true →
          c.1 ∈ (preprocess_state ['@', 'a'] [(['x'], ['y'])] []).1.pmap.map
            (fun e => e.2)) ∧
        (c.2 = false → gem ∉ c.1))) :=
  ⟨by decide, ⟨by decide, by decide⟩,
    claim_C6_opacity_amended.2.2 ['@', 'a'] [(['x'], ['y'])] []
      (by decide) (by decide) (by decide)⟩

/-! ## Joining grouped parts -/

theorem intercalate_nil_toks :
    List.intercalate [' '] ([] : List (List Char)) = [] := by
  simp [List.intercalate]

theorem intercalate_single (t : List Char) :
    List.intercalate [' '] [t] = t := by
  simp [List.intercalate]

theorem intercalate_cons2 (t t2 : List Char) (r : List (List Char)) :
    List.intercalate [' '] (t :: t2 :: r) =
      t ++ ' ' :: List.intercalate [' '] (t2 :: r) := by
  simp [List.intercalate, List.intersperse]

theorem groupParts_ne_nil : ∀ (t : List Char) (rest : List (List Char)),
    groupParts (t :: rest) ≠ [] := by
  intro t rest
  cases rest with
  | nil => simp [groupParts]
  | cons t2 r =>
    rw [groupParts]
    by_cases h1 : t.head? = some '@'
    · rw [if_pos h1]
      simp
    · rw [if_neg h1]
      by_cases h2 : t2.head? = some '@'
      · rw [if_pos h2]
        simp
      · rw [if_neg h2]
        cases groupParts (t2 :: r) with
        | nil => simp
        | cons p ps => simp

theorem groupParts_join : ∀ (toks : List (List Char)),
    List.intercalate [' '] (groupParts toks) =
      List.intercalate [' '] toks := by
  intro toks
  induction toks with
  | nil => rfl
  | cons t rest ih =>
    cases rest with
    | nil => rfl
    | cons t2 r =>
      obtain ⟨p, ps, hp⟩ :=
        List.exists_cons_of_ne_nil (groupParts_ne_nil t2 r)
      rw [groupParts]
      by_cases h1 : t.head? = some '@'
      · rw [if_pos h1, hp, intercalate_cons2, ← hp, ih, intercalate_cons2]
      · rw [if_neg h1]
        by_cases h2 : t2.head? = some '@'
        · rw [if_pos h2, hp, intercalate_cons2, ← hp, ih, intercalate_cons2]
        · rw [if_neg h2, hp]
          dsimp only
          cases ps with
          | nil =>
            rw [intercalate_single, intercalate_cons2, ← ih, hp,
              intercalate_single]
          | cons q qs =>
            rw [intercalate_cons2, intercalate_cons2, ← ih, hp,
              intercalate_cons2]
            simp

theorem groupParts_nonempty : ∀ (toks : List (List Char)),
    (∀ t ∈ toks, t ≠ []) → ∀ p ∈ groupParts toks, p ≠ [] := by
  intro toks
  induction toks with
  | nil => intro _ p hp; cases hp
  | cons t rest ih =>
    intro hne p hp
    cases rest with
    | nil =>
      rw [show groupParts [t] = [t] from rfl] at hp
      rw [List.mem_singleton] at hp
      exact hp ▸ hne t (List.mem_cons_self _ _)
    | cons t2 r =>
      rw [groupParts] at hp
      by_cases h1 : t.head? = some '@'
      · rw [if_pos h1] at hp
        rcases List.mem_cons.mp hp with hp | hp
        · exact hp ▸ hne t (List.mem_cons_self _ _)
        · exact ih (fun x hx => hne x (List.mem_cons_of_mem _ hx)) p hp
      · rw [if_neg h1] at hp
        by_cases h2 : t2.head? = some '@'
        · rw [if_pos h2] at hp
          rcases List.mem_cons.mp hp with hp | hp
          · exact hp ▸ hne t (List.mem_cons_self _ _)
          · exact ih (fun x hx => hne x (List.mem_cons_of_mem _ hx)) p hp
        · rw [if_neg h2] at hp
          obtain ⟨p1, ps, hps⟩ :=
            List.exists_cons_of_ne_nil (groupParts_ne_nil t2 r)
          rw [hps] at hp
          dsimp only at hp
          rcases List.mem_cons.mp hp with hp | hp
          · subst hp
            intro he
            have := hne t (List.mem_cons_self _ _)
            cases t with
            | nil => exact this rfl
            | cons a b => cases he
          · apply ih (fun x hx => hne x (List.mem_cons_of_mem _ hx)) p
            rw [hps]
            exact List.mem_cons_of_mem _ hp

/-! ## `strip()` at token ends -/

theorem pyStrip_id_ends {s : List Char}
    (h1 : ∀ c, s.head? = some c → isPySpace c = false)
    (h2 : ∀ c, s.getLast? = some c → isPySpace c = false) :
    pyStrip s = s := by
  unfold pyStrip
  have hd : s.dropWhile isPySpace = s := by
    cases s with
    | nil => rfl
    | cons c rest =>
      rw [List.dropWhile_cons_of_neg (by rw [h1 c rfl]; simp)]
  rw [hd]
  have hr : s.reverse.dropWhile isPySpace = s.reverse := by
    cases hrev : s.reverse with
    | nil => rfl
    | cons c rest =>
      have hlast : s.getLast? = some c := by
        rw [← List.head?_reverse, hrev]
        rfl
      rw [List.dropWhile_cons_of_neg (by rw [h2 c hlast]; simp)]
  rw [hr, List.reverse_reverse]

theorem pyStrip_append_space (s : List Char) :
    pyStrip (s ++ [' ']) = pyStrip s := by
  unfold pyStrip
  rw [List.dropWhile_append]
  by_cases hd : (s.dropWhile isPySpace).isEmpty = true
  · rw [if_pos hd]
    rw [List.isEmpty_iff] at hd
    rw [hd]
    rfl
  · rw [if_neg hd]
    rw [List.reverse_append, List.reverse_singleton, List.singleton_append,
      List.dropWhile_cons_of_pos (by decide)]

theorem pyStrip_cons_space (s : List Char) :
    pyStrip (' ' :: s) = pyStrip s := by
  unfold pyStrip
  rw [List.dropWhile_cons_of_pos (by decide)]

theorem takeWhile_all_append {p : Char → Bool} :
    ∀ {a : List Char} (b : List Char), (∀ c ∈ a, p c = true) →
      (a ++ b).takeWhile p = a ++ b.takeWhile p := by
  intro a
  induction a with
  | nil => intro b _; rfl
  | cons c a' ih =>
    intro b h
    rw [List.cons_append,
      List.takeWhile_cons_of_pos (h c (List.mem_cons_self _ _)),
      ih b (fun x hx => h x (List.mem_cons_of_mem _ hx))]
    rfl

/-! ## The recruit scan on a well-formed token list -/

theorem recruitMatch_none_of_head {s : List Char}
    (h : ∀ c, s.head? = some c → c ≠ '@') : recruitMatch s = none := by
  cases s with
  | nil => rfl
  | cons c x => exact recruitMatch_cons_ne x (h c rfl)

theorem recruit_nomatch_all {p : List Char} (T : List Char)
    (h : ∀ c ∈ p, c ≠ '@') :
    ∀ j, j < p.length → recruitMatch (p.drop j ++ T) = none := by
  intro j hj
  apply recruitMatch_none_of_head
  intro c hc
  have hne : p.drop j ≠ [] := by
    intro he
    have := List.length_drop j p
    rw [he] at this
    simp at this
    omega
  obtain ⟨c', u, hu⟩ := List.exists_cons_of_ne_nil hne
  rw [hu, List.cons_append, List.head?_cons, Option.some.injEq] at hc
  subst hc
  exact h c' (List.drop_subset j p (hu ▸ List.mem_cons_self c' u))

theorem recruitExt_space_nonword {X : List Char}
    (h : ∀ c, X.head? = some c →
      isPySpace c = false ∧ isRecruitWord c = false) :
    recruitExt (' ' :: X) = 0 := by
  show recruitExtF (' ' :: X).length (' ' :: X) = 0
  rw [List.length_cons, recruitExtF]
  have hsp : (' ' :: X).takeWhile isPySpace = [' '] := by
    rw [List.takeWhile_cons_of_pos (by decide)]
    cases X with
    | nil => rfl
    | cons c x =>
      rw [List.takeWhile_cons_of_neg (by rw [(h c rfl).1]; simp)]
  rw [hsp]
  have hw : ((' ' :: X).drop 1).takeWhile isRecruitWord = [] := by
    rw [List.drop_succ_cons, List.drop_zero]
    cases X with
    | nil => rfl
    | cons c x =>
      rw [List.takeWhile_cons_of_neg (by rw [(h c rfl).2]; simp)]
  rw [show ([' '] : List Char).length = 1 from rfl]
  rw [if_neg (by omega), hw]
  rfl

theorem recruitMatch_mention {tl : List Char} (X : List Char) (htl : tl ≠ [])
    (hW2 : ∀ c ∈ tl, isRecruitWord c = true)
    (hX : X = [] ∨ ∃ X', X = ' ' :: X' ∧
      (∀ c2, X'.head? = some c2 →
        isPySpace c2 = false ∧ isRecruitWord c2 = false)) :
    recruitMatch ('@' :: (tl ++ X)) = some (1 + tl.length, '@' :: tl) := by
  rw [recruitMatch_at]
  have hw : (tl ++ X).takeWhile isRecruitWord = tl := by
    rw [takeWhile_all_append X hW2]
    rcases hX with h | ⟨X', hX', _⟩
    · rw [h]
      simp
    · rw [hX', List.takeWhile_cons_of_neg (by decide), List.append_nil]
  rw [hw]
  have hlen : tl.length ≠ 0 := by
    intro he
    exact htl (List.eq_nil_of_length_eq_zero he)
  rw [if_neg hlen]
  have hext : recruitExt ((tl ++ X).drop tl.length) = 0 := by
    rw [List.drop_left]
    rcases hX with h | ⟨X', hX', hX'h⟩
    · rw [h]
      rfl
    · rw [hX']
      exact recruitExt_space_nonword hX'h
  rw [hext]
  have htake : ('@' :: (tl ++ X)).take (1 + tl.length + 0) = '@' :: tl := by
    rw [Nat.add_zero, show 1 + tl.length = tl.length + 1 by omega,
      List.take_succ_cons, List.take_left]
  rw [htake, Nat.add_zero]

theorem plainTok_head_ne_at {t : List Char} (h : plainTok t) :
    t.head? ≠ some '@' := by
  obtain ⟨hne, hall, _⟩ := h
  cases t with
  | nil => simp
  | cons c x =>
    rw [List.head?_cons]
    intro he
    rw [Option.some.injEq] at he
    exact (hall c (List.mem_cons_self c x)).2.2.1 he

theorem plainTok_chars_ne_at {t : List Char} (h : plainTok t) :
    ∀ c ∈ t, c ≠ '@' := fun c hc => (h.2.1 c hc).2.2.1

theorem tok_ne_nil {t : List Char} (h : plainTok t ∨ menTok t) : t ≠ [] := by
  rcases h with h | h
  · exact h.1
  · obtain ⟨tl, ht, _, _⟩ := h
    rw [ht]
    simp

theorem intercalate_head {t2 : List Char} (r : List (List Char))
    (h : t2 ≠ []) :
    (List.intercalate [' '] (t2 :: r)).head? = t2.head? := by
  obtain ⟨c, x, hc⟩ := List.exists_cons_of_ne_nil h
  subst hc
  cases r with
  | nil => rw [intercalate_single]
  | cons q qs =>
    rw [intercalate_cons2, List.cons_append, List.head?_cons, List.head?_cons]

theorem tok_head_classes {t2 : List Char} (h : plainTok t2 ∨ menTok t2)
    (hnw : ∀ c, t2.head? = some c → isRecruitWord c = false) :
    ∀ c, t2.head? = some c →
      isPySpace c = false ∧ isRecruitWord c = false := by
  intro c hc
  refine ⟨?_, hnw c hc⟩
  rcases h with hp | hm
  · cases t2 with
    | nil => cases hc
    | cons a x =>
      rw [List.head?_cons, Option.some.injEq] at hc
      subst hc
      exact (hp.2.1 _ (List.mem_cons_self _ _)).1
  · obtain ⟨tl, ht, _, _⟩ := hm
    subst ht
    rw [List.head?_cons, Option.some.injEq] at hc
    subst hc
    decide

theorem goodToks_head {t : List Char} {rest : List (List Char)}
    (h : GoodToks (t :: rest)) : plainTok t ∨ menTok t := by
  cases rest with
  | nil => exact h
  | cons t2 r => exact h.1

theorem goodToks_tail {t : List Char} {rest : List (List Char)}
    (h : GoodToks (t :: rest)) : GoodToks rest := by
  cases rest with
  | nil => trivial
  | cons t2 r => exact h.2.2

theorem recruit_scan : ∀ (toks : List (List Char)) (st0 : PState),
    GoodToks toks → PSOk st0 →
    ∃ st : PState,
      runSub recruitMatch st0 (List.intercalate [' '] toks) =
        (st, flattenSegs (tokSegs st0.count toks)) ∧
      PSOk st ∧ (∀ sg ∈ tokSegs st0.count toks, SegInsOk st sg) ∧
      (∀ e ∈ st0.pmap, e ∈ st.pmap) := by
  intro toks
  induction toks with
  | nil =>
    intro st0 _ h0
    exact ⟨st0, by rw [intercalate_nil_toks, runSub_nil]; rfl, h0,
      fun sg hsg => absurd hsg (List.not_mem_nil sg),
      fun e he => he⟩
  | cons t rest ih =>
    intro st0 hg h0
    cases rest with
    | nil =>
      have hg1 : plainTok t ∨ menTok t := hg
      rw [intercalate_single]
      rcases hg1 with hp | hm
      · have hnom := recruit_nomatch_all ([] : List Char)
          (plainTok_chars_ne_at hp)
        have h1 := runSub_prefix_nomatch recruitMatch t st0 [] hnom
        rw [List.append_nil, runSub_nil] at h1
        have hts : tokSegs st0.count [t] = [ProtSeg.raw (t ++ [])] := by
          rw [tokSegs, if_neg (plainTok_head_ne_at hp), if_pos rfl]
          rfl
        refine ⟨st0, ?_, h0, ?_, fun e he => he⟩
        · rw [h1, hts, flattenSegs_raw, flattenSegs_nil, List.append_nil,
            List.append_nil]
        · intro sg hsg
          rw [hts] at hsg
          rcases List.mem_cons.mp hsg with h | h
          · subst h
            trivial
          · cases h
      · obtain ⟨tl, ht, htl, htlc⟩ := hm
        subst ht
        have hm1 : recruitMatch ('@' :: (tl ++ [])) =
            some (1 + tl.length, '@' :: tl) :=
          recruitMatch_mention [] htl (fun c hc => (htlc c hc).1) (Or.inl rfl)
        rw [List.append_nil] at hm1
        have hstep := runSub_cons_some st0 hm1 (by omega)
        rw [show ('@' :: tl).drop (1 + tl.length) = [] by
          rw [show 1 + tl.length = tl.length + 1 by omega,
            List.drop_succ_cons, List.drop_length]] at hstep
        rw [runSub_nil] at hstep
        have hts : tokSegs st0.count ['@' :: tl] =
            [ProtSeg.ins st0.count ('@' :: tl)] := by
          rw [tokSegs, List.head?_cons, if_pos rfl, if_pos rfl]
        refine ⟨(protectVal st0 ('@' :: tl)).1, ?_, PSOk_protect h0 _, ?_,
          fun e he => by
            rw [protectVal_pmap]
            exact List.mem_cons_of_mem _ he⟩
        · rw [hstep, hts, flattenSegs_ins, flattenSegs_nil, protectVal_snd]
        · intro sg hsg
          rw [hts] at hsg
          rcases List.mem_cons.mp hsg with h | h
          · subst h
            apply segInsOk_of_mem (PSOk_protect h0 _)
            rw [protectVal_pmap]
            exact List.mem_cons_self _ _
          · cases h
    | cons t2 r =>
      have hg1 : plainTok t ∨ menTok t := goodToks_head hg
      have hg3 : GoodToks (t2 :: r) := goodToks_tail hg
      have hg3head : plainTok t2 ∨ menTok t2 := goodToks_head hg3
      have ht2ne : t2 ≠ [] := tok_ne_nil hg3head
      rw [intercalate_cons2]
      rcases hg1 with hp | hm
      · have hnom : ∀ j, j < (t ++ [' ']).length →
            recruitMatch ((t ++ [' ']).drop j ++
              List.intercalate [' '] (t2 :: r)) = none := by
          apply recruit_nomatch_all
          intro c hc
          rcases List.mem_append.mp hc with hc | hc
          · exact plainTok_chars_ne_at hp c hc
          · rw [List.mem_singleton] at hc
            subst hc
            decide
        have h1 := runSub_prefix_nomatch recruitMatch (t ++ [' ']) st0
          (List.intercalate [' '] (t2 :: r)) hnom
        obtain ⟨st, heq, hP, hI, hmono⟩ := ih st0 hg3 h0
        have hts : tokSegs st0.count (t :: t2 :: r) =
            ProtSeg.raw (t ++ [' ']) :: tokSegs st0.count (t2 :: r) := by
          rw [tokSegs, if_neg (plainTok_head_ne_at hp), if_neg (by simp)]
        refine ⟨st, ?_, hP, ?_, hmono⟩
        · rw [show t ++ ' ' :: List.intercalate [' '] (t2 :: r) =
              (t ++ [' ']) ++ List.intercalate [' '] (t2 :: r) by simp]
          rw [h1, heq, hts, flattenSegs_raw]
        · intro sg hsg
          rw [hts] at hsg
          rcases List.mem_cons.mp hsg with h | h
          · subst h
            trivial
          · exact hI sg h
      · obtain ⟨tl, ht, htl, htlc⟩ := hm
        subst ht
        have hmen : menTok ('@' :: tl) := ⟨tl, rfl, htl, htlc⟩
        have hm1 : recruitMatch
            ('@' :: (tl ++ ' ' :: List.intercalate [' '] (t2 :: r))) =
            some (1 + tl.length, '@' :: tl) := by
          apply recruitMatch_mention _ htl (fun c hc => (htlc c hc).1)
          refine Or.inr ⟨List.intercalate [' '] (t2 :: r), rfl, ?_⟩
          intro c2 hc2
          rw [intercalate_head r ht2ne] at hc2
          exact tok_head_classes hg3head (hg.2.1 hmen) c2 hc2
        have hstep := runSub_cons_some st0 hm1 (by omega)
        rw [show ('@' :: (tl ++ ' ' :: List.intercalate [' '] (t2 :: r))).drop
              (1 + tl.length) = ' ' :: List.intercalate [' '] (t2 :: r) by
          rw [show 1 + tl.length = tl.length + 1 by omega,
            List.drop_succ_cons, List.drop_append_eq_append_drop,
            Nat.sub_self, List.drop_length, List.drop_zero,
            List.nil_append]] at hstep
        have hsp := runSub_prefix_nomatch recruitMatch [' ']
          (protectVal st0 ('@' :: tl)).1
          (List.intercalate [' '] (t2 :: r)) (by
            intro j hj
            have hj0 : j = 0 := by
              simp only [List.length_cons, List.length_nil] at hj
              omega
            subst hj0
            rw [List.drop_zero, List.singleton_append]
            exact recruitMatch_cons_ne _ (by decide))
        rw [List.singleton_append] at hsp
        obtain ⟨st, heq, hP, hI, hmono⟩ :=
          ih (protectVal st0 ('@' :: tl)).1 hg3 (PSOk_protect h0 _)
        rw [protectVal_count] at heq hI
        have hts : tokSegs st0.count (('@' :: tl) :: t2 :: r) =
            ProtSeg.ins st0.count ('@' :: tl) :: ProtSeg.raw [' '] ::
              tokSegs (st0.count + 1) (t2 :: r) := by
          rw [tokSegs, List.head?_cons, if_pos rfl, if_neg (by simp)]
        refine ⟨st, ?_, hP, ?_, ?_⟩
        · rw [List.cons_append, hstep, hsp, heq, hts, flattenSegs_ins,
            flattenSegs_raw, protectVal_snd]
        · intro sg hsg
          rw [hts] at hsg
          rcases List.mem_cons.mp hsg with h | h
          · subst h
            apply segInsOk_of_mem hP
            apply hmono
            rw [protectVal_pmap]
            exact List.mem_cons_self _ _
          · rcases List.mem_cons.mp h with h | h
            · subst h
              trivial
            · exact hI sg h
        · intro e he
          apply hmono
          rw [protectVal_pmap]
          exact List.mem_cons_of_mem _ he

/-! ## Reconstructing the chunk texts of a token list -/

theorem head?_append_left {a : List Char} (b : List Char) (h : a ≠ []) :
    (a ++ b).head? = a.head? := by
  cases a with
  | nil => exact absurd rfl h
  | cons c x => rw [List.cons_append, List.head?_cons, List.head?_cons]

theorem getLast?_append_right {a b : List Char} (h : b ≠ []) :
    (a ++ b).getLast? = b.getLast? := by
  rw [List.getLast?_append]
  obtain ⟨c, x, hc⟩ := List.exists_cons_of_ne_nil h
  subst hc
  cases x with
  | nil => rfl
  | cons d y =>
    rw [show (c :: d :: y).getLast? = (d :: y).getLast? from rfl]
    cases hl : (d :: y).getLast? with
    | none =>
      exfalso
      rw [List.getLast?_eq_none_iff] at hl
      cases hl
    | some z => rfl

theorem partsOfPieces_cons_nil (env : List Char → Option (List Char))
    {piece : List Char} (rest : List (List Char)) (h : pyStrip piece = []) :
    partsOfPieces env (piece :: rest) = partsOfPieces env rest := by
  unfold partsOfPieces
  rw [List.map_cons, h, List.filter_cons_of_neg (by simp)]

theorem partsOfPieces_cons_ne (env : List Char → Option (List Char))
    {piece : List Char} (rest : List (List Char)) (h : pyStrip piece ≠ []) :
    partsOfPieces env (piece :: rest) =
      envPart env (pyStrip piece) :: partsOfPieces env rest := by
  unfold partsOfPieces
  rw [List.map_cons, List.filter_cons_of_pos (by simpa using h), List.map_cons]

theorem envPart_some {env : List Char → Option (List Char)} {c v : List Char}
    (h : env c = some v) : envPart env c = v := by
  unfold envPart
  rw [h]

theorem envPart_none {env : List Char → Option (List Char)} {c : List Char}
    (h : env c = none) : envPart env c = c := by
  unfold envPart
  rw [h]

theorem mem_of_head? {t : List Char} {c : Char} (h : t.head? = some c) :
    c ∈ t := by
  cases t with
  | nil => cases h
  | cons a x =>
    rw [List.head?_cons, Option.some.injEq] at h
    exact h ▸ List.mem_cons_self a x

theorem mem_of_getLast? {t : List Char} {c : Char} (h : t.getLast? = some c) :
    c ∈ t := by
  rw [← List.head?_reverse] at h
  rw [← List.mem_reverse]
  exact mem_of_head? h

theorem plainTok_gem_free {t : List Char} (hp : plainTok t) : gem ∉ t :=
  fun hm => (hp.2.1 gem hm).2.1 rfl

theorem plainTok_space_free {t : List Char} (hp : plainTok t) :
    ∀ c ∈ t, isPySpace c = false := fun c hc => (hp.2.1 c hc).1

theorem pyStrip_nil : pyStrip ([] : List Char) = [] := rfl

theorem parts_tokSegs (env : List Char → Option (List Char)) :
    ∀ (toks : List (List Char)) (cnt : Nat), GoodToks toks →
    (∀ i v, ProtSeg.ins i v ∈ tokSegs cnt toks →
      env (placeholderOf i) = some v) →
    (∀ q : List Char, gem ∉ q → env q = none) →
    ∃ p0 ps, splitPieces (tokSegs cnt toks) = p0 :: ps ∧
      partsOfPieces env (p0 :: ps) = groupParts toks ∧
      ((toks = [] ∨ ∃ t rest2, toks = t :: rest2 ∧ t.head? = some '@') →
        p0 = []) ∧
      (∀ t rest2, toks = t :: rest2 → t.head? ≠ some '@' →
        ∃ g, (p0 = g ∨ p0 = g ++ [' ']) ∧ gem ∉ g ∧ g ≠ [] ∧
          (∀ c, g.head? = some c → isPySpace c = false) ∧
          (∀ c, g.getLast? = some c → isPySpace c = false)) := by
  intro toks
  induction toks with
  | nil =>
    intro cnt _ _ henv
    refine ⟨[], [], rfl, ?_, fun _ => rfl, fun t r ht => by cases ht⟩
    rw [partsOfPieces_cons_nil env [] pyStrip_nil]
    rfl
  | cons t rest ih =>
    intro cnt hg hins henv
    have hg1 := goodToks_head hg
    by_cases hat : t.head? = some '@'
    · have hmen : menTok t := by
        rcases hg1 with hp | hm
        · exact absurd hat (plainTok_head_ne_at hp)
        · exact hm
      obtain ⟨tl, htl, htlne, _⟩ := hmen
      have htne : t ≠ [] := by rw [htl]; simp
      cases rest with
      | nil =>
        have hts : tokSegs cnt [t] = [ProtSeg.ins cnt t] := by
          rw [tokSegs, if_pos hat, if_pos rfl]
        refine ⟨[], [placeholderOf cnt, []], ?_, ?_, fun _ => rfl,
          fun t' r' ht' hne => ?_⟩
        · rw [hts]
          rfl
        · rw [partsOfPieces_cons_nil env _ pyStrip_nil,
            partsOfPieces_cons_ne env _
              (by rw [pyStrip_placeholder]; simp [placeholderOf]),
            pyStrip_placeholder,
            envPart_some (hins cnt t (by rw [hts]; exact List.mem_cons_self _ _)),
            partsOfPieces_cons_nil env _ pyStrip_nil]
          rfl
        · rw [List.cons.injEq] at ht'
          exact absurd (ht'.1 ▸ hat) hne
      | cons t2 r =>
        have hts : tokSegs cnt (t :: t2 :: r) =
            ProtSeg.ins cnt t :: ProtSeg.raw [' '] ::
              tokSegs (cnt + 1) (t2 :: r) := by
          rw [tokSegs, if_pos hat, if_neg (by simp)]
        obtain ⟨p0', ps', hsp', hparts', hmen0', hplain'⟩ :=
          ih (cnt + 1) (goodToks_tail hg)
            (fun i v hm => hins i v (by
              rw [hts]
              exact List.mem_cons_of_mem _ (List.mem_cons_of_mem _ hm)))
            henv
        refine ⟨[], placeholderOf cnt :: ([' '] ++ p0') :: ps', ?_, ?_,
          fun _ => rfl, fun t' r' ht' hne => ?_⟩
        · rw [hts, splitPieces, splitPieces, hsp']
        · rw [partsOfPieces_cons_nil env _ pyStrip_nil,
            partsOfPieces_cons_ne env _
              (by rw [pyStrip_placeholder]; simp [placeholderOf]),
            pyStrip_placeholder,
            envPart_some (hins cnt t (by rw [hts]; exact List.mem_cons_self _ _))]
          have hsty : pyStrip ([' '] ++ p0') = pyStrip p0' := by
            rw [show ([' '] : List Char) ++ p0' = ' ' :: p0' from rfl,
              pyStrip_cons_space]
          rw [groupParts, if_pos hat]
          by_cases h0 : pyStrip p0' = []
          · rw [partsOfPieces_cons_nil env _ (by rw [hsty]; exact h0)]
            rw [partsOfPieces_cons_nil env _ h0] at hparts'
            rw [hparts']
          · rw [partsOfPieces_cons_ne env _ (by rw [hsty]; exact h0), hsty]
            rw [partsOfPieces_cons_ne env _ h0] at hparts'
            rw [hparts']
        · rw [List.cons.injEq] at ht'
          exact absurd (ht'.1 ▸ hat) hne
    · have hp : plainTok t := by
        rcases hg1 with hpp | hm
        · exact hpp
        · obtain ⟨tl, htl, _, _⟩ := hm
          rw [htl] at hat
          exact absurd (by rw [List.head?_cons]) hat
      have htne : t ≠ [] := hp.1
      have hstript : pyStrip t = t := pyStrip_no_space (plainTok_space_free hp)
      have hgemt : gem ∉ t := plainTok_gem_free hp
      cases rest with
      | nil =>
        have hts : tokSegs cnt [t] = [ProtSeg.raw (t ++ [])] := by
          rw [tokSegs, if_neg hat, if_pos rfl]
          rfl
        refine ⟨(t ++ []) ++ [], [], ?_, ?_, ?_, fun t' r' ht' _ => ?_⟩
        · rw [hts]
          rfl
        · rw [show ((t ++ []) ++ []) = t by simp]
          rw [partsOfPieces_cons_ne env _ (by rw [hstript]; exact htne),
            hstript, envPart_none (henv t hgemt)]
          rfl
        · intro hcase
          rcases hcase with h | ⟨t', r', heq, hat'⟩
          · cases h
          · rw [List.cons.injEq] at heq
            exact absurd (heq.1 ▸ hat') hat
        · refine ⟨t, Or.inl (by simp), hgemt, htne, ?_, ?_⟩
          · intro c hc
            exact plainTok_space_free hp c (mem_of_head? hc)
          · intro c hc
            exact plainTok_space_free hp c (mem_of_getLast? hc)
      | cons t2 r =>
        have hts : tokSegs cnt (t :: t2 :: r) =
            ProtSeg.raw (t ++ [' ']) :: tokSegs cnt (t2 :: r) := by
          rw [tokSegs, if_neg hat, if_neg (by simp)]
        obtain ⟨p0', ps', hsp', hparts', hmen0', hplain'⟩ :=
          ih cnt (goodToks_tail hg)
            (fun i v hm => hins i v (by
              rw [hts]
              exact List.mem_cons_of_mem _ hm))
            henv
        have hspnew : splitPieces (tokSegs cnt (t :: t2 :: r)) =
            ((t ++ [' ']) ++ p0') :: ps' := by
          rw [hts, splitPieces, hsp']
        by_cases hat2 : t2.head? = some '@'
        · have hp0' : p0' = [] := hmen0' (Or.inr ⟨t2, r, rfl, hat2⟩)
          subst hp0'
          refine ⟨(t ++ [' ']) ++ [], ps', hspnew, ?_, ?_, fun t' r' ht' _ => ?_⟩
          · have hstrip : pyStrip ((t ++ [' ']) ++ []) = t := by
              rw [List.append_nil, pyStrip_append_space, hstript]
            rw [partsOfPieces_cons_ne env _ (by rw [hstrip]; exact htne),
              hstrip, envPart_none (henv t hgemt)]
            rw [partsOfPieces_cons_nil env _ pyStrip_nil] at hparts'
            rw [groupParts, if_neg hat, if_pos hat2, hparts']
          · intro hcase
            rcases hcase with h | ⟨t', r', heq, hat'⟩
            · cases h
            · rw [List.cons.injEq] at heq
              exact absurd (heq.1 ▸ hat') hat
          · refine ⟨t, Or.inr (by simp), hgemt, htne, ?_, ?_⟩
            · intro c hc
              exact plainTok_space_free hp c (mem_of_head? hc)
            · intro c hc
              exact plainTok_space_free hp c (mem_of_getLast? hc)
        · obtain ⟨g', hg'eq, hg'gem, hg'ne, hg'h, hg'l⟩ :=
            hplain' t2 r rfl hat2
          have hlastg : ∀ c, (t ++ ' ' :: g').getLast? = some c →
              isPySpace c = false := by
            intro c hc
            rw [getLast?_append_right (by simp),
              show (' ' :: g') = [' '] ++ g' from rfl,
              getLast?_append_right hg'ne] at hc
            exact hg'l c hc
          have hheadg : ∀ c, (t ++ ' ' :: g').head? = some c →
              isPySpace c = false := by
            intro c hc
            rw [head?_append_left _ htne] at hc
            exact plainTok_space_free hp c (mem_of_head? hc)
          have hidg : pyStrip (t ++ ' ' :: g') = t ++ ' ' :: g' :=
            pyStrip_id_ends hheadg hlastg
          have hgemg : gem ∉ t ++ ' ' :: g' := by
            intro hm
            rcases List.mem_append.mp hm with hm | hm
            · exact hgemt hm
            · rcases List.mem_cons.mp hm with hm | hm
              · exact absurd hm.symm (by decide)
              · exact hg'gem hm
          have hstrip : pyStrip ((t ++ [' ']) ++ p0') = t ++ ' ' :: g' := by
            rcases hg'eq with he | he
            · rw [he, show (t ++ [' ']) ++ g' = t ++ ' ' :: g' by simp, hidg]
            · rw [he, show (t ++ [' ']) ++ (g' ++ [' ']) =
                (t ++ ' ' :: g') ++ [' '] by simp, pyStrip_append_space, hidg]
          have hstrip' : pyStrip p0' = g' := by
            rcases hg'eq with he | he
            · rw [he]
              exact pyStrip_id_ends hg'h hg'l
            · rw [he, pyStrip_append_space]
              exact pyStrip_id_ends hg'h hg'l
          refine ⟨(t ++ [' ']) ++ p0', ps', hspnew, ?_, ?_,
            fun t' r' ht' _ => ?_⟩
          · rw [partsOfPieces_cons_ne env _ (by rw [hstrip]; simp [htne]),
              hstrip, envPart_none (henv _ hgemg)]
            rw [partsOfPieces_cons_ne env _ (by rw [hstrip']; exact hg'ne),
              hstrip', envPart_none (henv g' hg'gem)] at hparts'
            rw [groupParts, if_neg hat, if_neg hat2, ← hparts']
          · intro hcase
            rcases hcase with h | ⟨t', r', heq, hat'⟩
            · cases h
            · rw [List.cons.injEq] at heq
              exact absurd (heq.1 ▸ hat') hat
          · refine ⟨t ++ ' ' :: g', ?_, hgemg, by simp [htne], hheadg, hlastg⟩
            rcases hg'eq with he | he
            · exact Or.inl (by rw [he]; simp)
            · exact Or.inr (by rw [he]; simp)

/-! ## Phases that do nothing on well-formed token text -/

theorem replaceGoF_single_id (ch : Char) (rep : List Char) :
    ∀ (fuel : Nat) (s : List Char), ch ∉ s →
      replaceGoF ch [] rep fuel s = s := by
  intro fuel
  induction fuel with
  | zero => intro s _; rfl
  | succ k ih =>
    intro s hch
    cases s with
    | nil => rfl
    | cons c rest =>
      rw [replaceGoF, if_neg (by
        rw [List.isPrefixOf_iff_prefix]
        intro hpre
        obtain ⟨u, hu⟩ := hpre
        rw [List.singleton_append, List.cons.injEq] at hu
        exact hch (hu.1 ▸ List.mem_cons_self c rest))]
      rw [ih rest (fun hm => hch (List.mem_cons_of_mem c hm))]

theorem replaceList_single_id {ch : Char} {rep s : List Char} (h : ch ∉ s) :
    replaceList [ch] rep s = s :=
  replaceGoF_single_id ch rep s.length s h

theorem numMatch_none_of_no_kanji {kanji unit : Char} {s : List Char}
    (h : kanji ∉ s) : numMatch kanji unit s = none := by
  cases hm : numMatch kanji unit s with
  | none => rfl
  | some nv =>
    exfalso
    obtain ⟨n, v⟩ := nv
    obtain ⟨_, hg, _, _⟩ := numMatch_some_shape hm
    exact h (mem_of_some_getElem hg)

theorem runSub_id (f : List Char → Option (Nat × List Char)) :
    ∀ (s : List Char) (st : PState),
      (∀ u, u <:+ s → u ≠ [] → f u = none) →
      runSub f st s = (st, s) := by
  intro s
  induction s with
  | nil => intro st _; rfl
  | cons c rest ih =>
    intro st h
    rw [runSub_cons_none st (h (c :: rest) (List.suffix_refl _) (by simp))]
    rw [ih st (fun u hu hne => h u (hu.trans (List.suffix_cons c rest)) hne)]

theorem goodToks_mem : ∀ (toks : List (List Char)), GoodToks toks →
    ∀ t ∈ toks, plainTok t ∨ menTok t := by
  intro toks
  induction toks with
  | nil => intro _ t ht; cases ht
  | cons t0 rest ih =>
    intro hg t ht
    rcases List.mem_cons.mp ht with h | h
    · exact h ▸ goodToks_head hg
    · exact ih (goodToks_tail hg) t h

theorem intercalate_chars : ∀ (toks : List (List Char)) (c : Char),
    c ∈ List.intercalate [' '] toks → c = ' ' ∨ ∃ t ∈ toks, c ∈ t := by
  intro toks
  induction toks with
  | nil =>
    intro c hc
    rw [intercalate_nil_toks] at hc
    cases hc
  | cons t rest ih =>
    intro c hc
    cases rest with
    | nil =>
      rw [intercalate_single] at hc
      exact Or.inr ⟨t, List.mem_cons_self _ _, hc⟩
    | cons t2 r =>
      rw [intercalate_cons2] at hc
      rcases List.mem_append.mp hc with hc | hc
      · exact Or.inr ⟨t, List.mem_cons_self _ _, hc⟩
      · rcases List.mem_cons.mp hc with hc | hc
        · exact Or.inl hc
        · rcases ih c hc with h | ⟨t', ht', hct'⟩
          · exact Or.inl h
          · exact Or.inr ⟨t', List.mem_cons_of_mem _ ht', hct'⟩

theorem space_toNat {c : Char} (h : isPySpace c = true) :
    (9 ≤ c.toNat ∧ c.toNat ≤ 13) ∨ (28 ≤ c.toNat ∧ c.toNat ≤ 31) ∨
    c.toNat = 32 ∨ c.toNat = 133 ∨ c.toNat = 160 ∨ c.toNat = 5760 ∨
    (8192 ≤ c.toNat ∧ c.toNat ≤ 8202) ∨ c.toNat = 8232 ∨
    c.toNat = 8233 ∨ c.toNat = 8239 ∨ c.toNat = 8287 ∨
    c.toNat = 12288 := by
  unfold isPySpace at h
  simp only [Bool.or_eq_true, Bool.and_eq_true, decide_eq_true_eq] at h
  casesm* _ ∨ _
  all_goals try subst c
  all_goals first
    | omega
    | decide

theorem W2_toNat {c : Char} (h : isRecruitWord c = true) :
    (65 ≤ c.toNat ∧ c.toNat ≤ 90) ∨ (97 ≤ c.toNat ∧ c.toNat ≤ 122) ∨
    (48 ≤ c.toNat ∧ c.toNat ≤ 57) ∨
    (12352 ≤ c.toNat ∧ c.toNat ≤ 12543) ∨
    (19968 ≤ c.toNat ∧ c.toNat ≤ 40879) := by
  unfold isRecruitWord at h
  simp only [Bool.or_eq_true, Bool.and_eq_true, decide_eq_true_eq] at h
  rcases h with ((((⟨h1, h2⟩ | ⟨h1, h2⟩) | ⟨h1, h2⟩) | ⟨h1, h2⟩) | ⟨h1, h2⟩)
  · exact Or.inl ⟨by simpa using Char.le_def.mp h1, by simpa using Char.le_def.mp h2⟩
  · exact Or.inr (Or.inl ⟨by simpa using Char.le_def.mp h1,
      by simpa using Char.le_def.mp h2⟩)
  · exact Or.inr (Or.inr (Or.inl ⟨by simpa using Char.le_def.mp h1,
      by simpa using Char.le_def.mp h2⟩))
  · exact Or.inr (Or.inr (Or.inr (Or.inl ⟨h1, h2⟩)))
  · exact Or.inr (Or.inr (Or.inr (Or.inr ⟨h1, h2⟩)))

theorem W2_not_space {c : Char} (h : isRecruitWord c = true) :
    isPySpace c = false := by
  cases hs : isPySpace c
  · rfl
  · exfalso
    have h1 := space_toNat hs
    have h2 := W2_toNat h
    omega

theorem menTok_space_free {t : List Char} (hm : menTok t) :
    ∀ c ∈ t, isPySpace c = false := by
  obtain ⟨tl, ht, _, htlc⟩ := hm
  subst ht
  intro c hc
  rcases List.mem_cons.mp hc with h | h
  · subst h
    decide
  · exact W2_not_space (htlc c h).1

theorem tok_space_free {t : List Char} (h : plainTok t ∨ menTok t) :
    ∀ c ∈ t, isPySpace c = false := by
  rcases h with h | h
  · exact plainTok_space_free h
  · exact menTok_space_free h

theorem flatten_tokSegs_chars : ∀ (toks : List (List Char)) (cnt : Nat),
    GoodToks toks →
    ∀ c ∈ flattenSegs (tokSegs cnt toks),
      c = ' ' ∨ plainChar c ∨ ∃ i, c ∈ insRegion i := by
  intro toks
  induction toks with
  | nil =>
    intro cnt _ c hc
    rw [show tokSegs cnt [] = [] from rfl, flattenSegs_nil] at hc
    cases hc
  | cons t rest ih =>
    intro cnt hg c hc
    have hht := goodToks_head hg
    by_cases ht : t.head? = some '@'
    · rw [tokSegs, if_pos ht] at hc
      cases rest with
      | nil =>
        rw [if_pos rfl, flattenSegs_ins, flattenSegs_nil,
          List.append_nil] at hc
        exact Or.inr (Or.inr ⟨cnt, hc⟩)
      | cons t2 r =>
        rw [if_neg (by simp), flattenSegs_ins, flattenSegs_raw] at hc
        rcases List.mem_append.mp hc with hc | hc
        · exact Or.inr (Or.inr ⟨cnt, hc⟩)
        · rcases List.mem_append.mp hc with hc | hc
          · exact Or.inl (List.mem_singleton.mp hc)
          · exact ih (cnt + 1) (goodToks_tail hg) c hc
    · have hp : plainTok t := by
        rcases hht with hp | hm
        · exact hp
        · obtain ⟨tl, htl, -, -⟩ := hm
          subst htl
          exact absurd List.head?_cons ht
      rw [tokSegs, if_neg ht] at hc
      cases rest with
      | nil =>
        rw [if_pos rfl, flattenSegs_raw, show tokSegs cnt [] = [] from rfl,
          flattenSegs_nil, List.append_nil, List.append_nil] at hc
        exact Or.inr (Or.inl (hp.2.1 c hc))
      | cons t2 r =>
        rw [if_neg (by simp), flattenSegs_raw] at hc
        rcases List.mem_append.mp hc with hc | hc
        · rcases List.mem_append.mp hc with hc | hc
          · exact Or.inr (Or.inl (hp.2.1 c hc))
          · exact Or.inl (List.mem_singleton.mp hc)
        · exact ih cnt (goodToks_tail hg) c hc

theorem flatten_no_kanji {K : Char}
    (hK : K = Char.ofNat 0x7A2E ∨ K = Char.ofNat 0x4EBA ∨
      K = Char.ofNat 0x5468 ∨ K = Char.ofNat 0x56DE)
    (toks : List (List Char)) (cnt : Nat) (hg : GoodToks toks) :
    K ∉ flattenSegs (tokSegs cnt toks) := by
  intro hc
  rcases flatten_tokSegs_chars toks cnt hg K hc with h | h | ⟨i, h⟩
  · rcases hK with e | e | e | e <;> subst e <;> exact absurd h (by decide)
  · obtain ⟨-, -, -, -, -, -, h7, h8, h9, h10, -⟩ := h
    rcases hK with e | e | e | e
    exacts [h7 e, h8 e, h9 e, h10 e]
  · rcases region_chars h with h2 | h2 | h2 <;>
      rcases hK with e | e | e | e <;> subst e <;> exact absurd h2 (by decide)

theorem runSub_num_id (K u : Char) (st : PState) (T : List Char)
    (hK : K ∉ T) :
    runSub (numMatch K u) st T = (st, T) := by
  apply runSub_id
  intro s hs _
  apply numMatch_none_of_no_kanji
  intro hm
  exact hK (hs.subset hm)

theorem num_fold_id : ∀ (ps : List (Char × Char)) (st : PState) (T : List Char),
    (∀ p ∈ ps, p.1 ∉ T) →
    ps.foldl (fun (acc : PState × List Char) pu =>
      runSub (numMatch pu.1 pu.2) acc.1 acc.2) (st, T) = (st, T) := by
  intro ps
  induction ps with
  | nil => intro st T _; rfl
  | cons p r ih =>
    intro st T h
    rw [List.foldl_cons]
    show List.foldl (fun (acc : PState × List Char) pu =>
      runSub (numMatch pu.1 pu.2) acc.1 acc.2)
      (runSub (numMatch p.1 p.2) st T) r = (st, T)
    rw [runSub_num_id p.1 p.2 st T (h p (List.mem_cons_self _ _))]
    exact ih st T (fun q hq => h q (List.mem_cons_of_mem _ hq))

theorem punct_fold_id : ∀ (ps : List (Char × List Char)) (s : List Char),
    (∀ p ∈ ps, p.1 ∉ s) →
    ps.foldl (fun s pr => replaceList [pr.1] pr.2 s) s = s := by
  intro ps
  induction ps with
  | nil => intro s _; rfl
  | cons p r ih =>
    intro s h
    rw [List.foldl_cons]
    show List.foldl (fun s pr => replaceList [pr.1] pr.2 s)
      (replaceList [p.1] p.2 s) r = s
    rw [replaceList_single_id (h p (List.mem_cons_self _ _))]
    exact ih s (fun q hq => h q (List.mem_cons_of_mem _ hq))

theorem tok_head_not_punct {t : List Char} (h : plainTok t ∨ menTok t) :
    ∀ c, t.head? = some c → isFinalPunct c = false := by
  intro c hc
  rcases h with hp | hm
  · exact hp.2.2 c hc
  · obtain ⟨tl, ht, -, -⟩ := hm
    subst ht
    rw [List.head?_cons, Option.some.injEq] at hc
    subst hc
    decide

theorem recruit_not_particle {c : Char} (h : isRecruitWord c = true) :
    isParticle c = false := by
  cases hp : isParticle c
  · rfl
  · exfalso
    have h2 := W2_toNat h
    rcases isParticle_cases hp with e | e | e | e | e | e | e | e <;>
      subst e <;> revert h2 <;> decide

theorem tok_not_particle {t : List Char} (h : plainTok t ∨ menTok t) :
    ∀ c ∈ t, isParticle c = false := by
  intro c hc
  rcases h with hp | hm
  · exact (hp.2.1 c hc).2.2.2.2.2.2.2.2.2.2
  · obtain ⟨tl, ht, -, htlc⟩ := hm
    subst ht
    rcases List.mem_cons.mp hc with hc | hc
    · subst hc; decide
    · exact recruit_not_particle (htlc c hc).1

theorem fkj_id : ∀ (s : List Char), (∀ c ∈ s, isParticle c = false) →
    fix_korean_josa s = s := by
  intro s
  induction s with
  | nil => intro _; rfl
  | cons c rest ih =>
    intro h
    have hm : josaMatchLen (c :: rest) = none := by
      cases hml : josaMatchLen (c :: rest) with
      | none => rfl
      | some w =>
        exfalso
        obtain ⟨-, -, p, hp, hpart, -⟩ := josaMatchLen_some hml
        rw [h p (List.get?_mem hp)] at hpart
        exact Bool.noConfusion hpart
    rw [fkj_none hm, ih (fun x hx => h x (List.mem_cons_of_mem _ hx))]

theorem chain_of_space_free {l : List Char}
    (h : ∀ c ∈ l, isPySpace c = false) :
    l.Chain' (fun a b => isPySpace a = true → isFinalPunct b = false) := by
  induction l with
  | nil => exact List.chain'_nil
  | cons c rest ih =>
    cases rest with
    | nil => exact List.chain'_singleton c
    | cons d r =>
      rw [List.chain'_cons]
      refine ⟨fun hs => ?_, ih (fun x hx => h x (List.mem_cons_of_mem _ hx))⟩
      rw [h c (List.mem_cons_self _ _)] at hs
      exact Bool.noConfusion hs

theorem goodToks_chain : ∀ (toks : List (List Char)), GoodToks toks →
    (List.intercalate [' '] toks).Chain'
      (fun a b => isPySpace a = true → isFinalPunct b = false) := by
  intro toks
  induction toks with
  | nil =>
    intro _
    rw [intercalate_nil_toks]
    exact List.chain'_nil
  | cons t rest ih =>
    intro hg
    cases rest with
    | nil =>
      rw [intercalate_single]
      exact chain_of_space_free (tok_space_free hg)
    | cons t2 r =>
      rw [intercalate_cons2, List.chain'_append]
      refine ⟨chain_of_space_free (tok_space_free (goodToks_head hg)), ?_, ?_⟩
      · rw [List.chain'_cons']
        refine ⟨?_, ih (goodToks_tail hg)⟩
        intro y hy
        rw [intercalate_head r
          (tok_ne_nil (goodToks_head (goodToks_tail hg)))] at hy
        intro _
        cases t2 with
        | nil => cases hy
        | cons c2 x2 =>
          rw [List.head?_cons] at hy
          have hy2 := Option.mem_some_iff.mp hy
          have hnp := tok_head_not_punct
            (goodToks_head (goodToks_tail hg)) c2 rfl
          rwa [hy2] at hnp
      · intro x _ y hy
        rw [List.head?_cons] at hy
        have hy2 := Option.mem_some_iff.mp hy
        subst hy2
        intro _
        decide

theorem remWsPunct_id : ∀ (s : List Char),
    s.Chain' (fun a b => isPySpace a = true → isFinalPunct b = false) →
    remWsPunct s = s := by
  intro s
  induction s with
  | nil => intro _; rfl
  | cons c rest ih =>
    intro h
    rw [remWsPunct_cons, ih h.tail]
    cases hc : isPySpace c with
    | false => rw [if_neg (by simp)]
    | true =>
      have hp : headPunct rest = false := by
        cases rest with
        | nil => rfl
        | cons d r =>
          have hr := (List.chain'_cons.mp h).1 hc
          simp only [headPunct, List.head?_cons]
          exact hr
      rw [if_neg (by rw [hp]; decide)]

theorem intercalate_getLast : ∀ (r : List (List Char)) (t : List Char),
    (∀ u ∈ t :: r, u ≠ []) →
    ∃ tL ∈ t :: r,
      (List.intercalate [' '] (t :: r)).getLast? = tL.getLast? := by
  intro r
  induction r with
  | nil =>
    intro t _
    exact ⟨t, List.mem_cons_self _ _, by rw [intercalate_single]⟩
  | cons q qs ih =>
    intro t hne
    obtain ⟨tL, htL, he⟩ := ih q (fun u hu => hne u (List.mem_cons_of_mem _ hu))
    refine ⟨tL, List.mem_cons_of_mem _ htL, ?_⟩
    rw [intercalate_cons2]
    have hI : List.intercalate [' '] (q :: qs) ≠ [] := by
      intro h0
      have hh := intercalate_head qs
        (hne q (List.mem_cons_of_mem _ (List.mem_cons_self _ _)))
      rw [h0] at hh
      obtain ⟨c, x, hq⟩ := List.exists_cons_of_ne_nil
        (hne q (List.mem_cons_of_mem _ (List.mem_cons_self _ _)))
      rw [hq, List.head?_cons] at hh
      exact Option.noConfusion hh
    rw [getLast?_append_right
      (by simp : (' ' :: List.intercalate [' '] (q :: qs) : List Char) ≠ [])]
    rw [show (' ' :: List.intercalate [' '] (q :: qs)) =
      [' '] ++ List.intercalate [' '] (q :: qs) from rfl]
    rw [getLast?_append_right hI]
    exact he

theorem intercalate_ends_space_free (toks : List (List Char))
    (hg : GoodToks toks) :
    (∀ c, (List.intercalate [' '] toks).head? = some c →
      isPySpace c = false) ∧
    (∀ c, (List.intercalate [' '] toks).getLast? = some c →
      isPySpace c = false) := by
  cases toks with
  | nil =>
    constructor <;> intro c hc <;> rw [intercalate_nil_toks] at hc <;>
      cases hc
  | cons t r =>
    constructor
    · intro c hc
      rw [intercalate_head r (tok_ne_nil (goodToks_head hg))] at hc
      exact tok_space_free (goodToks_head hg) c (mem_of_head? hc)
    · intro c hc
      obtain ⟨tL, htL, he⟩ := intercalate_getLast r t
        (fun u hu => tok_ne_nil (goodToks_mem _ hg u hu))
      rw [he] at hc
      exact tok_space_free (goodToks_mem _ hg tL htL) c (mem_of_getLast? hc)

theorem wordsOf_nil : wordsOf [] = [] := rfl

theorem wordsOf_cons_space (c : Char) (rest : List Char)
    (h : isPySpace c = true) :
    wordsOf (c :: rest) = [] :: wordsOf rest := by
  show (if isPySpace c then [] :: wordsOf rest
    else match wordsOf rest with
      | [] => [[c]]
      | w :: ws => (c :: w) :: ws) = [] :: wordsOf rest
  rw [if_pos h]

theorem wordsOf_cons_word (c : Char) (rest : List Char)
    (h : isPySpace c = false) :
    wordsOf (c :: rest) =
      match wordsOf rest with
      | [] => [[c]]
      | w :: ws => (c :: w) :: ws := by
  show (if isPySpace c then [] :: wordsOf rest
    else match wordsOf rest with
      | [] => [[c]]
      | w :: ws => (c :: w) :: ws) = _
  rw [if_neg (by rw [h]; simp)]

theorem wordsOf_append_word : ∀ (t s : List Char),
    (∀ c ∈ t, isPySpace c = false) →
    ∀ (w : List Char) (ws : List (List Char)), wordsOf s = w :: ws →
      wordsOf (t ++ s) = (t ++ w) :: ws := by
  intro t
  induction t with
  | nil => intro s _ w ws hs; simpa using hs
  | cons c rest ih =>
    intro s h w ws hs
    rw [List.cons_append,
      wordsOf_cons_word c (rest ++ s) (h c (List.mem_cons_self _ _)),
      ih s (fun x hx => h x (List.mem_cons_of_mem _ hx)) w ws hs]
    rfl

theorem wordsOf_of_space_free : ∀ (t : List Char), t ≠ [] →
    (∀ c ∈ t, isPySpace c = false) → wordsOf t = [t] := by
  intro t
  induction t with
  | nil => intro h; exact absurd rfl h
  | cons c rest ih =>
    intro _ h
    cases rest with
    | nil =>
      rw [wordsOf_cons_word c [] (h c (List.mem_cons_self _ _)), wordsOf_nil]
    | cons d r =>
      rw [wordsOf_cons_word c (d :: r) (h c (List.mem_cons_self _ _)),
        ih (by simp) (fun x hx => h x (List.mem_cons_of_mem _ hx))]

theorem words_intercalate : ∀ (toks : List (List Char)),
    (∀ t ∈ toks, t ≠ []) →
    (∀ t ∈ toks, ∀ c ∈ t, isPySpace c = false) →
    wordsOf (List.intercalate [' '] toks) = toks := by
  intro toks
  induction toks with
  | nil =>
    intro _ _
    rw [intercalate_nil_toks, wordsOf_nil]
  | cons t rest ih =>
    intro hne hsf
    cases rest with
    | nil =>
      rw [intercalate_single]
      exact wordsOf_of_space_free t (hne t (List.mem_cons_self _ _))
        (hsf t (List.mem_cons_self _ _))
    | cons t2 r =>
      rw [intercalate_cons2]
      have hI := ih (fun u hu => hne u (List.mem_cons_of_mem _ hu))
        (fun u hu => hsf u (List.mem_cons_of_mem _ hu))
      have hs : wordsOf (' ' :: List.intercalate [' '] (t2 :: r)) =
          [] :: wordsOf (List.intercalate [' '] (t2 :: r)) :=
        wordsOf_cons_space _ _ (by decide)
      rw [wordsOf_append_word t (' ' :: List.intercalate [' '] (t2 :: r))
        (hsf t (List.mem_cons_self _ _)) []
        (wordsOf (List.intercalate [' '] (t2 :: r))) hs]
      rw [List.append_nil, hI]

theorem filter_ne_nil_of_all : ∀ (l : List (List Char)),
    (∀ x ∈ l, x ≠ []) → l.filter (· ≠ []) = l := by
  intro l
  induction l with
  | nil => intro _; rfl
  | cons x xs ih =>
    intro h
    rw [List.filter_cons_of_pos
      (by simpa using h x (List.mem_cons_self _ _)),
      ih (fun y hy => h y (List.mem_cons_of_mem _ hy))]

theorem wsNormalize_intercalate (toks : List (List Char))
    (hg : GoodToks toks) :
    wsNormalize (List.intercalate [' '] toks) =
      List.intercalate [' '] toks := by
  unfold wsNormalize
  rw [words_intercalate toks
    (fun t ht => tok_ne_nil (goodToks_mem _ hg t ht))
    (fun t ht => tok_space_free (goodToks_mem _ hg t ht)),
    filter_ne_nil_of_all toks
      (fun t ht => tok_ne_nil (goodToks_mem _ hg t ht))]

theorem intercalate_no_punct (toks : List (List Char)) (hg : GoodToks toks) :
    ∀ p ∈ punctPairs, p.1 ∉ List.intercalate [' '] toks := by
  intro p hp hc
  have hp4 : p.1 = Char.ofNat 0x3001 ∨ p.1 = Char.ofNat 0x3002 ∨
      p.1 = Char.ofNat 0x30FB ∨ p.1 = Char.ofNat 0x3000 := by
    simp only [punctPairs, List.mem_cons, List.not_mem_nil, or_false] at hp
    rcases hp with e | e | e | e <;> subst e <;> decide
  rcases intercalate_chars toks p.1 hc with h | ⟨t, ht, hct⟩
  · rcases hp4 with e | e | e | e <;> rw [e] at h <;> exact absurd h (by decide)
  · rcases goodToks_mem toks hg t ht with hpt | hmt
    · obtain ⟨hsp, -, -, h1, h2, h3, -, -, -, -, -⟩ := hpt.2.1 p.1 hct
      rcases hp4 with e | e | e | e
      · exact h1 e
      · exact h2 e
      · exact h3 e
      · rw [e] at hsp
        exact absurd hsp (by decide)
    · obtain ⟨tl, htm, -, htlc⟩ := hmt
      subst htm
      rcases List.mem_cons.mp hct with h | h
      · rcases hp4 with e | e | e | e <;> rw [e] at h <;>
          exact absurd h (by decide)
      · have hrw := (htlc _ h).1
        have hnf := (htlc _ h).2
        rcases hp4 with e | e | e | e
        · rw [e] at hrw; exact absurd hrw (by decide)
        · rw [e] at hrw; exact absurd hrw (by decide)
        · exact hnf e
        · rw [e] at hrw; exact absurd hrw (by decide)

theorem tokSegs_segsOk : ∀ (toks : List (List Char)) (cnt : Nat),
    GoodToks toks → SegsOk (tokSegs cnt toks) := by
  intro toks
  induction toks with
  | nil =>
    intro cnt _ sg hsg
    rw [show tokSegs cnt [] = [] from rfl] at hsg
    cases hsg
  | cons t rest ih =>
    intro cnt hg sg hsg
    by_cases ht : t.head? = some '@'
    · rw [tokSegs, if_pos ht] at hsg
      rcases List.mem_cons.mp hsg with h | h
      · subst h; trivial
      · cases rest with
        | nil =>
          rw [if_pos rfl] at h
          cases h
        | cons t2 r =>
          rw [if_neg (by simp)] at h
          rcases List.mem_cons.mp h with h | h
          · subst h
            intro hgm
            exact absurd (List.mem_singleton.mp hgm) (by decide)
          · exact ih (cnt + 1) (goodToks_tail hg) sg h
    · have hp : plainTok t := by
        rcases goodToks_head hg with hp | hm
        · exact hp
        · obtain ⟨tl, htl, -, -⟩ := hm
          subst htl
          exact absurd List.head?_cons ht
      rw [tokSegs, if_neg ht] at hsg
      rcases List.mem_cons.mp hsg with h | h
      · subst h
        intro hgm
        rcases List.mem_append.mp hgm with h2 | h2
        · exact plainTok_gem_free hp h2
        · cases rest with
          | nil =>
            rw [if_pos rfl] at h2
            cases h2
          | cons t2 r =>
            rw [if_neg (by simp)] at h2
            exact absurd (List.mem_singleton.mp h2) (by decide)
      · exact ih cnt (goodToks_tail hg) sg h

theorem preprocess_state_empty (text : List Char) :
    preprocess_state text [] [] =
      numPatterns.foldl
        (fun (acc : PState × List Char) pu =>
          runSub (numMatch pu.1 pu.2) acc.1 acc.2)
        (runSub recruitMatch ⟨[], 0⟩
          (punctPairs.foldl (fun s pr => replaceList [pr.1] pr.2 s) text)) :=
  rfl

theorem chunk_fst_envPart (pmap : List (List Char × List Char))
    (l : List (List Char)) :
    (l.map (fun c =>
      match lookupPh pmap c with
      | some v => (v, true)
      | none => (c, false))).map (fun c => c.1) =
    l.map (envPart (lookupPh pmap)) := by
  rw [List.map_map]
  apply List.map_congr_left
  intro c _
  show (match lookupPh pmap c with
    | some v => (v, true)
    | none => (c, false)).1 = envPart (lookupPh pmap) c
  cases h : lookupPh pmap c with
  | some v => rw [envPart_some h]
  | none => rw [envPart_none h]

theorem chunking_groupParts (toks : List (List Char)) (hg : GoodToks toks) :
    (preprocess_chunking (List.intercalate [' '] toks) [] []).map
      (fun c => c.1) = groupParts toks := by
  have hpunct : punctPairs.foldl (fun s pr => replaceList [pr.1] pr.2 s)
      (List.intercalate [' '] toks) = List.intercalate [' '] toks :=
    punct_fold_id punctPairs _ (intercalate_no_punct toks hg)
  obtain ⟨st, hrun, hPS, hIns, -⟩ := recruit_scan toks ⟨[], 0⟩ hg PSOk_init
  have hnum : ∀ p ∈ numPatterns, p.1 ∉ flattenSegs (tokSegs 0 toks) := by
    intro p hp
    simp only [numPatterns, List.mem_cons, List.not_mem_nil, or_false] at hp
    rcases hp with e | e | e | e
    · subst e; exact flatten_no_kanji (Or.inl rfl) toks 0 hg
    · subst e; exact flatten_no_kanji (Or.inr (Or.inl rfl)) toks 0 hg
    · subst e; exact flatten_no_kanji (Or.inr (Or.inr (Or.inl rfl))) toks 0 hg
    · subst e; exact flatten_no_kanji (Or.inr (Or.inr (Or.inr rfl))) toks 0 hg
  have hsegsOk : SegsOk (tokSegs 0 toks) := tokSegs_segsOk toks 0 hg
  have hps : preprocess_state (List.intercalate [' '] toks) [] [] =
      (st, flattenSegs (tokSegs 0 toks)) := by
    rw [preprocess_state_empty, hpunct, hrun]
    exact num_fold_id numPatterns st _ hnum
  have hchunks := preprocess_chunking_eq (List.intercalate [' '] toks) [] []
  rw [hps] at hchunks
  rw [splitOnL_flatten (tokSegs 0 toks) hsegsOk] at hchunks
  obtain ⟨p0, ps, hsp, hparts, -, -⟩ := parts_tokSegs (lookupPh st.pmap)
    toks 0 hg
    (fun i v hins => (hIns _ hins).2)
    (fun q hq => lookupPh_none_gemfree hPS hq)
  rw [hchunks, hsp, chunk_fst_envPart]
  exact hparts

theorem reassemble_groupParts (toks : List (List Char)) (hg : GoodToks toks) :
    reassemble (groupParts toks) = List.intercalate [' '] toks := by
  have hpart : ∀ c ∈ List.intercalate [' '] toks, isParticle c = false := by
    intro c hc
    rcases intercalate_chars toks c hc with h | ⟨t, ht, hct⟩
    · subst h; decide
    · exact tok_not_particle (goodToks_mem _ hg t ht) c hct
  unfold reassemble
  rw [filter_ne_nil_of_all (groupParts toks)
    (groupParts_nonempty toks (fun t ht => tok_ne_nil (goodToks_mem _ hg t ht)))]
  rw [groupParts_join]
  rw [spacePunctSub_eq_remWsPunct (List.intercalate [' '] toks).length
    (List.intercalate [' '] toks) (le_refl _)]
  rw [remWsPunct_id _ (goodToks_chain toks hg)]
  rw [fkj_id _ hpart]
  exact pyStrip_id_ends (intercalate_ends_space_free toks hg).1
    (intercalate_ends_space_free toks hg).2

theorem processMessage_eq (tr : List Char → List Char) (text : List Char)
    (rawDict nicks : List (List Char × List Char)) :
    processMessage tr text rawDict nicks =
      reassemble (resolveMapping tr
        (mkMapping (preprocess_chunking text rawDict nicks) 0).1
        (mkMapping (preprocess_chunking text rawDict nicks) 0).2) := rfl

theorem map_routeChunk_id (chunks : List (List Char × Bool)) :
    chunks.map (routeChunk id) = chunks.map (fun c => c.1) := by
  apply List.map_congr_left
  intro c _
  unfold routeChunk
  split <;> rfl

/-- C7 (counterexample): on the input `"a ."` — a text, not a token list —
the pipeline (identity translation, empty dictionary, no nicknames) returns
`"a."`: the reassembly deletes the whitespace before the final `.`, while the
whitespace-normalized original is `"a ."` itself.  The round trip therefore
does not hold for arbitrary input text, refuting the claim as stated. -/
theorem claim_C7_roundtrip_counterexample :
    processMessage id ['a', ' ', '.'] [] [] = ['a', '.'] ∧
    wsNormalize ['a', ' ', '.'] = ['a', ' ', '.'] ∧
    processMessage id ['a', ' ', '.'] [] [] ≠ wsNormalize ['a', ' ', '.'] := by
  refine ⟨by decide, by decide, ?_⟩
  intro h
  rw [show wsNormalize ['a', ' ', '.'] = ['a', ' ', '.'] from by decide] at h
  rw [show processMessage id ['a', ' ', '.'] [] [] = ['a', '.'] from by
    decide] at h
  exact absurd h (by decide)

/-- C7 (amended): on whitespace-separated token lists — each token either an
inert ordinary word or an `@`-mention, with no mention absorbing the following
token — running protection with its chunk splitting, applying the identity
function to every chunk, and reassembling in original order yields the
whitespace-normalized original text (which is the original text itself). -/
theorem claim_C7_roundtrip_amended (toks : List (List Char))
    (hg : GoodToks toks) :
    processMessage id (List.intercalate [' '] toks) [] [] =
      wsNormalize (List.intercalate [' '] toks) := by
  have hresolve := resolve_mkMapping id
    (preprocess_chunking (List.intercalate [' '] toks) [] []) []
  rw [List.length_nil, List.nil_append] at hresolve
  rw [processMessage_eq, hresolve, map_routeChunk_id,
    chunking_groupParts toks hg, reassemble_groupParts toks hg,
    wsNormalize_intercalate toks hg]

/-- C7 (amended, witness): the token list `["ab", "@x"]` is well-formed and
the pipeline returns the joined text `"ab @x"` unchanged. -/
theorem claim_C7_roundtrip_amended_witness :
    GoodToks [['a', 'b'], ['@', 'x']] ∧
    processMessage id
        (List.intercalate [' '] [['a', 'b'], ['@', 'x']]) [] [] =
      wsNormalize (List.intercalate [' '] [['a', 'b'], ['@', 'x']]) := by
  have hg : GoodToks [['a', 'b'], ['@', 'x']] := by
    refine ⟨Or.inl ⟨by simp, by decide, ?_⟩, ?_, Or.inr ⟨['x'], rfl, by simp,
      by decide⟩⟩
    · intro c hc
      rw [List.head?_cons, Option.some.injEq] at hc
      subst hc
      decide
    · intro hm
      obtain ⟨tl, htl, -, -⟩ := hm
      rw [List.cons.injEq] at htl
      exact absurd htl.1 (by decide)
  exact ⟨hg, claim_C7_roundtrip_amended [['a', 'b'], ['@', 'x']] hg⟩
